import Mathlib

/-!
# Verification of the HeartOfMagic spell-tree builder

A shallow embedding, in Lean 4, of the core tree-construction and
validation code of the HeartOfMagic repository:

* SKSE/Plugins/SpellLearning/SpellTreeBuilder/core/node.py
  (the TreeNode data model, link_nodes, unlink_nodes);
* SKSE/Plugins/SpellLearning/SpellTreeBuilder/validator.py
  (simulate_unlocks, find_unreachable_nodes, detect_cycles,
  validate_school_tree, fix_unreachable_nodes, get_validation_summary);
* PrismaUI/.../modules/classic/python/classic_build_tree.py
  (classic_build_tree_from_data and its helpers);
* PrismaUI/.../modules/graph/python/graph_build_tree.py
  (_compute_edge_cost and _constrain_branching).

Modelling conventions:

* Python dicts that preserve insertion order are modelled as association
  lists (List (Key x Value)); dict assignment of an existing key keeps its
  position and replaces the value.
* Python sets that the source only queries for membership are modelled as
  duplicate-free lists in insertion order.
* Python floats are modelled as rationals.
* Python string form ids are modelled as Lean String.
* The seeded global generator (random.seed / random.uniform /
  random.choice / random.shuffle) is modelled as a deterministic stream
  of naturals threaded through the computation in draw order; the claims
  proven here quantify over every stream, or over a stream that is a
  fixed function of the seed, which is exactly what Python guarantees
  for a seeded Mersenne twister.
* The wall clock (datetime.now / time.time) is an explicit input.
-/

/-! ## The node model: core/node.py -/

/-- The TreeNode dataclass of core/node.py: spell identity, tier and
school strings, optional theme, children and prerequisite id lists,
depth, layout position, root flag and section tag. -/
structure TreeNode where
  form_id : String
  name : String := ""
  tier : String := "Unknown"
  school : String := "Unknown"
  theme : Option String := none
  children : List String := []
  prerequisites : List String := []
  depth : Int := 0
  position : Option (ℚ × ℚ) := none
  is_root : Bool := false
  sectionTag : Option String := none
  deriving DecidableEq, Repr

/-- TreeNode.add_child: append the id unless it is already present. -/
def TreeNode.add_child (n : TreeNode) (child_id : String) : TreeNode :=
  if child_id ∈ n.children then n
  else { n with children := n.children ++ [child_id] }

/-- TreeNode.add_prerequisite: append the id unless it is already present. -/
def TreeNode.add_prerequisite (n : TreeNode) (prereq_id : String) : TreeNode :=
  if prereq_id ∈ n.prerequisites then n
  else { n with prerequisites := n.prerequisites ++ [prereq_id] }

/-- link_nodes mutates both endpoints: the parent gains the child id, the
child gains the parent id as prerequisite, and the child depth is set to
parent depth + 1.  Modelled as returning the two updated nodes. -/
def link_nodes (parent child : TreeNode) : TreeNode × TreeNode :=
  (parent.add_child child.form_id,
   { child.add_prerequisite parent.form_id with depth := parent.depth + 1 })

/-- unlink_nodes removes the first occurrence of the child id from the
parent children and of the parent id from the child prerequisites; the
depth is not touched. -/
def unlink_nodes (parent child : TreeNode) : TreeNode × TreeNode :=
  ({ parent with children :=
      if child.form_id ∈ parent.children then parent.children.erase child.form_id
      else parent.children },
   { child with prerequisites :=
      if parent.form_id ∈ child.prerequisites then child.prerequisites.erase parent.form_id
      else child.prerequisites })

/-- A call to one of the two guarded-append mutators of TreeNode. -/
inductive NodeOp where
  | addChild (id : String)
  | addPrereq (id : String)
  deriving DecidableEq, Repr

/-- Apply one mutator call. -/
def applyNodeOp (n : TreeNode) : NodeOp → TreeNode
  | .addChild i => n.add_child i
  | .addPrereq i => n.add_prerequisite i

/-- Apply a sequence of mutator calls in order. -/
def applyNodeOps (n : TreeNode) (ops : List NodeOp) : TreeNode :=
  ops.foldl applyNodeOp n

theorem add_child_nodup (n : TreeNode) (i : String) (h : n.children.Nodup) :
    (n.add_child i).children.Nodup := by
  unfold TreeNode.add_child
  by_cases hm : i ∈ n.children
  · simp [hm, h]
  · simp only [hm, if_false]
    have hd : n.children.Disjoint [i] := by
      intro a ha hb
      simp only [List.mem_singleton] at hb
      subst hb; exact hm ha
    simpa using List.Nodup.append h (List.nodup_singleton i) hd

theorem add_child_prereqs (n : TreeNode) (i : String) :
    (n.add_child i).prerequisites = n.prerequisites := by
  unfold TreeNode.add_child
  by_cases hm : i ∈ n.children <;> simp [hm]

theorem add_prereq_nodup (n : TreeNode) (i : String) (h : n.prerequisites.Nodup) :
    (n.add_prerequisite i).prerequisites.Nodup := by
  unfold TreeNode.add_prerequisite
  by_cases hm : i ∈ n.prerequisites
  · simp [hm, h]
  · simp only [hm, if_false]
    have hd : n.prerequisites.Disjoint [i] := by
      intro a ha hb
      simp only [List.mem_singleton] at hb
      subst hb; exact hm ha
    simpa using List.Nodup.append h (List.nodup_singleton i) hd

theorem add_prereq_children (n : TreeNode) (i : String) :
    (n.add_prerequisite i).children = n.children := by
  unfold TreeNode.add_prerequisite
  by_cases hm : i ∈ n.prerequisites <;> simp [hm]

/-- C9: add_child and add_prerequisite are idempotent, and any sequence of
such calls keeps both id lists duplicate-free when they start so. -/
theorem treeNode_add_idempotent_and_nodup :
    (∀ (n : TreeNode) (i : String), (n.add_child i).add_child i = n.add_child i) ∧
    (∀ (n : TreeNode) (i : String),
      (n.add_prerequisite i).add_prerequisite i = n.add_prerequisite i) ∧
    (∀ (n : TreeNode) (ops : List NodeOp),
      n.children.Nodup → n.prerequisites.Nodup →
      (applyNodeOps n ops).children.Nodup ∧ (applyNodeOps n ops).prerequisites.Nodup) := by
  refine ⟨?_, ?_, ?_⟩
  · intro n i
    unfold TreeNode.add_child
    by_cases hm : i ∈ n.children
    · simp [hm]
    · simp [hm]
  · intro n i
    unfold TreeNode.add_prerequisite
    by_cases hm : i ∈ n.prerequisites
    · simp [hm]
    · simp [hm]
  · intro n ops
    induction ops generalizing n with
    | nil => intro h1 h2; exact ⟨h1, h2⟩
    | cons op rest ih =>
      intro h1 h2
      have hstep : (applyNodeOp n op).children.Nodup ∧
          (applyNodeOp n op).prerequisites.Nodup := by
        cases op with
        | addChild i =>
          simp only [applyNodeOp]
          exact ⟨add_child_nodup n i h1, by rw [add_child_prereqs]; exact h2⟩
        | addPrereq i =>
          simp only [applyNodeOp]
          exact ⟨by rw [add_prereq_children]; exact h1, add_prereq_nodup n i h2⟩
      simpa [applyNodeOps] using ih (applyNodeOp n op) hstep.1 hstep.2

/-- C9 witness: the theorem applied to a concrete node and call sequence. -/
theorem treeNode_add_idempotent_and_nodup_witness :
    (applyNodeOps { form_id := "r" } [.addChild "a", .addChild "a", .addPrereq "b"]).children.Nodup ∧
    (applyNodeOps { form_id := "r" } [.addChild "a", .addChild "a", .addPrereq "b"]).prerequisites.Nodup :=
  treeNode_add_idempotent_and_nodup.2.2 { form_id := "r" }
    [.addChild "a", .addChild "a", .addPrereq "b"] (List.nodup_nil) (List.nodup_nil)

/-- C10: when the edge is not already present, linking then unlinking
restores the parent exactly and restores the child except for its depth,
which stays at parent depth + 1: the depth write is not rolled back. -/
theorem link_unlink_leaves_depth (p c : TreeNode)
    (h1 : c.form_id ∉ p.children) (h2 : p.form_id ∉ c.prerequisites) :
    (unlink_nodes (link_nodes p c).1 (link_nodes p c).2).1 = p ∧
    (unlink_nodes (link_nodes p c).1 (link_nodes p c).2).2 = { c with depth := p.depth + 1 } := by
  have hc : (link_nodes p c).1.children = p.children ++ [c.form_id] := by
    simp [link_nodes, TreeNode.add_child, h1]
  have hq : (link_nodes p c).2.prerequisites = c.prerequisites ++ [p.form_id] := by
    simp [link_nodes, TreeNode.add_prerequisite, h2]
  have hfid : (link_nodes p c).2.form_id = c.form_id := by
    simp [link_nodes, TreeNode.add_prerequisite, h2]
  have hpfid : (link_nodes p c).1.form_id = p.form_id := by
    simp [link_nodes, TreeNode.add_child, h1]
  constructor
  · have hmem : (link_nodes p c).2.form_id ∈ (link_nodes p c).1.children := by
      rw [hfid, hc]; simp
    have herase : (p.children ++ [c.form_id]).erase c.form_id = p.children := by
      rw [List.erase_append_right _ h1]; simp
    simp only [unlink_nodes, hmem, if_true, hfid, hc, herase]
    simp [link_nodes, TreeNode.add_child, h1]
  · have hmem : (link_nodes p c).1.form_id ∈ (link_nodes p c).2.prerequisites := by
      rw [hpfid, hq]; simp
    have herase : (c.prerequisites ++ [p.form_id]).erase p.form_id = c.prerequisites := by
      rw [List.erase_append_right _ h2]; simp
    simp only [unlink_nodes, hmem, if_true, hpfid, hq, herase]
    simp [link_nodes, TreeNode.add_prerequisite, h2]

/-- C10 witness: the theorem applied to two concrete nodes. -/
theorem link_unlink_leaves_depth_witness :
    (unlink_nodes (link_nodes { form_id := "p", depth := 3 } (({ form_id := "c" } : TreeNode))).1
        (link_nodes { form_id := "p", depth := 3 } (({ form_id := "c" } : TreeNode))).2).1 =
      { form_id := "p", depth := 3 } ∧
    (unlink_nodes (link_nodes { form_id := "p", depth := 3 } (({ form_id := "c" } : TreeNode))).1
        (link_nodes { form_id := "p", depth := 3 } (({ form_id := "c" } : TreeNode))).2).2 =
      { ({ form_id := "c" } : TreeNode) with depth := 4 } :=
  link_unlink_leaves_depth { form_id := "p", depth := 3 } (({ form_id := "c" } : TreeNode))
    (by decide) (by decide)

/-! ## The validator: validator.py

Serialized node dicts (the output of TreeNode.to_dict, and the input of
validate_school_tree and fix_unreachable_nodes) carry formId, children,
prerequisites, the depth-derived integer tier, and the optional name,
skillLevel, theme and section fields.  validate_school_tree and
fix_unreachable_nodes read only formId, tier, prerequisites and children;
the remaining fields ride along unchanged. -/

/-- A serialized node dict. -/
structure SNode where
  formId : String := ""
  name : Option String := none
  skillLevel : Option String := none
  theme : Option String := none
  sectionTag : Option String := none
  position : Option (ℚ × ℚ) := none
  tier : Int := 0
  prerequisites : List String := []
  children : List String := []
  deriving DecidableEq, Repr

/-- The nodes dict of validator.py: formId to node data, insertion ordered. -/
abbrev NodeMap := List (String × SNode)

/-- Dict lookup (first binding wins; Python dicts have unique keys). -/
def lookupN (m : NodeMap) (k : String) : Option SNode :=
  (m.find? (fun p => p.1 = k)).map (fun p => p.2)

/-- The keys of the dict, in insertion order. -/
def keysOf (m : NodeMap) : List String :=
  m.map (fun p => p.1)

/-- In-place mutation of the value stored under a key. -/
def updateN (m : NodeMap) (k : String) (f : SNode → SNode) : NodeMap :=
  m.map (fun p => if p.1 = k then (p.1, f p.2) else p)

/-- One check of the inner for-loop of simulate_unlocks: a locked node
with a non-empty prerequisite list, all of whose prerequisites are
unlocked, becomes unlocked. -/
def unlockStep (u : List String) (p : String × SNode) : List String :=
  if p.1 ∈ u then u
  else if p.2.prerequisites = [] then u
  else if p.2.prerequisites.all (fun q => decide (q ∈ u)) then u ++ [p.1]
  else u

/-- One iteration of the while-loop of simulate_unlocks: scan every node
in dict order, in sequence (later checks of the same pass see earlier
additions, as with the mutated Python set). -/
def unlockPass (m : NodeMap) (u : List String) : List String :=
  m.foldl unlockStep u

/-- The while-loop of simulate_unlocks: repeat until a pass changes
nothing or the iteration budget runs out. -/
def simulateLoop (m : NodeMap) : Nat → List String → List String
  | 0, u => u
  | fuel + 1, u =>
    let u2 := unlockPass m u
    if u2 = u then u else simulateLoop m fuel u2

/-- simulate_unlocks: start from the root alone, iterate to a fixed point
with budget len(nodes) + 10.  The unlocked set is modelled as a
duplicate-free list in insertion order. -/
def simulate_unlocks (m : NodeMap) (root : String) : List String :=
  simulateLoop m (m.length + 10) [root]

/-- find_unreachable_nodes, reduced to the ids: keys not unlockable. -/
def unreachableIds (m : NodeMap) (root : String) : List String :=
  (keysOf m).filter (fun k => decide (k ∉ simulate_unlocks m root))

/-- The closure simulate_unlocks actually computes: the least set
containing the root and closed under adding a node that has a NON-EMPTY
prerequisite list all of whose members are already in the set. -/
inductive Unlockable (m : NodeMap) (root : String) : String → Prop where
  | root : Unlockable m root root
  | step (fid : String) (nd : SNode) : (fid, nd) ∈ m → nd.prerequisites ≠ [] →
      (∀ q ∈ nd.prerequisites, Unlockable m root q) → Unlockable m root fid

/-- The closure described by the specification sentence for C3, taken
literally: the least set containing the root and closed under adding ANY
node all of whose prerequisites are already in the set - vacuously
including nodes with an empty prerequisite list. -/
inductive SpecUnlockable (m : NodeMap) (root : String) : String → Prop where
  | root : SpecUnlockable m root root
  | step (fid : String) (nd : SNode) : (fid, nd) ∈ m →
      (∀ q ∈ nd.prerequisites, SpecUnlockable m root q) → SpecUnlockable m root fid

theorem unlockStep_shape (u : List String) (p : String × SNode) :
    unlockStep u p = u ∨
    (unlockStep u p = u ++ [p.1] ∧ p.1 ∉ u ∧ p.2.prerequisites ≠ [] ∧
      ∀ q ∈ p.2.prerequisites, q ∈ u) := by
  by_cases h1 : p.1 ∈ u
  · left; simp [unlockStep, h1]
  · by_cases h2 : p.2.prerequisites = []
    · left; simp [unlockStep, h1, h2]
    · by_cases h3 : p.2.prerequisites.all (fun q => decide (q ∈ u))
      · right
        refine ⟨by simp [unlockStep, h1, h2, h3], h1, h2, ?_⟩
        intro q hq
        have := List.all_eq_true.mp h3 q hq
        simpa using this
      · left; simp [unlockStep, h1, h2, h3]

theorem foldl_unlockStep_append (l : List (String × SNode)) (u : List String) :
    ∃ ext, l.foldl unlockStep u = u ++ ext := by
  induction l generalizing u with
  | nil => exact ⟨[], by simp⟩
  | cons p rest ih =>
    rcases unlockStep_shape u p with h | h
    · simpa [List.foldl_cons, h] using ih u
    · obtain ⟨ext, hext⟩ := ih (u ++ [p.1])
      exact ⟨[p.1] ++ ext, by simp [List.foldl_cons, h.1, hext]⟩

theorem unlockPass_append (m : NodeMap) (u : List String) :
    ∃ ext, unlockPass m u = u ++ ext :=
  foldl_unlockStep_append m u

theorem unlockPass_subset (m : NodeMap) (u : List String) :
    u ⊆ unlockPass m u := by
  obtain ⟨ext, hext⟩ := unlockPass_append m u
  rw [hext]; exact List.subset_append_left u ext

/-- A pass that changes nothing witnesses closedness. -/
theorem foldl_unlockStep_fixed (l : List (String × SNode)) (u : List String)
    (h : l.foldl unlockStep u = u) :
    ∀ p ∈ l, p.2.prerequisites ≠ [] → (∀ q ∈ p.2.prerequisites, q ∈ u) → p.1 ∈ u := by
  induction l generalizing u with
  | nil => intro p hp; exact absurd hp (List.not_mem_nil p)
  | cons a rest ih =>
    have hstep : unlockStep u a = u := by
      rcases unlockStep_shape u a with hs | hs
      · exact hs
      · exfalso
        obtain ⟨ext, hext⟩ := foldl_unlockStep_append rest (u ++ [a.1])
        rw [List.foldl_cons, hs.1, hext] at h
        have := congrArg List.length h
        simp at this
    intro p hp hne hall
    rcases List.mem_cons.mp hp with rfl | hmem
    · by_contra hout
      rcases unlockStep_shape u p with hs | hs
      · unfold unlockStep at hs
        simp only [hout, if_false, hne, if_false] at hs
        have hcond : p.2.prerequisites.all (fun q => decide (q ∈ u)) = true :=
          List.all_eq_true.mpr (fun q hq => by simpa using hall q hq)
        rw [if_pos hcond] at hs
        have := congrArg List.length hs
        simp at this
      · rw [hstep] at hs
        have := congrArg List.length hs.1
        simp at this
    · have hrest : rest.foldl unlockStep u = u := by
        rw [List.foldl_cons, hstep] at h; exact h
      exact ih u hrest p hmem hne hall

theorem simulateLoop_subset (m : NodeMap) (fuel : Nat) (u : List String) :
    u ⊆ simulateLoop m fuel u := by
  induction fuel generalizing u with
  | zero => simp [simulateLoop]
  | succ k ih =>
    unfold simulateLoop
    by_cases h : unlockPass m u = u
    · simp [h]
    · simp only [h, if_neg (fun hc => h hc)]
      exact fun x hx => ih (unlockPass m u) (unlockPass_subset m u hx)

/-- Every element the pass adds is a key of the dict. -/
theorem foldl_unlockStep_mem_keys (l : List (String × SNode)) (u : List String)
    (x : String) (hx : x ∈ l.foldl unlockStep u) : x ∈ u ∨ x ∈ l.map (fun p => p.1) := by
  induction l generalizing u with
  | nil => exact Or.inl (by simpa using hx)
  | cons a rest ih =>
    rw [List.foldl_cons] at hx
    rcases ih (unlockStep u a) hx with h | h
    · rcases unlockStep_shape u a with hs | hs
      · rw [hs] at h; exact Or.inl h
      · rw [hs.1] at h
        rcases List.mem_append.mp h with h | h
        · exact Or.inl h
        · simp only [List.mem_singleton] at h
          exact Or.inr (by simp [h])
    · exact Or.inr (List.mem_cons_of_mem _ h)

/-- The pass preserves freedom from duplicates. -/
theorem foldl_unlockStep_nodup (l : List (String × SNode)) (u : List String)
    (h : u.Nodup) : (l.foldl unlockStep u).Nodup := by
  induction l generalizing u with
  | nil => simpa using h
  | cons a rest ih =>
    rw [List.foldl_cons]
    apply ih
    rcases unlockStep_shape u a with hs | hs
    · rw [hs]; exact h
    · rw [hs.1]
      refine List.Nodup.append h (List.nodup_singleton a.1) ?_
      intro x hxu hxa
      simp only [List.mem_singleton] at hxa
      subst hxa; exact hs.2.1 hxu

theorem nodup_subset_length_le (l B : List String) (h : l.Nodup) (hsub : l ⊆ B) :
    l.length ≤ B.toFinset.card := by
  have h1 : l.toFinset.card = l.length := List.toFinset_card_of_nodup h
  have h2 : l.toFinset ⊆ B.toFinset := by
    intro x hx
    rw [List.mem_toFinset] at hx ⊢
    exact hsub hx
  calc l.length = l.toFinset.card := h1.symm
    _ ≤ B.toFinset.card := Finset.card_le_card h2

/-- A set already as large as its bound is a fixed point of the pass. -/
theorem unlockPass_full_fixed (m : NodeMap) (root : String) (u : List String)
    (hnd : u.Nodup) (hsub : u ⊆ root :: keysOf m)
    (hfull : (root :: keysOf m).toFinset.card ≤ u.length) :
    unlockPass m u = u := by
  by_contra hne
  obtain ⟨ext, hext⟩ := unlockPass_append m u
  have hextne : ext ≠ [] := by
    intro h; rw [h, List.append_nil] at hext; exact hne hext
  have hnd2 : (unlockPass m u).Nodup := foldl_unlockStep_nodup m u hnd
  have hsub2 : unlockPass m u ⊆ root :: keysOf m := by
    intro x hx
    rcases foldl_unlockStep_mem_keys m u x hx with h | h
    · exact hsub h
    · exact List.mem_cons_of_mem _ h
  have hlen : (unlockPass m u).length ≤ (root :: keysOf m).toFinset.card :=
    nodup_subset_length_le _ _ hnd2 hsub2
  rw [hext] at hlen
  simp only [List.length_append] at hlen
  have : 1 ≤ ext.length := List.length_pos.mpr hextne
  omega

/-- With enough fuel left, the loop lands on a fixed point of the pass. -/
theorem simulateLoop_reaches_fixed (m : NodeMap) (root : String) :
    ∀ (fuel : Nat) (u : List String), u.Nodup → u ⊆ root :: keysOf m →
    (root :: keysOf m).toFinset.card ≤ u.length + fuel →
    unlockPass m (simulateLoop m fuel u) = simulateLoop m fuel u := by
  intro fuel
  induction fuel with
  | zero =>
    intro u hnd hsub hcard
    simp only [simulateLoop]
    exact unlockPass_full_fixed m root u hnd hsub (by omega)
  | succ k ih =>
    intro u hnd hsub hcard
    unfold simulateLoop
    by_cases h : unlockPass m u = u
    · simp [h]
    · simp only [h, if_neg (fun hc => h hc)]
      obtain ⟨ext, hext⟩ := unlockPass_append m u
      have hextne : ext ≠ [] := by
        intro he; rw [he, List.append_nil] at hext; exact h hext
      have hnd2 : (unlockPass m u).Nodup := foldl_unlockStep_nodup m u hnd
      have hsub2 : unlockPass m u ⊆ root :: keysOf m := by
        intro x hx
        rcases foldl_unlockStep_mem_keys m u x hx with hh | hh
        · exact hsub hh
        · exact List.mem_cons_of_mem _ hh
      apply ih (unlockPass m u) hnd2 hsub2
      have h1 : 1 ≤ ext.length := List.length_pos.mpr hextne
      have h2 : (unlockPass m u).length = u.length + ext.length := by
        rw [hext]; simp
      omega

/-- The result of simulate_unlocks is a fixed point of the pass: the
iteration budget len(nodes) + 10 always suffices. -/
theorem simulate_unlocks_fixed (m : NodeMap) (root : String) :
    unlockPass m (simulate_unlocks m root) = simulate_unlocks m root := by
  apply simulateLoop_reaches_fixed m root (m.length + 10) [root]
  · exact List.nodup_singleton root
  · intro x hx
    simp only [List.mem_singleton] at hx
    simp [hx]
  · have h1 : (root :: keysOf m).toFinset.card ≤ (root :: keysOf m).length :=
      List.toFinset_card_le _
    have h2 : (root :: keysOf m).length = m.length + 1 := by simp [keysOf]
    simp only [List.length_singleton]
    omega

theorem foldl_unlockStep_sound (m : NodeMap) (root : String)
    (l : List (String × SNode)) (u : List String)
    (hl : ∀ p ∈ l, p ∈ m) (hu : ∀ x ∈ u, Unlockable m root x) :
    ∀ x ∈ l.foldl unlockStep u, Unlockable m root x := by
  induction l generalizing u with
  | nil => simpa using hu
  | cons a rest ih =>
    rw [List.foldl_cons]
    apply ih
    · intro p hp; exact hl p (List.mem_cons_of_mem a hp)
    · rcases unlockStep_shape u a with hs | hs
      · rw [hs]; exact hu
      · rw [hs.1]
        intro x hx
        rcases List.mem_append.mp hx with hx | hx
        · exact hu x hx
        · simp only [List.mem_singleton] at hx
          subst hx
        
          obtain ⟨fid, nd⟩ := a
          exact Unlockable.step fid nd (hl (fid, nd) (List.mem_cons_self _ _)) hs.2.2.1
            (fun q hq => hu q (hs.2.2.2 q hq))

theorem simulateLoop_sound (m : NodeMap) (root : String) (fuel : Nat)
    (u : List String) (hu : ∀ x ∈ u, Unlockable m root x) :
    ∀ x ∈ simulateLoop m fuel u, Unlockable m root x := by
  induction fuel generalizing u with
  | zero => simpa [simulateLoop] using hu
  | succ k ih =>
    unfold simulateLoop
    by_cases h : unlockPass m u = u
    · simpa [h] using hu
    · simp only [h, if_neg (fun hc => h hc)]
      exact ih (unlockPass m u)
        (foldl_unlockStep_sound m root m u (fun p hp => hp) hu)

/-- C3 (amended): simulate_unlocks computes exactly the fixed-point
closure from the root over nodes with a NON-EMPTY prerequisite list all
of whose prerequisites are unlocked; the len(nodes) + 10 iteration cap
never truncates it. -/
theorem simulate_unlocks_eq_closure (m : NodeMap) (root : String) (x : String) :
    x ∈ simulate_unlocks m root ↔ Unlockable m root x := by
  constructor
  · intro hx
    apply simulateLoop_sound m root (m.length + 10) [root] _ x hx
    intro y hy
    simp only [List.mem_singleton] at hy
    subst hy
    exact Unlockable.root
  · intro hx
    induction hx with
    | root =>
      have : root ∈ [root] := List.mem_singleton_self root
      exact simulateLoop_subset m (m.length + 10) [root] this
    | step fid nd hmem hne hall ih =>
      exact foldl_unlockStep_fixed m (simulate_unlocks m root)
        (simulate_unlocks_fixed m root) (fid, nd) hmem hne ih

/-- The concrete dict for the C3 counterexample: one node with an empty
prerequisite list, and a root id that is not a key. -/
def c3map : NodeMap := [("a", { formId := "a" })]

/-- C3 (as stated) is false: read literally, a fixed-point closure that
adds ANY node all of whose prerequisites are unlocked vacuously adds
every node with an empty prerequisite list, but simulate_unlocks skips
such orphan nodes explicitly. -/
theorem simulate_unlocks_spec_closure_counterexample :
    ¬ (∀ (m : NodeMap) (root x : String),
        x ∈ simulate_unlocks m root ↔ SpecUnlockable m root x) := by
  intro h
  have hstep : SpecUnlockable c3map "r" "a" := by
    apply SpecUnlockable.step "a" { formId := "a" }
    · simp [c3map]
    · intro q hq
      simp at hq
  have hmem : "a" ∈ simulate_unlocks c3map "r" := (h c3map "r" "a").mpr hstep
  have : ¬ ("a" ∈ simulate_unlocks c3map "r") := by decide
  exact this hmem

/-! ## fix_unreachable_nodes: validator.py lines 301-442

The per-pass candidate scan iterates the unlocked set; the Python set
holds strings whose iteration order is an implementation detail, modelled
here as the insertion order of the unlocked list.  Every property proven
below is independent of that order, and every concrete run used as a
counterexample has at most one eligible candidate per scan or ties that
the first-strictly-greater rule resolves identically under any order
consistent with insertion. -/

/-- The score of a candidate parent in the auto-fix scan, as computed by
the source: 20 - tier_diff * 5 - len(children).  The Python computation
is in floats, but every value is an exact small integer, so float
comparison coincides with integer comparison and the score is modelled
as an Int. -/
def fixScore (m : NodeMap) (node_tier : Int) (c : String) : Int :=
  match lookupN m c with
  | some pc => 20 - (node_tier - pc.tier) * 5 - (pc.children.length : Int)
  | none => 0

/-- One step of the candidate scan of fix_unreachable_nodes. -/
def bnpStep (m : NodeMap) (mc : Nat) (fid : String) (node_tier : Int)
    (best : Option (String × Int)) (pid : String) : Option (String × Int) :=
  if pid = fid then best
  else
    match lookupN m pid with
    | none => best
    | some pn =>
      if mc ≤ pn.children.length then best
      else if node_tier - pn.tier < 0 then best
      else
        let score : Int := 20 - (node_tier - pn.tier) * 5 - (pn.children.length : Int)
        match best with
        | none => some (pid, score)
        | some (b, bs) => if bs < score then some (pid, score) else some (b, bs)

/-- The candidate scan: over all unlocked ids, skip the node itself, full
parents, and parents at a strictly higher tier; keep the first strictly
best scoring candidate. -/
def bestNewParent (m : NodeMap) (mc : Nat) (unlockable : List String)
    (fid : String) (node_tier : Int) : Option String :=
  (unlockable.foldl (bnpStep m mc fid node_tier) none).map (fun p => p.1)

/-- The mutation applied on a successful fix: remove the node from the
children lists of its blocking prerequisites, replace its prerequisites
by the unlocked ones plus the chosen parent, and add it to the chosen
parent's children. -/
def fixApply (fid : String) (unlockable : List String)
    (prereqs blocking : List String) (bp : String) (m : NodeMap) : NodeMap :=
  let m1 := blocking.foldl
    (fun acc b =>
      updateN acc b (fun bn => { bn with children := bn.children.erase fid })) m
  let newPrereqs0 := prereqs.filter (fun p => decide (p ∈ unlockable))
  let newPrereqs := if bp ∈ newPrereqs0 then newPrereqs0 else newPrereqs0 ++ [bp]
  let m2 := updateN m1 fid (fun n2 => { n2 with prerequisites := newPrereqs })
  updateN m2 bp
    (fun pn => if fid ∈ pn.children then pn
               else { pn with children := pn.children ++ [fid] })

/-- The body of the per-unreachable-node loop of fix_unreachable_nodes:
either keep an existing unlocked prerequisite, or scan for a new parent;
on success drop the blocking prerequisites (also from their children
lists) and install the result. -/
def fixNode (root : String) (mc : Nat) (unlockable : List String)
    (m : NodeMap) (fid : String) : NodeMap × Bool :=
  match lookupN m fid with
  | none => (m, false)
  | some nd =>
    let prereqs := nd.prerequisites
    let blocking := prereqs.filter (fun p => decide (p ∉ unlockable ∧ p ≠ root))
    let reachable := prereqs.filter (fun p => decide (p ∈ unlockable))
    if blocking = [] ∧ prereqs ≠ [] then (m, false)
    else
      let keep := reachable.find? (fun p => (lookupN m p).isSome)
      let best :=
        match keep with
        | some p => some p
        | none => bestNewParent m mc unlockable fid nd.tier
      match best with
      | none => (m, false)
      | some bp => (fixApply fid unlockable prereqs blocking bp m, true)

/-- The aggressive stall fallback for one node: detach it from all its
old prerequisites and attach it directly under the root. -/
def stallAttach (root : String) (m : NodeMap) (fid : String) : NodeMap :=
  match lookupN m fid with
  | none => m
  | some nd =>
    let m1 := nd.prerequisites.foldl
      (fun acc p =>
        updateN acc p (fun pn => { pn with children := pn.children.erase fid })) m
    let m2 := updateN m1 fid (fun n2 => { n2 with prerequisites := [root] })
    updateN m2 root
      (fun rn => if fid ∈ rn.children then rn
                 else { rn with children := rn.children ++ [fid] })

/-- One normal pass over the snapshot of unreachable nodes, counting the
fixes applied. -/
def fixPassNodes (root : String) (mc : Nat) (unlockable : List String)
    (unreach : List String) (m : NodeMap) : NodeMap × Nat :=
  unreach.foldl (fun acc fid =>
    let r := fixNode root mc unlockable acc.1 fid
    (r.1, acc.2 + (if r.2 then 1 else 0))) (m, 0)

/-- The stall pass over the same snapshot: every non-root unreachable
node is attached directly under the root. -/
def stallPassNodes (root : String) (unreach : List String) (m : NodeMap) :
    NodeMap × Nat :=
  unreach.foldl (fun acc fid =>
    if fid = root then acc else (stallAttach root acc.1 fid, acc.2 + 1)) (m, 0)

/-- The pass loop of fix_unreachable_nodes: up to max_passes = 20 passes;
stop early when nothing is unreachable; on a pass with no progress run
the stall pass; stop if even that made no progress. -/
def fixLoop (root : String) (mc : Nat) : Nat → NodeMap → Nat → NodeMap × Nat
  | 0, m, fixes => (m, fixes)
  | fuel + 1, m, fixes =>
    let unlockable := simulate_unlocks m root
    let unreach := (keysOf m).filter (fun k => decide (k ∉ unlockable))
    if unreach = [] then (m, fixes)
    else
      let pr := fixPassNodes root mc unlockable unreach m
      if 0 < pr.2 then fixLoop root mc fuel pr.1 (fixes + pr.2)
      else
        let st := stallPassNodes root unreach pr.1
        if 0 < st.2 then fixLoop root mc fuel st.1 (fixes + st.2)
        else (st.1, fixes)

/-- fix_unreachable_nodes: the 20-pass repair loop; returns the repaired
dict and the number of fixes. -/
def fix_unreachable_nodes (m : NodeMap) (root : String) (mc : Nat) : NodeMap × Nat :=
  fixLoop root mc 20 m 0

/-- A dict on which the 20-pass budget of fix_unreachable_nodes is not
enough: the root has capacity for one child (max_children = 1) and 21
nodes are blocked behind a missing prerequisite, so each pass repairs
exactly one of them (every other candidate parent is already full), and
after 20 passes one node is still unreachable. -/
def exUnreachMap : NodeMap :=
  ("r", { formId := "r" }) ::
  (List.range 21).map (fun i =>
    ("n" ++ toString i, { formId := "n" ++ toString i, prerequisites := ["zz"] }))

set_option maxRecDepth 10000 in
/-- C2 counterexample: after auto-fix, the validation summary counts
(reachable_nodes = len(simulate_unlocks ..), total_nodes = len(nodes))
still differ: 21 reachable of 22 total, and node n20 stays unreachable -
every one of the 20 passes made progress, so the stall fallback never
fired and the budget ran out. -/
theorem fix_full_reachability_counterexample :
    ((simulate_unlocks (fix_unreachable_nodes exUnreachMap "r" 1).1 "r").length = 21) ∧
    ((keysOf (fix_unreachable_nodes exUnreachMap "r" 1).1).length = 22) ∧
    ("n20" ∉ simulate_unlocks (fix_unreachable_nodes exUnreachMap "r" 1).1 "r") := by
  decide

/-! ### The stall fallback restores full reachability -/

/-- The prerequisite list stored under a key, when the key is present. -/
def prereqF (m : NodeMap) (k : String) : Option (List String) :=
  (lookupN m k).map (fun n => n.prerequisites)

theorem updateN_cons_pos (p : String × SNode) (rest : List (String × SNode))
    (k : String) (f : SNode → SNode) (h : p.1 = k) :
    updateN (p :: rest) k f = (p.1, f p.2) :: updateN rest k f := by
  simp [updateN, h]

theorem updateN_cons_neg (p : String × SNode) (rest : List (String × SNode))
    (k : String) (f : SNode → SNode) (h : ¬ p.1 = k) :
    updateN (p :: rest) k f = p :: updateN rest k f := by
  simp [updateN, h]

theorem keysOf_updateN (m : NodeMap) (k : String) (f : SNode → SNode) :
    keysOf (updateN m k f) = keysOf m := by
  induction m with
  | nil => rfl
  | cons p rest ih =>
    by_cases h : p.1 = k
    · rw [updateN_cons_pos p rest k f h]
      show p.1 :: keysOf (updateN rest k f) = p.1 :: keysOf rest
      rw [ih]
    · rw [updateN_cons_neg p rest k f h]
      show p.1 :: keysOf (updateN rest k f) = p.1 :: keysOf rest
      rw [ih]

theorem lookupN_cons_pos (p : String × SNode) (rest : List (String × SNode))
    (k : String) (h : p.1 = k) : lookupN (p :: rest) k = some p.2 := by
  unfold lookupN
  rw [List.find?_cons_of_pos _ (by simp [h])]
  rfl

theorem lookupN_cons_neg (p : String × SNode) (rest : List (String × SNode))
    (k : String) (h : ¬ p.1 = k) : lookupN (p :: rest) k = lookupN rest k := by
  unfold lookupN
  rw [List.find?_cons_of_neg _ (by simp [h])]

theorem lookupN_updateN_self (m : NodeMap) (k : String) (f : SNode → SNode) :
    lookupN (updateN m k f) k = (lookupN m k).map f := by
  induction m with
  | nil => rfl
  | cons p rest ih =>
    by_cases h : p.1 = k
    · rw [updateN_cons_pos p rest k f h,
        lookupN_cons_pos (p.1, f p.2) (updateN rest k f) k h,
        lookupN_cons_pos p rest k h]
      rfl
    · rw [updateN_cons_neg p rest k f h,
        lookupN_cons_neg p (updateN rest k f) k h,
        lookupN_cons_neg p rest k h]
      exact ih

theorem lookupN_updateN_ne (m : NodeMap) (k k2 : String) (f : SNode → SNode)
    (h : k2 ≠ k) : lookupN (updateN m k f) k2 = lookupN m k2 := by
  induction m with
  | nil => rfl
  | cons p rest ih =>
    by_cases hp : p.1 = k
    · have hp2 : ¬ p.1 = k2 := by rw [hp]; exact fun hh => h hh.symm
      rw [updateN_cons_pos p rest k f hp,
        lookupN_cons_neg (p.1, f p.2) (updateN rest k f) k2 hp2,
        lookupN_cons_neg p rest k2 hp2]
      exact ih
    · rw [updateN_cons_neg p rest k f hp]
      by_cases hk2 : p.1 = k2
      · rw [lookupN_cons_pos p (updateN rest k f) k2 hk2, lookupN_cons_pos p rest k2 hk2]
      · rw [lookupN_cons_neg p (updateN rest k f) k2 hk2, lookupN_cons_neg p rest k2 hk2]
        exact ih

theorem mem_keys_iff_lookup_isSome (m : NodeMap) (k : String) :
    k ∈ keysOf m ↔ (lookupN m k).isSome := by
  induction m with
  | nil => simp [keysOf, lookupN]
  | cons p rest ih =>
    by_cases h : p.1 = k
    · simp [keysOf, lookupN, h]
    · simp only [keysOf, List.map_cons, List.mem_cons, lookupN, List.find?_cons, h, decide_False]
      constructor
      · intro hh
        rcases hh with hh | hh
        · exact absurd hh.symm h
        · exact (ih.mp (by simpa [keysOf] using hh))
      · intro hh
        exact Or.inr (by simpa [keysOf] using ih.mpr hh)

theorem lookupN_eq_of_mem_nodup (m : NodeMap) (k : String) (v : SNode)
    (hnd : (keysOf m).Nodup) (hmem : (k, v) ∈ m) : lookupN m k = some v := by
  induction m with
  | nil => simp at hmem
  | cons p rest ih =>
    rcases List.mem_cons.mp hmem with h | h
    · subst h
      simp [lookupN]
    · have hk : p.1 ≠ k := by
        intro he
        have : k ∈ keysOf rest := by
          simp only [keysOf, List.mem_map]
          exact ⟨(k, v), h, rfl⟩
        rw [keysOf, List.map_cons, List.nodup_cons] at hnd
        exact hnd.1 (he ▸ this)
      simp only [lookupN, List.find?_cons, hk, decide_False]
      exact ih (by rw [keysOf, List.map_cons, List.nodup_cons] at hnd; exact hnd.2) h

theorem lookupN_mem (m : NodeMap) (k : String) (v : SNode)
    (h : lookupN m k = some v) : (k, v) ∈ m := by
  unfold lookupN at h
  rcases Option.map_eq_some'.mp h with ⟨p, hp, hv⟩
  have hk : p.1 = k := by
    have := List.find?_some hp
    simpa using this
  have := List.mem_of_find?_eq_some hp
  rw [← hk, ← hv]
  simpa using this

/-- An update whose function does not touch the prerequisite field
preserves every stored prerequisite list. -/
theorem prereqF_updateN_childrenOnly (m : NodeMap) (k k2 : String) (f : SNode → SNode)
    (hf : ∀ nd, (f nd).prerequisites = nd.prerequisites) :
    prereqF (updateN m k f) k2 = prereqF m k2 := by
  by_cases h : k2 = k
  · subst h
    unfold prereqF
    rw [lookupN_updateN_self]
    cases lookupN m k2 with
    | none => rfl
    | some nd => simp [hf]
  · unfold prereqF
    rw [lookupN_updateN_ne m k k2 f h]

/-- A fold of children-only updates preserves every prerequisite list. -/
theorem prereqF_foldl_childrenOnly (l : List String) (m : NodeMap) (k2 : String)
    (g : String → SNode → SNode)
    (hg : ∀ b nd, (g b nd).prerequisites = nd.prerequisites) :
    prereqF (l.foldl (fun acc b => updateN acc b (g b)) m) k2 = prereqF m k2 := by
  induction l generalizing m with
  | nil => rfl
  | cons b rest ih =>
    rw [List.foldl_cons, ih]
    exact prereqF_updateN_childrenOnly m b k2 (g b) (hg b)

theorem keysOf_foldl_updateN (l : List String) (m : NodeMap)
    (g : String → SNode → SNode) :
    keysOf (l.foldl (fun acc b => updateN acc b (g b)) m) = keysOf m := by
  induction l generalizing m with
  | nil => rfl
  | cons b rest ih =>
    rw [List.foldl_cons, ih, keysOf_updateN]

theorem keysOf_stallAttach (root : String) (m : NodeMap) (fid : String) :
    keysOf (stallAttach root m fid) = keysOf m := by
  unfold stallAttach
  cases lookupN m fid with
  | none => rfl
  | some nd =>
    simp only
    rw [keysOf_updateN, keysOf_updateN, keysOf_foldl_updateN]

theorem prereqF_stallAttach_ne (root : String) (m : NodeMap) (fid k : String)
    (h : k ≠ fid) : prereqF (stallAttach root m fid) k = prereqF m k := by
  unfold stallAttach
  cases hl : lookupN m fid with
  | none => rfl
  | some nd =>
    simp only
    rw [prereqF_updateN_childrenOnly _ _ _ _ (fun pn => by by_cases hc : fid ∈ pn.children <;> simp [hc])]
    unfold prereqF
    rw [lookupN_updateN_ne _ _ _ _ h]
    exact prereqF_foldl_childrenOnly _ _ _ _ (fun b nd2 => rfl)

theorem prereqF_stallAttach_self (root : String) (m : NodeMap) (fid : String)
    (hmem : fid ∈ keysOf m) :
    prereqF (stallAttach root m fid) fid = some [root] := by
  unfold stallAttach
  cases hl : lookupN m fid with
  | none =>
    rw [mem_keys_iff_lookup_isSome] at hmem
    rw [hl] at hmem
    simp at hmem
  | some nd =>
    simp only
    rw [prereqF_updateN_childrenOnly _ _ _ _ (fun pn => by by_cases hc : fid ∈ pn.children <;> simp [hc])]
    unfold prereqF
    rw [lookupN_updateN_self]
    have hkeys : fid ∈ keysOf (nd.prerequisites.foldl
        (fun acc p => updateN acc p (fun pn => { pn with children := pn.children.erase fid })) m) := by
      rw [keysOf_foldl_updateN]; exact hmem
    rw [mem_keys_iff_lookup_isSome] at hkeys
    cases hl2 : lookupN (nd.prerequisites.foldl
        (fun acc p => updateN acc p (fun pn => { pn with children := pn.children.erase fid })) m) fid with
    | none => rw [hl2] at hkeys; simp at hkeys
    | some nd2 => simp

/-- The dict component of the stall pass. -/
def stallFold (root : String) (unreach : List String) (m : NodeMap) : NodeMap :=
  unreach.foldl (fun acc fid => if fid = root then acc else stallAttach root acc fid) m

theorem stallPassNodes_fst_general (root : String) (unreach : List String) :
    ∀ (m : NodeMap) (c : Nat),
    (unreach.foldl (fun acc fid =>
      if fid = root then acc else (stallAttach root acc.1 fid, acc.2 + 1)) (m, c)).1 =
    stallFold root unreach m := by
  induction unreach with
  | nil => intro m c; rfl
  | cons fid rest ih =>
    intro m c
    by_cases h : fid = root
    · simp only [List.foldl_cons, stallFold, if_pos h]
      exact ih m c
    · simp only [List.foldl_cons, stallFold, if_neg h]
      exact ih (stallAttach root m fid) (c + 1)

theorem stallPassNodes_fst (root : String) (unreach : List String) (m : NodeMap) :
    (stallPassNodes root unreach m).1 = stallFold root unreach m :=
  stallPassNodes_fst_general root unreach m 0

theorem keysOf_stallFold (root : String) (unreach : List String) (m : NodeMap) :
    keysOf (stallFold root unreach m) = keysOf m := by
  induction unreach generalizing m with
  | nil => rfl
  | cons fid rest ih =>
    unfold stallFold
    rw [List.foldl_cons]
    by_cases h : fid = root
    · simp only [if_pos h]
      exact ih m
    · simp only [if_neg h]
      rw [show rest.foldl (fun acc fid => if fid = root then acc else stallAttach root acc fid)
          (stallAttach root m fid) = stallFold root rest (stallAttach root m fid) from rfl]
      rw [ih (stallAttach root m fid), keysOf_stallAttach]

theorem prereqF_stallFold_notin (root : String) (unreach : List String) (m : NodeMap)
    (k : String) (hk : k ∉ unreach) :
    prereqF (stallFold root unreach m) k = prereqF m k := by
  induction unreach generalizing m with
  | nil => rfl
  | cons fid rest ih =>
    have hk1 : k ≠ fid := fun h => hk (h ▸ List.mem_cons_self fid rest)
    have hk2 : k ∉ rest := fun h => hk (List.mem_cons_of_mem fid h)
    unfold stallFold
    rw [List.foldl_cons]
    by_cases h : fid = root
    · simp only [if_pos h]
      exact ih m hk2
    · simp only [if_neg h]
      rw [show rest.foldl (fun acc fid => if fid = root then acc else stallAttach root acc fid)
          (stallAttach root m fid) = stallFold root rest (stallAttach root m fid) from rfl]
      rw [ih (stallAttach root m fid) hk2]
      exact prereqF_stallAttach_ne root m fid k hk1

theorem prereqF_stallFold_mem (root : String) (unreach : List String) (m : NodeMap)
    (hnd : unreach.Nodup) (k : String) (hk : k ∈ unreach) (hkr : k ≠ root)
    (hkm : k ∈ keysOf m) :
    prereqF (stallFold root unreach m) k = some [root] := by
  induction unreach generalizing m with
  | nil => simp at hk
  | cons fid rest ih =>
    unfold stallFold
    rw [List.foldl_cons]
    rcases List.mem_cons.mp hk with rfl | hkrest
    · simp only [if_neg hkr]
      rw [show rest.foldl (fun acc fid => if fid = root then acc else stallAttach root acc fid)
          (stallAttach root m k) = stallFold root rest (stallAttach root m k) from rfl]
      have hknotrest : k ∉ rest := (List.nodup_cons.mp hnd).1
      rw [prereqF_stallFold_notin root rest _ k hknotrest]
      exact prereqF_stallAttach_self root m k hkm
    · by_cases h : fid = root
      · simp only [if_pos h]
        exact ih m (List.nodup_cons.mp hnd).2 hkrest hkm
      · simp only [if_neg h]
        rw [show rest.foldl (fun acc fid => if fid = root then acc else stallAttach root acc fid)
            (stallAttach root m fid) = stallFold root rest (stallAttach root m fid) from rfl]
        exact ih (stallAttach root m fid) (List.nodup_cons.mp hnd).2 hkrest
          (by rw [keysOf_stallAttach]; exact hkm)

/-- Reachability transfers to any dict that preserves the prerequisite
lists of the nodes that were reachable. -/
theorem unlockable_transfer (m M2 : NodeMap) (root : String)
    (hnd : (keysOf m).Nodup)
    (hpre : ∀ k, k ∈ simulate_unlocks m root → prereqF M2 k = prereqF m k) :
    ∀ x, Unlockable m root x → Unlockable M2 root x := by
  intro x hx
  induction hx with
  | root => exact Unlockable.root
  | step fid nd hmem hne hall ih =>
    have hU : fid ∈ simulate_unlocks m root :=
      (simulate_unlocks_eq_closure m root fid).mpr (Unlockable.step fid nd hmem hne hall)
    have hl : lookupN m fid = some nd := lookupN_eq_of_mem_nodup m fid nd hnd hmem
    have hpf : prereqF M2 fid = some nd.prerequisites := by
      rw [hpre fid hU]
      unfold prereqF
      rw [hl]
      rfl
    unfold prereqF at hpf
    rcases Option.map_eq_some'.mp hpf with ⟨nd2, hlook2, hpq⟩
    refine Unlockable.step fid nd2 (lookupN_mem M2 fid nd2 hlook2) (by rw [hpq]; exact hne) ?_
    intro q hq
    exact ih q (by rw [hpq] at hq; exact hq)

/-- C2 (amended): the aggressive stall fallback of fix_unreachable_nodes
always restores full reachability in a single pass: after attaching all
currently-unreachable nodes directly under the root, every node of the
dict is unlockable.  (Full reachability after the whole of auto-fix is
therefore guaranteed except when all 20 passes make progress without
converging, which the recorded counterexample shows is possible.) -/
theorem stall_pass_restores_reachability (m : NodeMap) (root : String)
    (hnd : (keysOf m).Nodup) (hroot : root ∈ keysOf m) :
    ∀ k ∈ keysOf (stallPassNodes root (unreachableIds m root) m).1,
      k ∈ simulate_unlocks (stallPassNodes root (unreachableIds m root) m).1 root := by
  intro k hk
  rw [stallPassNodes_fst] at hk ⊢
  have hrootsim : root ∈ simulate_unlocks m root := by
    apply simulateLoop_subset
    exact List.mem_singleton_self root
  have hURnodup : (unreachableIds m root).Nodup := by
    unfold unreachableIds
    exact List.Nodup.filter _ hnd
  have hkm : k ∈ keysOf m := by
    rw [keysOf_stallFold] at hk; exact hk
  have hC3M2 := simulate_unlocks_eq_closure (stallFold root (unreachableIds m root) m) root
  by_cases hku : k ∈ unreachableIds m root
  · have hkr : k ≠ root := by
      intro h
      subst h
      unfold unreachableIds at hku
      have := (List.mem_filter.mp hku).2
      simp only [decide_eq_true_eq] at this
      exact this hrootsim
    have hpf := prereqF_stallFold_mem root (unreachableIds m root) m hURnodup k hku hkr hkm
    unfold prereqF at hpf
    rcases Option.map_eq_some'.mp hpf with ⟨nd2, hlook2, hpq⟩
    apply (hC3M2 k).mpr
    refine Unlockable.step k nd2 (lookupN_mem _ k nd2 hlook2) (by rw [hpq]; simp) ?_
    intro q hq
    rw [hpq] at hq
    simp only [List.mem_singleton] at hq
    subst hq
    exact Unlockable.root
  · have hksim : k ∈ simulate_unlocks m root := by
      by_contra hno
      exact hku (by
        unfold unreachableIds
        exact List.mem_filter.mpr ⟨hkm, by simpa using hno⟩)
    have hun : Unlockable m root k := (simulate_unlocks_eq_closure m root k).mp hksim
    apply (hC3M2 k).mpr
    apply unlockable_transfer m (stallFold root (unreachableIds m root) m) root hnd _ k hun
    intro k2 hk2
    apply prereqF_stallFold_notin
    intro hk2u
    unfold unreachableIds at hk2u
    have := (List.mem_filter.mp hk2u).2
    simp only [decide_eq_true_eq] at this
    exact this hk2

/-- C2 witness: the stall-pass theorem applied to a concrete dict with an
unreachable node. -/
theorem stall_pass_restores_reachability_witness :
    "x" ∈ simulate_unlocks
      (stallPassNodes "r"
        (unreachableIds [("r", { formId := "r" }),
          ("x", { formId := "x", prerequisites := ["zz"] })] "r")
        [("r", { formId := "r" }),
          ("x", { formId := "x", prerequisites := ["zz"] })]).1 "r" :=
  stall_pass_restores_reachability
    [("r", { formId := "r" }), ("x", { formId := "x", prerequisites := ["zz"] })]
    "r" (by decide) (by decide) "x" (by decide)

/-! ### The per-node behaviour of the auto-fix pass -/

/-- Eligibility of a candidate parent in the auto-fix scan: not the node
itself, present in the dict, spare capacity, and at a tier less than or
equal to the tier of the node being repaired.  (The scan additionally
ranges over the unlocked set only.) -/
def fixEligible (m : NodeMap) (mc : Nat) (fid : String) (node_tier : Int)
    (c : String) : Prop :=
  c ≠ fid ∧ ∃ pc, lookupN m c = some pc ∧ pc.children.length < mc ∧
    0 ≤ node_tier - pc.tier

theorem bnpStep_shape (m : NodeMap) (mc : Nat) (fid : String) (t : Int)
    (acc : Option (String × Int)) (pid : String) :
    (bnpStep m mc fid t acc pid = acc ∧ ¬ fixEligible m mc fid t pid) ∨
    (fixEligible m mc fid t pid ∧
      ((acc = none ∧ bnpStep m mc fid t acc pid = some (pid, fixScore m t pid)) ∨
       (∃ b0 s0, acc = some (b0, s0) ∧
         ((s0 < fixScore m t pid ∧
             bnpStep m mc fid t acc pid = some (pid, fixScore m t pid)) ∨
          (fixScore m t pid ≤ s0 ∧ bnpStep m mc fid t acc pid = acc))))) := by
  by_cases h1 : pid = fid
  · left
    constructor
    · simp [bnpStep, h1]
    · intro he; exact he.1 h1
  · cases hl : lookupN m pid with
    | none =>
      left
      constructor
      · simp [bnpStep, h1, hl]
      · rintro ⟨-, pc, hpc, -⟩
        rw [hl] at hpc; exact Option.noConfusion hpc
    | some pn =>
      by_cases h2 : mc ≤ pn.children.length
      · left
        constructor
        · simp [bnpStep, h1, hl, h2]
        · rintro ⟨-, pc, hpc, hlen, -⟩
          rw [hl] at hpc
          injection hpc with hpc
          subst hpc
          omega
      · by_cases h3 : t - pn.tier < 0
        · left
          constructor
          · simp [bnpStep, h1, hl, h2, h3]
          · rintro ⟨-, pc, hpc, -, hle⟩
            rw [hl] at hpc
            injection hpc with hpc
            subst hpc
            omega
        · right
          have helig : fixEligible m mc fid t pid :=
            ⟨h1, pn, hl, by omega, by omega⟩
          have hsc : fixScore m t pid =
              20 - (t - pn.tier) * 5 - (pn.children.length : Int) := by
            simp only [fixScore, hl]
          refine ⟨helig, ?_⟩
          cases acc with
          | none =>
            left
            refine ⟨rfl, ?_⟩
            rw [hsc]
            simp [bnpStep, h1, hl, h2, h3]
          | some p =>
            right
            refine ⟨p.1, p.2, rfl, ?_⟩
            by_cases h4 : p.2 < fixScore m t pid
            · left
              refine ⟨h4, ?_⟩
              rw [hsc] at h4 ⊢
              simp [bnpStep, h1, hl, h2, h3, h4]
            · right
              refine ⟨le_of_not_lt h4, ?_⟩
              rw [hsc] at h4
              simp [bnpStep, h1, hl, h2, h3, h4]

theorem bnp_fold_spec (m : NodeMap) (mc : Nat) (fid : String) (t : Int)
    (l : List String) :
    ∀ (acc : Option (String × Int)),
    (∀ b s, acc = some (b, s) → fixEligible m mc fid t b ∧ s = fixScore m t b) →
    (l.foldl (bnpStep m mc fid t) acc = none →
       acc = none ∧ ∀ c ∈ l, ¬ fixEligible m mc fid t c) ∧
    (∀ b s, l.foldl (bnpStep m mc fid t) acc = some (b, s) →
       fixEligible m mc fid t b ∧ s = fixScore m t b ∧
       (∀ c ∈ l, fixEligible m mc fid t c → fixScore m t c ≤ s) ∧
       (∀ b0 s0, acc = some (b0, s0) → s0 ≤ s) ∧
       (b ∈ l ∨ acc = some (b, s))) := by
  induction l with
  | nil =>
    intro acc hinv
    constructor
    · intro h
      exact ⟨h, by intro c hc; exact absurd hc (List.not_mem_nil c)⟩
    · intro b s h
      simp only [List.foldl_nil] at h
      rcases hinv b s h with ⟨he, hs⟩
      refine ⟨he, hs, ?_, ?_, Or.inr h⟩
      · intro c hc; exact absurd hc (List.not_mem_nil c)
      · intro b0 s0 h0
        rw [h0] at h
        injection h with h
        injection h with h1 h2
        exact le_of_eq h2
  | cons c rest ih =>
    intro acc hinv
    rcases bnpStep_shape m mc fid t acc c with ⟨hstep, hnelig⟩ | ⟨helig, hcase⟩
    · -- the step skipped c
      have hfold : (c :: rest).foldl (bnpStep m mc fid t) acc =
          rest.foldl (bnpStep m mc fid t) acc := by
        rw [List.foldl_cons, hstep]
      constructor
      · intro h
        rw [hfold] at h
        rcases (ih acc hinv).1 h with ⟨ha, hrest⟩
        refine ⟨ha, ?_⟩
        intro c2 hc2
        rcases List.mem_cons.mp hc2 with rfl | hc2
        · exact hnelig
        · exact hrest c2 hc2
      · intro b s h
        rw [hfold] at h
        rcases (ih acc hinv).2 b s h with ⟨he, hs, hmax, hacc, hmem⟩
        refine ⟨he, hs, ?_, hacc, ?_⟩
        · intro c2 hc2 he2
          rcases List.mem_cons.mp hc2 with rfl | hc2
          · exact absurd he2 hnelig
          · exact hmax c2 hc2 he2
        · rcases hmem with hmem | hmem
          · exact Or.inl (List.mem_cons_of_mem c hmem)
          · exact Or.inr hmem
    · -- the step recorded c when it improves on the accumulator
      rcases hcase with ⟨haccn, hstep⟩ | ⟨b0, s0, hacc0, hcase2⟩
      · -- accumulator was empty: c becomes the candidate
        have hinv2 : ∀ b s, bnpStep m mc fid t acc c = some (b, s) →
            fixEligible m mc fid t b ∧ s = fixScore m t b := by
          intro b s h
          rw [hstep] at h
          injection h with h
          injection h with h1 h2
          subst h1; subst h2
          exact ⟨helig, rfl⟩
        have hfold : (c :: rest).foldl (bnpStep m mc fid t) acc =
            rest.foldl (bnpStep m mc fid t) (bnpStep m mc fid t acc c) := by
          rw [List.foldl_cons]
        constructor
        · intro h
          rw [hfold] at h
          rcases (ih _ hinv2).1 h with ⟨ha, -⟩
          rw [hstep] at ha
          exact Option.noConfusion ha
        · intro b s h
          rw [hfold] at h
          rcases (ih _ hinv2).2 b s h with ⟨he, hs, hmax, hacc, hmem⟩
          refine ⟨he, hs, ?_, ?_, ?_⟩
          · intro c2 hc2 he2
            rcases List.mem_cons.mp hc2 with rfl | hc2
            · exact hacc c2 (fixScore m t c2) (by rw [hstep])
            · exact hmax c2 hc2 he2
          · intro b1 s1 h1
            rw [haccn] at h1
            exact Option.noConfusion h1
          · rcases hmem with hmem | hmem
            · exact Or.inl (List.mem_cons_of_mem c hmem)
            · rw [hstep] at hmem
              injection hmem with hmem
              injection hmem with h1 h2
              subst h1
              exact Or.inl (List.mem_cons_self c rest)
      · rcases hcase2 with ⟨hlt, hstep⟩ | ⟨hge, hstep⟩
        · -- c strictly improves on the accumulator
          have hinv2 : ∀ b s, bnpStep m mc fid t acc c = some (b, s) →
              fixEligible m mc fid t b ∧ s = fixScore m t b := by
            intro b s h
            rw [hstep] at h
            injection h with h
            injection h with h1 h2
            subst h1; subst h2
            exact ⟨helig, rfl⟩
          have hfold : (c :: rest).foldl (bnpStep m mc fid t) acc =
              rest.foldl (bnpStep m mc fid t) (bnpStep m mc fid t acc c) := by
            rw [List.foldl_cons]
          constructor
          · intro h
            rw [hfold] at h
            rcases (ih _ hinv2).1 h with ⟨ha, -⟩
            rw [hstep] at ha
            exact Option.noConfusion ha
          · intro b s h
            rw [hfold] at h
            rcases (ih _ hinv2).2 b s h with ⟨he, hs, hmax, hacc, hmem⟩
            refine ⟨he, hs, ?_, ?_, ?_⟩
            · intro c2 hc2 he2
              rcases List.mem_cons.mp hc2 with rfl | hc2
              · exact hacc c2 (fixScore m t c2) (by rw [hstep])
              · exact hmax c2 hc2 he2
            · intro b1 s1 h1
              rw [hacc0] at h1
              injection h1 with h1
              injection h1 with h1a h1b
              subst h1a
              have hcs := hacc c (fixScore m t c) (by rw [hstep])
              rw [← h1b]
              exact le_trans (le_of_lt hlt) hcs
            · rcases hmem with hmem | hmem
              · exact Or.inl (List.mem_cons_of_mem c hmem)
              · rw [hstep] at hmem
                injection hmem with hmem
                injection hmem with h1 h2
                subst h1
                exact Or.inl (List.mem_cons_self c rest)
        · -- the accumulator stays
          have hfold : (c :: rest).foldl (bnpStep m mc fid t) acc =
              rest.foldl (bnpStep m mc fid t) acc := by
            rw [List.foldl_cons, hstep]
          constructor
          · intro h
            rw [hfold] at h
            rcases (ih acc hinv).1 h with ⟨ha, -⟩
            rw [hacc0] at ha
            exact Option.noConfusion ha
          · intro b s h
            rw [hfold] at h
            rcases (ih acc hinv).2 b s h with ⟨he, hs, hmax, hacc, hmem⟩
            refine ⟨he, hs, ?_, hacc, ?_⟩
            · intro c2 hc2 he2
              rcases List.mem_cons.mp hc2 with rfl | hc2
              · exact le_trans hge (hacc b0 s0 hacc0)
              · exact hmax c2 hc2 he2
            · rcases hmem with hmem | hmem
              · exact Or.inl (List.mem_cons_of_mem c hmem)
              · exact Or.inr hmem

/-- The candidate scan returns an eligible, maximal-scoring member of the
unlocked set, or none exactly when no unlocked candidate is eligible. -/
theorem bestNewParent_spec (m : NodeMap) (mc : Nat) (unlockable : List String)
    (fid : String) (t : Int) :
    (bestNewParent m mc unlockable fid t = none →
      ∀ c ∈ unlockable, ¬ fixEligible m mc fid t c) ∧
    (∀ bp, bestNewParent m mc unlockable fid t = some bp →
      bp ∈ unlockable ∧ fixEligible m mc fid t bp ∧
      ∀ c ∈ unlockable, fixEligible m mc fid t c →
        fixScore m t c ≤ fixScore m t bp) := by
  have hspec := bnp_fold_spec m mc fid t unlockable none
    (by intro b s h; exact Option.noConfusion h)
  constructor
  · intro h
    unfold bestNewParent at h
    cases hf : unlockable.foldl (bnpStep m mc fid t) none with
    | none => exact (hspec.1 hf).2
    | some p => rw [hf] at h; exact Option.noConfusion h
  · intro bp h
    unfold bestNewParent at h
    cases hf : unlockable.foldl (bnpStep m mc fid t) none with
    | none => rw [hf] at h; exact Option.noConfusion h
    | some p =>
      rw [hf] at h
      injection h with h
      subst h
      rcases hspec.2 p.1 p.2 (by rw [hf]) with ⟨he, hs, hmax, -, hmem⟩
      rcases hmem with hmem | hmem
      · refine ⟨hmem, he, ?_⟩
        intro c hc he2
        have hle := hmax c hc he2
        rw [hs] at hle
        exact hle
      · exact Option.noConfusion hmem

theorem prereqF_fixApply (fid : String) (unlockable : List String)
    (prereqs blocking : List String) (bp : String) (m : NodeMap)
    (hfid : fid ∈ keysOf m) :
    prereqF (fixApply fid unlockable prereqs blocking bp m) fid =
      some (if bp ∈ prereqs.filter (fun p => decide (p ∈ unlockable))
            then prereqs.filter (fun p => decide (p ∈ unlockable))
            else prereqs.filter (fun p => decide (p ∈ unlockable)) ++ [bp]) := by
  unfold fixApply
  rw [prereqF_updateN_childrenOnly _ _ _ _
    (fun pn => by by_cases hc : fid ∈ pn.children <;> simp [hc])]
  unfold prereqF
  rw [lookupN_updateN_self]
  have hkeys : fid ∈ keysOf (blocking.foldl
      (fun acc b =>
        updateN acc b (fun bn => { bn with children := bn.children.erase fid })) m) := by
    rw [keysOf_foldl_updateN]
    exact hfid
  rw [mem_keys_iff_lookup_isSome] at hkeys
  cases hl : lookupN (blocking.foldl
      (fun acc b =>
        updateN acc b (fun bn => { bn with children := bn.children.erase fid })) m) fid with
  | none => rw [hl] at hkeys; simp at hkeys
  | some nd1 => simp

theorem fixNode_eq (root : String) (mc : Nat) (unlockable : List String)
    (m : NodeMap) (fid : String) (nd : SNode) (hl : lookupN m fid = some nd) :
    fixNode root mc unlockable m fid =
      (if nd.prerequisites.filter (fun p => decide (p ∉ unlockable ∧ p ≠ root)) = [] ∧
          nd.prerequisites ≠ [] then (m, false)
       else
         match (match (nd.prerequisites.filter (fun p => decide (p ∈ unlockable))).find?
                  (fun p => (lookupN m p).isSome) with
                | some p => some p
                | none => bestNewParent m mc unlockable fid nd.tier) with
         | none => (m, false)
         | some bp => (fixApply fid unlockable nd.prerequisites
             (nd.prerequisites.filter (fun p => decide (p ∉ unlockable ∧ p ≠ root))) bp m,
             true)) := by
  unfold fixNode
  rw [hl]

/-- C4 (amended): the behaviour of one auto-fix step on an unreachable
node, with the scoring of new-parent candidates by closer tier and fewer
children only (20 - 5 * tier_diff - child_count; the stored theme tag
plays no part).  (1) A node whose prerequisites are non-empty with none
blocking is skipped.  (2) A node that retains an unlocked prerequisite
has exactly its unlocked prerequisites kept and its blocking ones
dropped.  (3) Otherwise the best-scoring unlocked candidate with spare
capacity at a tier at most the node tier becomes its sole new parent,
and if no candidate is eligible the node is left untouched.  (The loop
around this step runs at most 20 passes, and a no-progress pass attaches
every remaining unreachable node directly under the root.) -/
theorem fix_node_repair_behaviour (m : NodeMap) (root : String) (mc : Nat)
    (unlockable : List String) (fid : String) (nd : SNode)
    (hl : lookupN m fid = some nd)
    (hroot : root ∈ keysOf m)
    (hsub : unlockable ⊆ root :: keysOf m) :
    ((nd.prerequisites.filter (fun p => decide (p ∉ unlockable ∧ p ≠ root)) = [] ∧
        nd.prerequisites ≠ []) →
      fixNode root mc unlockable m fid = (m, false)) ∧
    (¬ (nd.prerequisites.filter (fun p => decide (p ∉ unlockable ∧ p ≠ root)) = [] ∧
        nd.prerequisites ≠ []) →
      (nd.prerequisites.filter (fun p => decide (p ∈ unlockable)) ≠ [] →
        (fixNode root mc unlockable m fid).2 = true ∧
        prereqF (fixNode root mc unlockable m fid).1 fid =
          some (nd.prerequisites.filter (fun p => decide (p ∈ unlockable)))) ∧
      (nd.prerequisites.filter (fun p => decide (p ∈ unlockable)) = [] →
        (bestNewParent m mc unlockable fid nd.tier = none →
          fixNode root mc unlockable m fid = (m, false)) ∧
        (∀ bp, bestNewParent m mc unlockable fid nd.tier = some bp →
          (fixNode root mc unlockable m fid).2 = true ∧
          prereqF (fixNode root mc unlockable m fid).1 fid = some [bp] ∧
          bp ∈ unlockable ∧ fixEligible m mc fid nd.tier bp ∧
          ∀ c ∈ unlockable, fixEligible m mc fid nd.tier c →
            fixScore m nd.tier c ≤ fixScore m nd.tier bp))) := by
  have hfidkeys : fid ∈ keysOf m := by
    rw [mem_keys_iff_lookup_isSome, hl]; rfl
  constructor
  · intro hg
    rw [fixNode_eq root mc unlockable m fid nd hl, if_pos hg]
  · intro hng
    constructor
    · -- a reachable prerequisite is kept
      intro hre
      cases hrc : nd.prerequisites.filter (fun p => decide (p ∈ unlockable)) with
      | nil => exact absurd hrc hre
      | cons hd tl =>
        have hhdmem : hd ∈ nd.prerequisites.filter (fun p => decide (p ∈ unlockable)) := by
          rw [hrc]; exact List.mem_cons_self hd tl
        have hhdun : hd ∈ unlockable := by
          have := (List.mem_filter.mp hhdmem).2
          simpa using this
        have hhdsome : (lookupN m hd).isSome := by
          rw [← mem_keys_iff_lookup_isSome]
          rcases List.mem_cons.mp (hsub hhdun) with h | h
          · rw [h]; exact hroot
          · exact h
        have hfind : (nd.prerequisites.filter
            (fun p => decide (p ∈ unlockable))).find? (fun p => (lookupN m p).isSome) =
            some hd := by
          rw [hrc]
          exact List.find?_cons_of_pos tl hhdsome
        have heq : fixNode root mc unlockable m fid =
            (fixApply fid unlockable nd.prerequisites
              (nd.prerequisites.filter (fun p => decide (p ∉ unlockable ∧ p ≠ root))) hd m,
             true) := by
          rw [fixNode_eq root mc unlockable m fid nd hl, if_neg hng, hfind]
        rw [heq]
        refine ⟨rfl, ?_⟩
        rw [prereqF_fixApply fid unlockable nd.prerequisites _ hd m hfidkeys,
          if_pos hhdmem, hrc]
    · -- no reachable prerequisite: scan for a new parent
      intro hre
      have hfind : (nd.prerequisites.filter
          (fun p => decide (p ∈ unlockable))).find? (fun p => (lookupN m p).isSome) =
          none := by
        rw [hre]; rfl
      constructor
      · intro hbn
        rw [fixNode_eq root mc unlockable m fid nd hl, if_neg hng, hfind, hbn]
      · intro bp hbp
        have heq : fixNode root mc unlockable m fid =
            (fixApply fid unlockable nd.prerequisites
              (nd.prerequisites.filter (fun p => decide (p ∉ unlockable ∧ p ≠ root))) bp m,
             true) := by
          rw [fixNode_eq root mc unlockable m fid nd hl, if_neg hng, hfind, hbp]
        rcases (bestNewParent_spec m mc unlockable fid nd.tier).2 bp hbp with
          ⟨hmem, helig, hmax⟩
        rw [heq]
        refine ⟨rfl, ?_, hmem, helig, hmax⟩
        rw [prereqF_fixApply fid unlockable nd.prerequisites _ bp m hfidkeys]
        rw [hre]
        simp

/-- C4 witness: the repair-step theorem applied to a concrete dict where
an orphaned node gets the root as its new parent. -/
theorem fix_node_repair_behaviour_witness :
    (fixNode "r" 1 ["r"]
      [("r", { formId := "r" }), ("u", { formId := "u", prerequisites := ["zz"] })]
      "u").2 = true :=
  ((((fix_node_repair_behaviour
      [("r", { formId := "r" }), ("u", { formId := "u", prerequisites := ["zz"] })]
      "r" 1 ["r"] "u" { formId := "u", prerequisites := ["zz"] }
      (by decide) (by decide)
      (by intro x hx
          simp only [List.mem_singleton] at hx
          subst hx
          exact List.mem_cons_self _ _)).2
    (by decide)).2 (by decide)).2 "r" (by decide)).1

/-- Modelled from the spec: the claimed candidate score of the auto-fix
parent search, scored by closer tier, MATCHING THEME, and fewer
children.  The theme match is rendered as a positive bonus; any strictly
positive weight orders a tie between otherwise equal candidates the same
way. -/
def specFixScore (node cand : SNode) : Int :=
  20 - (node.tier - cand.tier) * 5 - (cand.children.length : Int) +
    (if node.theme ≠ none ∧ node.theme = cand.theme then 10 else 0)

/-- The C4 counterexample dict: the unreachable node u (theme fire) has
two eligible candidate parents of equal tier and equal child count, a
(theme fire, matching) and b (theme frost, not matching); the root is
full.  The dict lists b before a. -/
def c4u : SNode := { formId := "u", tier := 1, theme := some "fire", prerequisites := ["zz"] }

def c4a : SNode := { formId := "a", tier := 0, theme := some "fire", prerequisites := ["r"] }

def c4b : SNode := { formId := "b", tier := 0, theme := some "frost", prerequisites := ["r"] }

def c4map : NodeMap :=
  [("r", { formId := "r", tier := 0, children := ["b", "a"] }),
   ("b", c4b), ("a", c4a), ("u", c4u)]

/-- C4 counterexample: auto-fix picks b, the candidate whose theme does
NOT match, as the sole new parent of u, although the matching-theme
candidate a is unlocked, has spare capacity and the same tier and child
count - under the claimed scoring (closer tier, matching theme, fewer
children) a scores strictly higher.  The code scores by tier and child
count only; the theme plays no part, and the tie goes to the first
candidate scanned. -/
theorem fix_theme_scoring_counterexample :
    prereqF (fix_unreachable_nodes c4map "r" 2).1 "u" = some ["b"] ∧
    lookupN c4map "a" = some c4a ∧ lookupN c4map "b" = some c4b ∧
    "a" ∈ simulate_unlocks c4map "r" ∧
    c4a.children.length < 2 ∧ c4a.tier ≤ c4u.tier ∧
    c4u.theme = c4a.theme ∧ c4u.theme ≠ c4b.theme ∧
    specFixScore c4u c4b < specFixScore c4u c4a := by
  decide

/-! ## Kernel-computable rationals

Python float arithmetic on scores and edge costs is modelled with exact
rationals.  Mathlib rational arithmetic normalizes through Nat.gcd,
which the kernel cannot evaluate, so the executable model uses an
unnormalized fraction type Q whose operations are plain integer
arithmetic; Q.toRat maps it to the mathematical rationals and every
operation is proved to commute with that map.  A Q value denotes
num / (den + 1). -/

structure Q where
  num : Int
  den : Nat := 0
  deriving DecidableEq, Repr

def Q.ofInt (n : Int) : Q := ⟨n, 0⟩

def Q.ofNat (n : Nat) : Q := ⟨(n : Int), 0⟩

def Q.add (a b : Q) : Q :=
  ⟨a.num * ((b.den : Int) + 1) + b.num * ((a.den : Int) + 1),
   (a.den + 1) * (b.den + 1) - 1⟩

def Q.sub (a b : Q) : Q :=
  ⟨a.num * ((b.den : Int) + 1) - b.num * ((a.den : Int) + 1),
   (a.den + 1) * (b.den + 1) - 1⟩

def Q.mul (a b : Q) : Q :=
  ⟨a.num * b.num, (a.den + 1) * (b.den + 1) - 1⟩

instance : Add Q := ⟨Q.add⟩

instance : Sub Q := ⟨Q.sub⟩

instance : Mul Q := ⟨Q.mul⟩

def Q.ltP (a b : Q) : Prop :=
  a.num * ((b.den : Int) + 1) < b.num * ((a.den : Int) + 1)

def Q.leP (a b : Q) : Prop :=
  a.num * ((b.den : Int) + 1) ≤ b.num * ((a.den : Int) + 1)

instance : LT Q := ⟨Q.ltP⟩

instance : LE Q := ⟨Q.leP⟩

instance (a b : Q) : Decidable (a < b) :=
  inferInstanceAs (Decidable (a.num * ((b.den : Int) + 1) < b.num * ((a.den : Int) + 1)))

instance (a b : Q) : Decidable (a ≤ b) :=
  inferInstanceAs (Decidable (a.num * ((b.den : Int) + 1) ≤ b.num * ((a.den : Int) + 1)))

/-- Python max on two floats. -/
def Q.qmax (a b : Q) : Q := if a < b then b else a

/-- The denotation of a Q value. -/
def Q.toRat (a : Q) : ℚ := (a.num : ℚ) / ((a.den : ℚ) + 1)

theorem Q.den_cast_pos (a : Q) : (0 : ℚ) < (a.den : ℚ) + 1 := by positivity

theorem Q.cast_prod_den (a b : Q) :
    ((((a.den + 1) * (b.den + 1) - 1 : Nat) : ℚ)) + 1 =
      ((a.den : ℚ) + 1) * ((b.den : ℚ) + 1) := by
  have h : (a.den + 1) * (b.den + 1) - 1 + 1 = (a.den + 1) * (b.den + 1) := by
    have : 1 ≤ (a.den + 1) * (b.den + 1) := Nat.one_le_iff_ne_zero.mpr (by positivity)
    omega
  have h2 : ((((a.den + 1) * (b.den + 1) - 1 : Nat) : ℚ)) + 1 =
      (((a.den + 1) * (b.den + 1) - 1 + 1 : Nat) : ℚ) := by push_cast; ring
  rw [h2, h]
  push_cast
  ring

theorem Q.toRat_add (a b : Q) : (a + b).toRat = a.toRat + b.toRat := by
  show (Q.add a b).toRat = a.toRat + b.toRat
  unfold Q.toRat Q.add
  simp only
  rw [Q.cast_prod_den a b]
  have ha := Q.den_cast_pos a
  have hb := Q.den_cast_pos b
  field_simp

theorem Q.toRat_sub (a b : Q) : (a - b).toRat = a.toRat - b.toRat := by
  show (Q.sub a b).toRat = a.toRat - b.toRat
  unfold Q.toRat Q.sub
  simp only
  rw [Q.cast_prod_den a b]
  have ha := Q.den_cast_pos a
  have hb := Q.den_cast_pos b
  field_simp
  ring

theorem Q.toRat_mul (a b : Q) : (a * b).toRat = a.toRat * b.toRat := by
  show (Q.mul a b).toRat = a.toRat * b.toRat
  unfold Q.toRat Q.mul
  simp only
  rw [Q.cast_prod_den a b]
  have ha := Q.den_cast_pos a
  have hb := Q.den_cast_pos b
  field_simp

theorem Q.toRat_ofNat (n : Nat) : (Q.ofNat n).toRat = (n : ℚ) := by
  unfold Q.toRat Q.ofNat
  norm_num

theorem Q.toRat_ofInt (n : Int) : (Q.ofInt n).toRat = (n : ℚ) := by
  unfold Q.toRat Q.ofInt
  norm_num

theorem Q.lt_iff_toRat (a b : Q) : a < b ↔ a.toRat < b.toRat := by
  show Q.ltP a b ↔ a.toRat < b.toRat
  unfold Q.ltP Q.toRat
  rw [div_lt_div_iff (Q.den_cast_pos a) (Q.den_cast_pos b)]
  constructor
  · intro h
    exact_mod_cast h
  · intro h
    exact_mod_cast h

theorem Q.le_iff_toRat (a b : Q) : a ≤ b ↔ a.toRat ≤ b.toRat := by
  show Q.leP a b ↔ a.toRat ≤ b.toRat
  unfold Q.leP Q.toRat
  rw [div_le_div_iff (Q.den_cast_pos a) (Q.den_cast_pos b)]
  constructor
  · intro h
    exact_mod_cast h
  · intro h
    exact_mod_cast h

theorem Q.toRat_qmax (a b : Q) : (Q.qmax a b).toRat = max a.toRat b.toRat := by
  unfold Q.qmax
  by_cases h : a < b
  · rw [if_pos h]
    rw [Q.lt_iff_toRat] at h
    exact (max_eq_right (le_of_lt h)).symm
  · rw [if_neg h]
    rw [Q.lt_iff_toRat] at h
    exact (max_eq_left (le_of_not_lt h)).symm

theorem Q.toRat_mk1000 (n : Int) : Q.toRat ⟨n, 999⟩ = (n : ℚ) / 1000 := by
  unfold Q.toRat
  norm_num

/-! ## The graph strategy: graph_build_tree.py -/

/-- The per-school similarity matrix: sparse maps from an ordered id pair
(the Python keys are the strings "a:b") to a similarity score. -/
structure SimMatrix where
  text_sims : List ((String × String) × Q) := []
  name_sims : List ((String × String) × Q) := []
  effect_sims : List ((String × String) × Q) := []
  deriving DecidableEq, Repr

/-- dict.get(key, 0.0) on a similarity map. -/
def simGet (l : List ((String × String) × Q)) (a b : String) : Q :=
  ((l.find? (fun p => p.1 = (a, b))).map (fun p => p.2)).getD (Q.ofInt 0)

/-- The seeded random generator, modelled as a deterministic stream of
naturals consumed one draw at a time in program order. -/
structure Rng where
  g : Nat → Nat
  idx : Nat := 0

def Rng.next (r : Rng) : Nat × Rng := (r.g r.idx, { r with idx := r.idx + 1 })

/-- random.uniform(lo, hi): one draw, scaled into [lo, hi] (the model
maps the draw k to lo + (hi - lo) * (k mod 1001) / 1000; any map into
[lo, hi] works for the properties proven here, which quantify over all
streams). -/
def randUniform (lo hi : Q) (r : Rng) : Q × Rng :=
  let d := r.next
  (lo + (hi - lo) * ⟨((d.1 % 1001 : Nat) : Int), 999⟩, d.2)

/-- _compute_edge_cost of graph_build_tree.py: the directed parent to
child edge cost, blending a metadata cost and an NLP cost by chaos,
plus a force-balance jitter, floored at 0.001. -/
def compute_edge_cost (parent_fid child_fid : String)
    (parent_node child_node : TreeNode)
    (parent_tier_idx child_tier_idx : Int) (sims : SimMatrix)
    (chaos force_balance : Q) (r : Rng) : Q × Rng :=
  let tier_diff : Int := child_tier_idx - parent_tier_idx
  let w1 : Q :=
    if tier_diff ≤ 0 then Q.ofInt 50 + Q.ofNat tier_diff.natAbs * Q.ofInt 30
    else if tier_diff = 1 then Q.ofInt 0
    else if tier_diff = 2 then Q.ofInt 10
    else Q.ofInt 5 * (Q.ofInt tier_diff - Q.ofInt 1)
  let w2 : Q := if parent_node.school = child_node.school
    then w1 - Q.ofInt 5 else w1 + Q.ofInt 15
  let effect_sim := simGet sims.effect_sims parent_fid child_fid
  let w3 := w2 - effect_sim * Q.ofInt 30
  let name_sim := simGet sims.name_sims parent_fid child_fid
  let w_metadata := w3 - name_sim * Q.ofInt 10
  let text_sim := simGet sims.text_sims parent_fid child_fid
  let w_nlp := (Q.ofInt 1 - text_sim) * Q.ofInt 60
  let cost := (Q.ofInt 1 - chaos) * w_metadata + chaos * w_nlp
  let j := randUniform (Q.ofInt 0) (force_balance * Q.ofInt 5) r
  (Q.qmax ⟨1, 999⟩ (cost + j.1), j.2)

/-- The metadata term of the C7 claim formula, over the mathematical
rationals: tier term (0 / +10 / 5x(gap-1) / 50+30x|diff|), school term
(-5 same, +15 otherwise), minus effect-affinity x30 and name-similarity
x10. -/
def claimMetadataTerm (parent_school child_school : String) (ptier ctier : Int)
    (effect_sim name_sim : ℚ) : ℚ :=
  (if ptier < ctier then
     (if ctier - ptier = 1 then 0
      else if ctier - ptier = 2 then 10
      else 5 * (((ctier - ptier : Int) : ℚ) - 1))
   else 50 + 30 * (((ctier - ptier).natAbs : Nat) : ℚ)) +
  (if parent_school = child_school then -5 else 15) -
  effect_sim * 30 - name_sim * 10

/-- The C7 claim formula: max(epsilon, (1-chaos) w_metadata +
chaos (1-text_sim) 60 + jitter) with epsilon = 0.001. -/
def claimEdgeCost (parent_school child_school : String) (ptier ctier : Int)
    (effect_sim name_sim text_sim chaos jitter : ℚ) : ℚ :=
  max (1 / 1000)
    ((1 - chaos) * claimMetadataTerm parent_school child_school ptier ctier effect_sim name_sim +
     chaos * (1 - text_sim) * 60 + jitter)

/-- C7: _compute_edge_cost returns max(epsilon, (1-chaos) w_metadata +
chaos (1-text_sim) 60 + jitter) with w_metadata as the claim describes,
the jitter non-negative and bounded by force_balance x 5, and
epsilon = 0.001. -/
theorem compute_edge_cost_formula (pf cf : String) (pn cn : TreeNode)
    (pt ct : Int) (sims : SimMatrix) (chaos fb : Q) (r : Rng)
    (hfb : (0 : ℚ) ≤ fb.toRat) :
    ((compute_edge_cost pf cf pn cn pt ct sims chaos fb r).1).toRat =
      claimEdgeCost pn.school cn.school pt ct
        (simGet sims.effect_sims pf cf).toRat (simGet sims.name_sims pf cf).toRat
        (simGet sims.text_sims pf cf).toRat chaos.toRat
        ((randUniform (Q.ofInt 0) (fb * Q.ofInt 5) r).1).toRat ∧
    0 ≤ ((randUniform (Q.ofInt 0) (fb * Q.ofInt 5) r).1).toRat ∧
    ((randUniform (Q.ofInt 0) (fb * Q.ofInt 5) r).1).toRat ≤ fb.toRat * 5 := by
  have hk : ((r.g r.idx % 1001 : Nat) : ℚ) ≤ 1000 := by
    have h1 : (r.g r.idx % 1001 : Nat) ≤ 1000 := by
      have := Nat.mod_lt (r.g r.idx) (show 0 < 1001 by norm_num)
      omega
    exact_mod_cast h1
  have hmk : Q.toRat ⟨((r.g r.idx % 1001 : Nat) : Int), 999⟩ =
      ((r.g r.idx % 1001 : Nat) : ℚ) / 1000 := by
    rw [Q.toRat_mk1000, Int.cast_natCast]
  have hjit : ((randUniform (Q.ofInt 0) (fb * Q.ofInt 5) r).1).toRat =
      fb.toRat * 5 * (((r.g r.idx % 1001 : Nat) : ℚ) / 1000) := by
    simp only [randUniform, Rng.next]
    rw [Q.toRat_add, Q.toRat_mul, Q.toRat_sub, Q.toRat_mul, Q.toRat_ofInt,
      Q.toRat_ofInt, hmk]
    push_cast
    ring
  refine ⟨?_, ?_, ?_⟩
  · simp only [compute_edge_cost, claimEdgeCost, claimMetadataTerm]
    rw [Q.toRat_qmax]
    have heps : Q.toRat ⟨1, 999⟩ = 1 / 1000 := by
      rw [Q.toRat_mk1000]; norm_num
    rw [heps]
    congr 1
    by_cases h1 : ct - pt ≤ 0
    · rw [if_pos h1, if_neg (by omega : ¬ pt < ct)]
      by_cases hsch : pn.school = cn.school <;>
        [rw [if_pos hsch, if_pos hsch]; rw [if_neg hsch, if_neg hsch]] <;>
        simp only [Q.toRat_add, Q.toRat_sub, Q.toRat_mul, Q.toRat_ofInt,
          Q.toRat_ofNat] <;>
        push_cast <;> ring
    · by_cases h2 : ct - pt = 1
      · rw [if_neg h1, if_pos h2, if_pos (by omega : pt < ct), if_pos h2]
        by_cases hsch : pn.school = cn.school <;>
          [rw [if_pos hsch, if_pos hsch]; rw [if_neg hsch, if_neg hsch]] <;>
          simp only [Q.toRat_add, Q.toRat_sub, Q.toRat_mul, Q.toRat_ofInt,
            Q.toRat_ofNat] <;>
          push_cast <;> ring
      · by_cases h3 : ct - pt = 2
        · rw [if_neg h1, if_neg h2, if_pos h3, if_pos (by omega : pt < ct),
            if_neg h2, if_pos h3]
          by_cases hsch : pn.school = cn.school <;>
            [rw [if_pos hsch, if_pos hsch]; rw [if_neg hsch, if_neg hsch]] <;>
            simp only [Q.toRat_add, Q.toRat_sub, Q.toRat_mul, Q.toRat_ofInt,
              Q.toRat_ofNat] <;>
            push_cast <;> ring
        · rw [if_neg h1, if_neg h2, if_neg h3, if_pos (by omega : pt < ct),
            if_neg h2, if_neg h3]
          by_cases hsch : pn.school = cn.school <;>
            [rw [if_pos hsch, if_pos hsch]; rw [if_neg hsch, if_neg hsch]] <;>
            simp only [Q.toRat_add, Q.toRat_sub, Q.toRat_mul, Q.toRat_ofInt,
              Q.toRat_ofNat] <;>
            push_cast <;> ring
  · rw [hjit]
    have hpos : (0 : ℚ) ≤ (((r.g r.idx % 1001 : Nat) : ℚ) / 1000) := by positivity
    have h5 : (0 : ℚ) ≤ fb.toRat * 5 := by linarith
    exact mul_nonneg h5 hpos
  · rw [hjit]
    have h5 : (0 : ℚ) ≤ fb.toRat * 5 := by linarith
    have hle1 : (((r.g r.idx % 1001 : Nat) : ℚ) / 1000) ≤ 1 := by
      rw [div_le_one (by norm_num : (0:ℚ) < 1000)]
      exact hk
    calc fb.toRat * 5 * (((r.g r.idx % 1001 : Nat) : ℚ) / 1000) ≤ fb.toRat * 5 * 1 :=
          mul_le_mul_of_nonneg_left hle1 h5
      _ = fb.toRat * 5 := by ring

/-- C7 witness: the formula theorem applied at concrete arguments. -/
theorem compute_edge_cost_formula_witness :
    0 ≤ ((randUniform (Q.ofInt 0) (Q.ofInt 1 * Q.ofInt 5) (Rng.mk (fun _ => 7) 0)).1).toRat :=
  (compute_edge_cost_formula "p" "c" { form_id := "p" } { form_id := "c" } 0 1
    {} (Q.ofInt 0) (Q.ofInt 1) (Rng.mk (fun _ => 7) 0)
    (by simp [Q.toRat_ofInt])).2.1

/-! ### _constrain_branching: the branching-factor repair pass

The builder nodes dict maps form ids to TreeNode objects. -/

/-- The nodes dict of the builders. -/
abbrev TMap := List (String × TreeNode)

def lookupT (m : TMap) (k : String) : Option TreeNode :=
  (m.find? (fun p => p.1 = k)).map (fun p => p.2)

def keysOfT (m : TMap) : List String :=
  m.map (fun p => p.1)

def updateT (m : TMap) (k : String) (f : TreeNode → TreeNode) : TMap :=
  m.map (fun p => if p.1 = k then (p.1, f p.2) else p)

theorem updateT_cons_pos (p : String × TreeNode) (rest : List (String × TreeNode))
    (k : String) (f : TreeNode → TreeNode) (h : p.1 = k) :
    updateT (p :: rest) k f = (p.1, f p.2) :: updateT rest k f := by
  simp [updateT, h]

theorem updateT_cons_neg (p : String × TreeNode) (rest : List (String × TreeNode))
    (k : String) (f : TreeNode → TreeNode) (h : ¬ p.1 = k) :
    updateT (p :: rest) k f = p :: updateT rest k f := by
  simp [updateT, h]

theorem keysOfT_updateT (m : TMap) (k : String) (f : TreeNode → TreeNode) :
    keysOfT (updateT m k f) = keysOfT m := by
  induction m with
  | nil => rfl
  | cons p rest ih =>
    by_cases h : p.1 = k
    · rw [updateT_cons_pos p rest k f h]
      show p.1 :: keysOfT (updateT rest k f) = p.1 :: keysOfT rest
      rw [ih]
    · rw [updateT_cons_neg p rest k f h]
      show p.1 :: keysOfT (updateT rest k f) = p.1 :: keysOfT rest
      rw [ih]

theorem lookupT_cons_pos (p : String × TreeNode) (rest : List (String × TreeNode))
    (k : String) (h : p.1 = k) : lookupT (p :: rest) k = some p.2 := by
  unfold lookupT
  rw [List.find?_cons_of_pos _ (by simp [h])]
  rfl

theorem lookupT_cons_neg (p : String × TreeNode) (rest : List (String × TreeNode))
    (k : String) (h : ¬ p.1 = k) : lookupT (p :: rest) k = lookupT rest k := by
  unfold lookupT
  rw [List.find?_cons_of_neg _ (by simp [h])]

theorem lookupT_updateT_self (m : TMap) (k : String) (f : TreeNode → TreeNode) :
    lookupT (updateT m k f) k = (lookupT m k).map f := by
  induction m with
  | nil => rfl
  | cons p rest ih =>
    by_cases h : p.1 = k
    · rw [updateT_cons_pos p rest k f h,
        lookupT_cons_pos (p.1, f p.2) (updateT rest k f) k h,
        lookupT_cons_pos p rest k h]
      rfl
    · rw [updateT_cons_neg p rest k f h,
        lookupT_cons_neg p (updateT rest k f) k h,
        lookupT_cons_neg p rest k h]
      exact ih

theorem lookupT_updateT_ne (m : TMap) (k k2 : String) (f : TreeNode → TreeNode)
    (h : k2 ≠ k) : lookupT (updateT m k f) k2 = lookupT m k2 := by
  induction m with
  | nil => rfl
  | cons p rest ih =>
    by_cases hp : p.1 = k
    · have hp2 : ¬ p.1 = k2 := by rw [hp]; exact fun hh => h hh.symm
      rw [updateT_cons_pos p rest k f hp,
        lookupT_cons_neg (p.1, f p.2) (updateT rest k f) k2 hp2,
        lookupT_cons_neg p rest k2 hp2]
      exact ih
    · rw [updateT_cons_neg p rest k f hp]
      by_cases hk2 : p.1 = k2
      · rw [lookupT_cons_pos p (updateT rest k f) k2 hk2, lookupT_cons_pos p rest k2 hk2]
      · rw [lookupT_cons_neg p (updateT rest k f) k2 hk2, lookupT_cons_neg p rest k2 hk2]
        exact ih

theorem lookupT_eq_of_mem_nodup (m : TMap) (k : String) (v : TreeNode)
    (hnd : (keysOfT m).Nodup) (hmem : (k, v) ∈ m) : lookupT m k = some v := by
  induction m with
  | nil => simp at hmem
  | cons p rest ih =>
    rcases List.mem_cons.mp hmem with h | h
    · subst h
      exact lookupT_cons_pos _ _ _ rfl
    · have hk : p.1 ≠ k := by
        intro he
        have : k ∈ keysOfT rest := by
          simp only [keysOfT, List.mem_map]
          exact ⟨(k, v), h, rfl⟩
        rw [keysOfT, List.map_cons, List.nodup_cons] at hnd
        exact hnd.1 (he ▸ this)
      rw [lookupT_cons_neg p rest k hk]
      exact ih (by rw [keysOfT, List.map_cons, List.nodup_cons] at hnd; exact hnd.2) h

/-- TIER_INDEX.get(tier, 0): the index of a tier name, defaulting to 0. -/
def TIER_INDEX (t : String) : Nat :=
  if t = "Novice" then 0
  else if t = "Apprentice" then 1
  else if t = "Adept" then 2
  else if t = "Expert" then 3
  else if t = "Master" then 4
  else 0

/-- The affinity of a child to a parent in _constrain_branching:
effect x30 + text x20 + name x10. -/
def childScore (sims : SimMatrix) (pfid cfid : String) : Q :=
  simGet sims.effect_sims pfid cfid * Q.ofInt 30 +
  simGet sims.text_sims pfid cfid * Q.ofInt 20 +
  simGet sims.name_sims pfid cfid * Q.ofInt 10

/-- Stable insertion into a descending-sorted list: equal scores keep
their original relative order, as with the stable Python sort. -/
def insertDesc (a : Q × String) : List (Q × String) → List (Q × String)
  | [] => [a]
  | b :: rest => if b.1 < a.1 then a :: b :: rest else b :: insertDesc a rest

/-- Stable descending sort by score (child_scores.sort(key, reverse=True);
any stable sort produces the same list). -/
def sortDesc (l : List (Q × String)) : List (Q × String) :=
  l.foldl (fun acc a => insertDesc a acc) []

/-- The keep / reroute split of an overloaded node's children. -/
def constrainChildSplit (sims : SimMatrix) (mc : Nat) (fid : String)
    (children : List String) : List String × List String :=
  let sorted := sortDesc (children.map (fun c => (childScore sims fid c, c)))
  ((sorted.take mc).map (fun p => p.2), (sorted.drop mc).map (fun p => p.2))

/-- One step of the best-kept-sibling scan of the reroute step:
effect x30 + text x20 - children x5, capacity-gated, first strict
improvement wins. -/
def rbStep (mc : Nat) (sims : SimMatrix) (rfid : String) (st : TMap)
    (acc : Option (String × TreeNode × Q)) (sfid : String) :
    Option (String × TreeNode × Q) :=
  match lookupT st sfid with
  | none => acc
  | some sib =>
    if mc ≤ sib.children.length then acc
    else
      let sc := simGet sims.effect_sims sfid rfid * Q.ofInt 30 +
                simGet sims.text_sims sfid rfid * Q.ofInt 20 -
                Q.ofNat sib.children.length * Q.ofInt 5
      match acc with
      | none => some (sfid, sib, sc)
      | some p => if p.2.2 < sc then some (sfid, sib, sc) else acc

/-- The best-kept-sibling scan of the reroute step. -/
def rerouteBest (mc : Nat) (sims : SimMatrix) (rfid : String)
    (keep : List String) (st : TMap) : Option (String × TreeNode × Q) :=
  keep.foldl (rbStep mc sims rfid st) none

/-- The adopter of a rerouted child: the best kept sibling with
capacity, or else the first other node with capacity at a tier at most
the child's. -/
def rerouteAdopter (mc : Nat) (sims : SimMatrix) (fid rfid : String)
    (rnode : TreeNode) (keep : List String) (st : TMap) :
    Option (String × TreeNode) :=
  match rerouteBest mc sims rfid keep st with
  | some p => some (p.1, p.2.1)
  | none =>
    (st.find? (fun p =>
      decide (¬ (p.1 = rfid ∨ p.1 = fid) ∧ p.2.children.length < mc ∧
        TIER_INDEX p.2.tier ≤ TIER_INDEX rnode.tier))).map (fun p => (p.1, p.2))

/-- unlink_nodes(node, reroute_node) followed by
link_nodes(adopter, reroute_node), on the stored objects. -/
def rerouteApply (fid pform rfid : String) (rnode : TreeNode)
    (ad : String × TreeNode) (st : TMap) : TMap :=
  let st1 := updateT st fid (fun n =>
    { n with children := if rnode.form_id ∈ n.children
        then n.children.erase rnode.form_id else n.children })
  let st2 := updateT st1 rfid (fun c =>
    { c with prerequisites := if pform ∈ c.prerequisites
        then c.prerequisites.erase pform else c.prerequisites })
  let st3 := updateT st2 ad.1 (fun p => p.add_child rnode.form_id)
  updateT st3 rfid (fun c =>
    { c.add_prerequisite ad.2.form_id with depth := ad.2.depth + 1 })

/-- Rerouting one excess child: find the adopter, then unlink from the
overloaded parent and link under the adopter.  pform is the form id of
the overloaded parent object. -/
def rerouteOne (mc : Nat) (sims : SimMatrix) (fid pform : String)
    (keep : List String) (st : TMap) (rfid : String) : TMap × Bool :=
  match lookupT st rfid with
  | none => (st, false)
  | some rnode =>
    match rerouteAdopter mc sims fid rfid rnode keep st with
    | none => (st, false)
    | some ad => (rerouteApply fid pform rfid rnode ad st, true)

/-- Processing one node of a pass: nothing to do unless its children
exceed max_children; otherwise split and reroute each excess child. -/
def constrainPassNode (mc : Nat) (sims : SimMatrix) (st : TMap) (fid : String) :
    TMap × Bool :=
  match lookupT st fid with
  | none => (st, false)
  | some node =>
    if node.children.length ≤ mc then (st, false)
    else
      let split := constrainChildSplit sims mc fid node.children
      split.2.foldl (fun (acc : TMap × Bool) rfid =>
        let r := rerouteOne mc sims fid node.form_id split.1 acc.1 rfid
        (r.1, acc.2 || r.2)) (st, false)

/-- The while-loop of _constrain_branching: up to 10 passes, stopping
when a pass changes nothing. -/
def constrainLoop (mc : Nat) (sims : SimMatrix) : Nat → TMap → TMap
  | 0, st => st
  | fuel + 1, st =>
    let res := (keysOfT st).foldl (fun (acc : TMap × Bool) fid =>
        let r := constrainPassNode mc sims acc.1 fid
        (r.1, acc.2 || r.2)) (st, false)
    if res.2 then constrainLoop mc sims fuel res.1 else res.1

/-- _constrain_branching of graph_build_tree.py (root_id and
force_balance are parameters of the source function but unused by it). -/
def constrain_branching (m : TMap) (root : String) (mc : Nat) (sims : SimMatrix)
    (force_balance : Q) : TMap :=
  constrainLoop mc sims 10 m

/-- The child count stored under a key (0 when the key is absent). -/
def ccT (m : TMap) (k : String) : Nat :=
  ((lookupT m k).map (fun n => n.children.length)).getD 0

theorem add_child_length_le (n : TreeNode) (i : String) :
    (n.add_child i).children.length ≤ n.children.length + 1 := by
  unfold TreeNode.add_child
  by_cases h : i ∈ n.children <;> simp [h]

theorem ccT_updateT_mono (m : TMap) (k : String) (f : TreeNode → TreeNode)
    (hf : ∀ n, (f n).children.length ≤ n.children.length) (k2 : String) :
    ccT (updateT m k f) k2 ≤ ccT m k2 := by
  unfold ccT
  by_cases h : k2 = k
  · subst h
    rw [lookupT_updateT_self]
    cases lookupT m k2 with
    | none => simp
    | some n => simpa using hf n
  · rw [lookupT_updateT_ne m k k2 f h]

theorem ccT_updateT_addChild (m : TMap) (mc : Nat) (k i : String)
    (hcap : ccT m k < mc) (k2 : String) :
    ccT (updateT m k (fun p => p.add_child i)) k2 ≤ max (ccT m k2) mc := by
  unfold ccT
  by_cases h : k2 = k
  · subst h
    rw [lookupT_updateT_self]
    cases hl : lookupT m k2 with
    | none => simp
    | some n =>
      unfold ccT at hcap
      rw [hl] at hcap
      simp at hcap ⊢
      have := add_child_length_le n i
      omega
  · rw [lookupT_updateT_ne m k k2 _ h]
    exact le_max_left _ _

theorem rbStep_shape (mc : Nat) (sims : SimMatrix) (rfid : String) (st : TMap)
    (acc : Option (String × TreeNode × Q)) (sfid : String) :
    rbStep mc sims rfid st acc sfid = acc ∨
    ∃ sib sc, lookupT st sfid = some sib ∧ sib.children.length < mc ∧
      rbStep mc sims rfid st acc sfid = some (sfid, sib, sc) := by
  cases hl : lookupT st sfid with
  | none => left; simp [rbStep, hl]
  | some sib =>
    by_cases hc : mc ≤ sib.children.length
    · left; simp [rbStep, hl, hc]
    · cases hacc : acc with
      | none =>
        right
        refine ⟨sib, simGet sims.effect_sims sfid rfid * Q.ofInt 30 +
          simGet sims.text_sims sfid rfid * Q.ofInt 20 -
          Q.ofNat sib.children.length * Q.ofInt 5, rfl, by omega, ?_⟩
        simp [rbStep, hl, hc]
      | some p0 =>
        by_cases hlt : p0.2.2 < simGet sims.effect_sims sfid rfid * Q.ofInt 30 +
            simGet sims.text_sims sfid rfid * Q.ofInt 20 -
            Q.ofNat sib.children.length * Q.ofInt 5
        · right
          refine ⟨sib, simGet sims.effect_sims sfid rfid * Q.ofInt 30 +
            simGet sims.text_sims sfid rfid * Q.ofInt 20 -
            Q.ofNat sib.children.length * Q.ofInt 5, rfl, by omega, ?_⟩
          simp [rbStep, hl, hc, hlt]
        · left
          simp [rbStep, hl, hc, hlt]

theorem rerouteBest_capacity (mc : Nat) (sims : SimMatrix) (rfid : String)
    (keep : List String) (st : TMap) :
    ∀ p, rerouteBest mc sims rfid keep st = some p →
      lookupT st p.1 = some p.2.1 ∧ p.2.1.children.length < mc := by
  unfold rerouteBest
  suffices h : ∀ (acc : Option (String × TreeNode × Q)),
      (∀ p, acc = some p → lookupT st p.1 = some p.2.1 ∧ p.2.1.children.length < mc) →
      ∀ p, keep.foldl (rbStep mc sims rfid st) acc = some p →
        lookupT st p.1 = some p.2.1 ∧ p.2.1.children.length < mc by
    exact h none (fun p hp => Option.noConfusion hp)
  intro acc hinv p hp
  induction keep generalizing acc with
  | nil => exact hinv p hp
  | cons sfid rest ih =>
    rw [List.foldl_cons] at hp
    apply ih (rbStep mc sims rfid st acc sfid) _ hp
    intro q hq
    rcases rbStep_shape mc sims rfid st acc sfid with hs | ⟨sib, sc, hl, hcap, hs⟩
    · rw [hs] at hq
      exact hinv q hq
    · rw [hs] at hq
      injection hq with hq
      subst hq
      exact ⟨hl, hcap⟩

theorem rerouteAdopter_capacity (mc : Nat) (sims : SimMatrix) (fid rfid : String)
    (rnode : TreeNode) (keep : List String) (st : TMap)
    (hnd : (keysOfT st).Nodup) :
    ∀ ad, rerouteAdopter mc sims fid rfid rnode keep st = some ad →
      ccT st ad.1 < mc := by
  intro ad had
  unfold rerouteAdopter at had
  cases hb : rerouteBest mc sims rfid keep st with
  | some p =>
    rw [hb] at had
    injection had with had
    subst had
    rcases rerouteBest_capacity mc sims rfid keep st p hb with ⟨hl, hlen⟩
    unfold ccT
    rw [hl]
    simpa using hlen
  | none =>
    rw [hb] at had
    cases hf : st.find? (fun p =>
        decide (¬ (p.1 = rfid ∨ p.1 = fid) ∧ p.2.children.length < mc ∧
          TIER_INDEX p.2.tier ≤ TIER_INDEX rnode.tier)) with
    | none =>
      rw [hf] at had
      exact Option.noConfusion had
    | some pr =>
      rw [hf] at had
      injection had with had
      subst had
      have hmem := List.mem_of_find?_eq_some hf
      have hpred := List.find?_some hf
      simp only [decide_eq_true_eq] at hpred
      have hl : lookupT st pr.1 = some pr.2 :=
        lookupT_eq_of_mem_nodup st pr.1 pr.2 hnd (by simpa using hmem)
      unfold ccT
      rw [hl]
      simpa using hpred.2.1

theorem keysOfT_rerouteApply (fid pform rfid : String) (rnode : TreeNode)
    (ad : String × TreeNode) (st : TMap) :
    keysOfT (rerouteApply fid pform rfid rnode ad st) = keysOfT st := by
  unfold rerouteApply
  rw [keysOfT_updateT, keysOfT_updateT, keysOfT_updateT, keysOfT_updateT]

theorem rerouteApply_bound (fid pform rfid : String) (rnode : TreeNode)
    (ad : String × TreeNode) (st : TMap) (mc : Nat) (m0 : TMap)
    (hP : ∀ k, ccT st k ≤ max (ccT m0 k) mc)
    (hcap : ccT st ad.1 < mc) :
    ∀ k, ccT (rerouteApply fid pform rfid rnode ad st) k ≤ max (ccT m0 k) mc := by
  intro k
  unfold rerouteApply
  have h1 : ∀ k2, ccT (updateT st fid (fun n =>
      { n with children := if rnode.form_id ∈ n.children
          then n.children.erase rnode.form_id else n.children })) k2 ≤ ccT st k2 := by
    intro k2
    apply ccT_updateT_mono
    intro n
    by_cases h : rnode.form_id ∈ n.children
    · simp only [h, if_pos]
      exact le_trans (List.length_erase_le _ _) (Nat.le_refl _)
    · simp [h]
  set stA := updateT st fid (fun n =>
      { n with children := if rnode.form_id ∈ n.children
          then n.children.erase rnode.form_id else n.children }) with hstA
  have h2 : ∀ k2, ccT (updateT stA rfid (fun c =>
      { c with prerequisites := if pform ∈ c.prerequisites
          then c.prerequisites.erase pform else c.prerequisites })) k2 = ccT stA k2 := by
    intro k2
    unfold ccT
    by_cases h : k2 = rfid
    · subst h
      rw [lookupT_updateT_self]
      cases lookupT stA k2 with
      | none => rfl
      | some n => rfl
    · rw [lookupT_updateT_ne _ _ _ _ h]
  set stB := updateT stA rfid (fun c =>
      { c with prerequisites := if pform ∈ c.prerequisites
          then c.prerequisites.erase pform else c.prerequisites }) with hstB
  have hcapB : ccT stB ad.1 < mc := by
    rw [h2]
    exact lt_of_le_of_lt (h1 ad.1) hcap
  have h3 : ∀ k2, ccT (updateT stB ad.1 (fun p => p.add_child rnode.form_id)) k2 ≤
      max (ccT stB k2) mc := ccT_updateT_addChild stB mc ad.1 rnode.form_id hcapB
  set stC := updateT stB ad.1 (fun p => p.add_child rnode.form_id) with hstC
  have h4 : ∀ k2, ccT (updateT stC rfid (fun c =>
      { c.add_prerequisite ad.2.form_id with depth := ad.2.depth + 1 })) k2 ≤ ccT stC k2 := by
    intro k2
    apply ccT_updateT_mono
    intro n
    show (n.add_prerequisite ad.2.form_id).children.length ≤ n.children.length
    rw [add_prereq_children]
  calc ccT (updateT stC rfid (fun c =>
        { c.add_prerequisite ad.2.form_id with depth := ad.2.depth + 1 })) k
      ≤ ccT stC k := h4 k
    _ ≤ max (ccT stB k) mc := h3 k
    _ ≤ max (max (ccT m0 k) mc) mc := by
        apply max_le_max_right
        rw [h2]
        exact le_trans (h1 k) (hP k)
    _ = max (ccT m0 k) mc := by rw [max_assoc, max_self]

theorem rerouteOne_bound (mc : Nat) (sims : SimMatrix) (fid pform : String)
    (keep : List String) (st : TMap) (rfid : String) (m0 : TMap)
    (hnd : (keysOfT st).Nodup)
    (hP : ∀ k, ccT st k ≤ max (ccT m0 k) mc) :
    (∀ k, ccT (rerouteOne mc sims fid pform keep st rfid).1 k ≤ max (ccT m0 k) mc) ∧
    keysOfT (rerouteOne mc sims fid pform keep st rfid).1 = keysOfT st := by
  cases hl : lookupT st rfid with
  | none =>
    have heq : rerouteOne mc sims fid pform keep st rfid = (st, false) := by
      simp [rerouteOne, hl]
    rw [heq]
    exact ⟨hP, rfl⟩
  | some rnode =>
    cases had : rerouteAdopter mc sims fid rfid rnode keep st with
    | none =>
      have heq : rerouteOne mc sims fid pform keep st rfid = (st, false) := by
        simp [rerouteOne, hl, had]
      rw [heq]
      exact ⟨hP, rfl⟩
    | some ad =>
      have heq : rerouteOne mc sims fid pform keep st rfid =
          (rerouteApply fid pform rfid rnode ad st, true) := by
        simp [rerouteOne, hl, had]
      rw [heq]
      have hcap := rerouteAdopter_capacity mc sims fid rfid rnode keep st hnd ad had
      exact ⟨rerouteApply_bound fid pform rfid rnode ad st mc m0 hP hcap,
        keysOfT_rerouteApply fid pform rfid rnode ad st⟩

theorem reroute_fold_bound (mc : Nat) (sims : SimMatrix) (fid pform : String)
    (keep : List String) (m0 : TMap) (rl : List String) :
    ∀ (acc : TMap × Bool), (keysOfT acc.1).Nodup →
    (∀ k, ccT acc.1 k ≤ max (ccT m0 k) mc) →
    (∀ k, ccT (rl.foldl (fun (acc : TMap × Bool) rfid =>
        let r := rerouteOne mc sims fid pform keep acc.1 rfid
        (r.1, acc.2 || r.2)) acc).1 k ≤ max (ccT m0 k) mc) ∧
    keysOfT (rl.foldl (fun (acc : TMap × Bool) rfid =>
        let r := rerouteOne mc sims fid pform keep acc.1 rfid
        (r.1, acc.2 || r.2)) acc).1 = keysOfT acc.1 := by
  induction rl with
  | nil => intro acc hnd hP; exact ⟨hP, rfl⟩
  | cons rfid rest ih =>
    intro acc hnd hP
    rw [List.foldl_cons]
    rcases rerouteOne_bound mc sims fid pform keep acc.1 rfid m0 hnd hP with ⟨hP2, hk2⟩
    rcases ih ((rerouteOne mc sims fid pform keep acc.1 rfid).1,
        acc.2 || (rerouteOne mc sims fid pform keep acc.1 rfid).2)
      (by rw [hk2]; exact hnd) hP2 with ⟨hP3, hk3⟩
    exact ⟨hP3, by rw [hk3, hk2]⟩

theorem constrainPassNode_bound (mc : Nat) (sims : SimMatrix) (m0 : TMap)
    (st : TMap) (fid : String) (hnd : (keysOfT st).Nodup)
    (hP : ∀ k, ccT st k ≤ max (ccT m0 k) mc) :
    (∀ k, ccT (constrainPassNode mc sims st fid).1 k ≤ max (ccT m0 k) mc) ∧
    keysOfT (constrainPassNode mc sims st fid).1 = keysOfT st := by
  cases hl : lookupT st fid with
  | none =>
    have heq : constrainPassNode mc sims st fid = (st, false) := by
      simp [constrainPassNode, hl]
    rw [heq]
    exact ⟨hP, rfl⟩
  | some node =>
    by_cases hc : node.children.length ≤ mc
    · have heq : constrainPassNode mc sims st fid = (st, false) := by
        simp [constrainPassNode, hl, hc]
      rw [heq]
      exact ⟨hP, rfl⟩
    · have heq : constrainPassNode mc sims st fid =
          (constrainChildSplit sims mc fid node.children).2.foldl
            (fun (acc : TMap × Bool) rfid =>
              let r := rerouteOne mc sims fid node.form_id
                (constrainChildSplit sims mc fid node.children).1 acc.1 rfid
              (r.1, acc.2 || r.2)) (st, false) := by
        simp [constrainPassNode, hl, hc]
      rw [heq]
      exact reroute_fold_bound mc sims fid node.form_id
        (constrainChildSplit sims mc fid node.children).1 m0
        (constrainChildSplit sims mc fid node.children).2 (st, false) hnd hP

theorem pass_fold_bound (mc : Nat) (sims : SimMatrix) (m0 : TMap)
    (fl : List String) :
    ∀ (acc : TMap × Bool), (keysOfT acc.1).Nodup →
    (∀ k, ccT acc.1 k ≤ max (ccT m0 k) mc) →
    (∀ k, ccT (fl.foldl (fun (acc : TMap × Bool) fid =>
        let r := constrainPassNode mc sims acc.1 fid
        (r.1, acc.2 || r.2)) acc).1 k ≤ max (ccT m0 k) mc) ∧
    keysOfT (fl.foldl (fun (acc : TMap × Bool) fid =>
        let r := constrainPassNode mc sims acc.1 fid
        (r.1, acc.2 || r.2)) acc).1 = keysOfT acc.1 := by
  induction fl with
  | nil => intro acc hnd hP; exact ⟨hP, rfl⟩
  | cons fid rest ih =>
    intro acc hnd hP
    rw [List.foldl_cons]
    rcases constrainPassNode_bound mc sims m0 acc.1 fid hnd hP with ⟨hP2, hk2⟩
    rcases ih ((constrainPassNode mc sims acc.1 fid).1,
        acc.2 || (constrainPassNode mc sims acc.1 fid).2)
      (by rw [hk2]; exact hnd) hP2 with ⟨hP3, hk3⟩
    exact ⟨hP3, by rw [hk3, hk2]⟩

theorem constrainLoop_bound (mc : Nat) (sims : SimMatrix) (m0 : TMap) (fuel : Nat) :
    ∀ (st : TMap), (keysOfT st).Nodup →
    (∀ k, ccT st k ≤ max (ccT m0 k) mc) →
    ∀ k, ccT (constrainLoop mc sims fuel st) k ≤ max (ccT m0 k) mc := by
  induction fuel with
  | zero => intro st _ hP k; exact hP k
  | succ n ih =>
    intro st hnd hP
    unfold constrainLoop
    rcases pass_fold_bound mc sims m0 (keysOfT st) (st, false) hnd hP with ⟨hP2, hk2⟩
    by_cases hch : ((keysOfT st).foldl (fun (acc : TMap × Bool) fid =>
        let r := constrainPassNode mc sims acc.1 fid
        (r.1, acc.2 || r.2)) (st, false)).2
    · simp only [hch, if_pos]
      exact ih _ (by rw [hk2]; exact hnd) hP2
    · simp only [hch]
      intro k
      simpa using hP2 k

/-- C8 (amended): the branch-constraint repair pass never pushes any
node above max_children: after _constrain_branching every node's child
count is at most max(its count at entry, max_children).  A node already
over the limit can stay over it with no flag of any kind when no
adoptive parent with spare capacity exists (see the recorded
counterexample); the source carries no overflow flag at all, residual
overflow is only reported by the validator as max_children_violations. -/
theorem constrain_branching_bound (m : TMap) (root : String) (mc : Nat)
    (sims : SimMatrix) (force_balance : Q) (hnd : (keysOfT m).Nodup) :
    ∀ k, ccT (constrain_branching m root mc sims force_balance) k ≤
      max (ccT m k) mc := by
  unfold constrain_branching
  exact constrainLoop_bound mc sims m 10 m hnd (fun k => le_max_left _ _)

/-- The C8 counterexample dict: max_children = 1, the root has two
children x and y, each child is full, and the only nodes with spare
capacity (zx, zy) sit at a higher tier than the rerouted child, so no
adopter exists and the pass exits with the root still holding two
children and nothing flagged. -/
def c8map : TMap :=
  [("r", { form_id := "r", tier := "Novice", children := ["x", "y"] }),
   ("x", { form_id := "x", tier := "Novice", children := ["zx"], prerequisites := ["r"] }),
   ("y", { form_id := "y", tier := "Novice", children := ["zy"], prerequisites := ["r"] }),
   ("zx", { form_id := "zx", tier := "Apprentice", prerequisites := ["x"] }),
   ("zy", { form_id := "zy", tier := "Apprentice", prerequisites := ["y"] })]

/-- C8 counterexample: after the branch-constraint repair with
max_children = 1, the root still has 2 children, and no field of any
returned node marks the overflow - the claimed flagged-overflow
exception does not exist in the data model. -/
theorem constrain_branching_overflow_counterexample :
    ccT (constrain_branching c8map "r" 1 {} (Q.ofInt 0)) "r" = 2 ∧
    (lookupT (constrain_branching c8map "r" 1 {} (Q.ofInt 0)) "r" =
      some { form_id := "r", tier := "Novice", children := ["x", "y"],
             prerequisites := [] }) := by
  decide

/-- C8 witness: the bound theorem applied to the concrete dict. -/
theorem constrain_branching_bound_witness :
    ccT (constrain_branching c8map "r" 1 {} (Q.ofInt 0)) "r" ≤ max (ccT c8map "r") 1 :=
  constrain_branching_bound c8map "r" 1 {} (Q.ofInt 0) (by decide) "r"

/-! ## The classic builder (classic_build_tree.py)

The tier-first builder is embedded below.  The NLP subroutines it calls
(discover_themes_per_school / merge_with_hints, get_spell_primary_theme,
_compute_similarity_matrix) live in separate modules and only feed data
into the builder; the embedding abstracts their RESULTS as parameters
(a themes-per-school table, a primary-theme scorer, a SimMatrix), so
every theorem below holds for all possible outputs of those
subroutines.  random.seed / random.choice / random.shuffle /
random.uniform are the seeded stream Rng: the stream is a function of
the seed (rngOf), one draw per primitive call (shuffle consumes one
draw per selection step; the exact draw count per call is irrelevant to
the theorems, which quantify over every stream).  datetime.now() is the
explicit clock input (clock_ms for the fallback seed, now for the
generatedAt stamp). -/

/-- One input spell dict: the fields classic_build_tree.py reads
directly.  All other keys (description, effects, ...) feed only the
abstracted NLP subroutines. -/
structure Spell where
  formId : String := ""
  name : Option String := none
  school : Option String := none
  skillLevel : Option String := none
  deriving DecidableEq, Repr

/-- TIER_ORDER of classic_build_tree.py. -/
def TIER_ORDER : List String :=
  ["Novice", "Apprentice", "Adept", "Expert", "Master"]

/-- VALID_SCHOOLS of classic_build_tree_from_data. -/
def VALID_SCHOOLS : List String :=
  ["Alteration", "Conjuration", "Destruction", "Illusion", "Restoration"]

/-- The grid layout hint dict from JS (grid_hint). -/
structure GridHint where
  mode : String := "sun"
  avgPointsPerSchool : Q := Q.ofInt 0
  schoolCount : Nat := 0
  deriving DecidableEq, Repr

/-- The configuration dict, with the defaults the code installs via
config.get / config.setdefault.  selected_roots maps a school name to
the override formId (the code reads override.get of formId from the
per-school dict). -/
structure BuildConfig where
  seed : Option Int := none
  max_children_per_node : Nat := 3
  top_themes_per_school : Nat := 8
  auto_fix_unreachable : Bool := true
  prefer_vanilla_roots : Bool := true
  grid_hint : Option GridHint := none
  density : Q := ⟨6, 9⟩
  symmetry : Q := ⟨3, 9⟩
  selected_roots : List (String × String) := []
  deriving DecidableEq, Repr

/-- The grid-hint adaptation of max_children_per_node (SUN tightens to
2 below 40 avg points, FLAT widens to 4 above 60). -/
def adaptMaxChildren (mc : Nat) (gh : Option GridHint) : Nat :=
  match gh with
  | none => mc
  | some h =>
    if h.mode = "sun" ∧ 2 < mc then
      (if h.avgPointsPerSchool < Q.ofInt 40 then 2 else mc)
    else if h.mode = "flat" ∧ mc < 4 then
      (if Q.ofInt 60 < h.avgPointsPerSchool then 4 else mc)
    else mc

/-- defaultdict(list) append for the school buckets: extend the bucket
in place, or create it at the end (Python dict insertion order). -/
def schoolBucket (l : List (String × List Spell)) (k : String) (v : Spell) :
    List (String × List Spell) :=
  match l with
  | [] => [(k, [v])]
  | p :: rest => if p.1 = k then (p.1, p.2 ++ [v]) :: rest else p :: schoolBucket rest k v

/-- The school grouping loop of classic_build_tree_from_data: a spell
whose school is not one of the five VALID_SCHOOLS is skipped
(continue), all others are appended to their school bucket. -/
def school_spells_of (spells : List Spell) : List (String × List Spell) :=
  spells.foldl (fun acc s =>
    let school := s.school.getD ""
    if VALID_SCHOOLS.contains school then schoolBucket acc school s else acc) []

/-- Append a spell to an existing tier bucket (the by_tier dict starts
with all five TIER_ORDER keys, so the key is always present). -/
def bucketAppend (l : List (String × List Spell)) (k : String) (v : Spell) :
    List (String × List Spell) :=
  l.map (fun p => if p.1 = k then (p.1, p.2 ++ [v]) else p)

/-- Extend a tier bucket by a list (by_tier of Novice extended by the
unknown-tier spells). -/
def bucketExtend (l : List (String × List Spell)) (k : String) (vs : List Spell) :
    List (String × List Spell) :=
  l.map (fun p => if p.1 = k then (p.1, p.2 ++ vs) else p)

/-- The by_tier grouping of _build_school_tree: buckets for the five
tiers in TIER_ORDER order, spells with an unrecognized skillLevel
collected separately and appended to the Novice bucket. -/
def buildByTier (spells : List Spell) : List (String × List Spell) :=
  let base := TIER_ORDER.map (fun t => (t, ([] : List Spell)))
  let acc := spells.foldl
    (fun (acc : List (String × List Spell) × List Spell) s =>
      let tier := s.skillLevel.getD ""
      if TIER_ORDER.contains tier then (bucketAppend acc.1 tier s, acc.2)
      else (acc.1, acc.2 ++ [s]))
    (base, [])
  bucketExtend acc.1 "Novice" acc.2

/-- by_tier.values() flattened in order (the all_spells list of
_pick_root). -/
def flattenTiers (by_tier : List (String × List Spell)) : List Spell :=
  by_tier.foldl (fun acc p => acc ++ p.2) []

/-- The value of one hex digit. -/
def hexDigitVal (c : Char) : Option Nat :=
  if ('0' ≤ c ∧ c ≤ '9') then some (c.toNat - 48)
  else if ('a' ≤ c ∧ c ≤ 'f') then some (c.toNat - 87)
  else if ('A' ≤ c ∧ c ≤ 'F') then some (c.toNat - 55)
  else none

/-- int(form_id, 16): parse a hex string (optional 0x prefix), none on
any bad character (the ValueError branch of _is_vanilla). -/
def parseHexNat (s : String) : Option Nat :=
  let t := if s.startsWith "0x" ∨ s.startsWith "0X" then s.drop 2 else s
  if t.isEmpty then none
  else t.toList.foldl (fun acc c =>
    match acc, hexDigitVal c with
    | some v, some d => some (v * 16 + d)
    | _, _ => none) (some 0)

/-- _is_vanilla: the load-order byte (value shifted right 24) is below
0x05; a parse failure returns False. -/
def _is_vanilla (form_id : String) : Bool :=
  match parseHexNat form_id with
  | some v => decide (v >>> 24 < 5)
  | none => false

/-- random.choice on a spell list: one draw selects the element (none
only on an empty list, where Python would raise). -/
def randChoice (l : List Spell) (r : Rng) : Option Spell × Rng :=
  let d := r.next
  (l.get? (d.1 % l.length), d.2)

/-- The auto-pick loop of _pick_root: first nonempty tier bucket in
TIER_ORDER order; prefer a random vanilla spell there if any and
preference is on, else a random spell of the bucket. -/
def pickRootAuto (prefer : Bool) : List (String × List Spell) → Rng → Option Spell × Rng
  | [], r => (none, r)
  | (_, tier_spells) :: rest, r =>
    if tier_spells.isEmpty then pickRootAuto prefer rest r
    else if prefer then
      let vanilla := tier_spells.filter (fun s => _is_vanilla s.formId)
      if vanilla.isEmpty then randChoice tier_spells r
      else randChoice vanilla r
    else randChoice tier_spells r

/-- _pick_root: a nonempty user override naming a spell of the pool
wins; otherwise the auto-pick loop runs. -/
def _pick_root (by_tier : List (String × List Spell)) (config : BuildConfig)
    (school : String) (r : Rng) : Option Spell × Rng :=
  let ov := if school ≠ "" then
      (config.selected_roots.find? (fun p => p.1 = school)).map (fun p => p.2)
    else none
  match ov with
  | some oid =>
    if oid ≠ "" then
      match (flattenTiers by_tier).find? (fun s => decide (s.formId = oid)) with
      | some sp => (some sp, r)
      | none => pickRootAuto config.prefer_vanilla_roots by_tier r
    else pickRootAuto config.prefer_vanilla_roots by_tier r
  | none => pickRootAuto config.prefer_vanilla_roots by_tier r

/-- TreeNode.from_spell of core/node.py: name falls back to the formId,
tier and school fall back to Unknown. -/
def TreeNode.from_spell (s : Spell) : TreeNode :=
  { form_id := s.formId,
    name := s.name.getD s.formId,
    tier := s.skillLevel.getD "Unknown",
    school := s.school.getD "Unknown" }

/-- Python dict key assignment: replace the value in place if the key
exists, else append the binding. -/
def insertOrReplaceT (m : TMap) (k : String) (v : TreeNode) : TMap :=
  if (m.find? (fun p => p.1 = k)).isSome then
    m.map (fun p => if p.1 = k then (k, v) else p)
  else m ++ [(k, v)]

/-- The node-creation loop of _build_school_tree.  (The follow-up loop
over unknown_tier spells is a no-op: those spells come from the same
list and their keys are already present.) -/
def buildNodesT (spells : List Spell) : TMap :=
  spells.foldl (fun acc s =>
    let node := TreeNode.from_spell s
    insertOrReplaceT acc node.form_id node) []

/-- _assign_themes: with a nonempty theme list, every spell whose node
exists gets its primary theme when the score exceeds 30, else None.
The scorer get_spell_primary_theme is the abstracted parameter pt. -/
def _assign_themes (m : TMap) (spells : List Spell) (themes : List String)
    (pt : Spell → List String → String × Q) : TMap :=
  if themes.isEmpty then m
  else spells.foldl (fun acc s =>
    updateT acc s.formId (fun node =>
      let tr := pt s themes
      { node with theme := if Q.ofInt 30 < tr.2 then some tr.1 else none })) m

/-- The available-parents dict: tier index to the ids of nodes with
spare capacity, insertion ordered (Python keeps node objects; the model
keeps ids and reads the live node from the map). -/
abbrev AvailMap := List (Nat × List String)

def availGet (a : AvailMap) (d : Nat) : List String :=
  ((a.find? (fun p => p.1 = d)).map (fun p => p.2)).getD []

/-- defaultdict(list) append / setdefault append on the availability
dict. -/
def availAppend (a : AvailMap) (d : Nat) (x : String) : AvailMap :=
  if (a.find? (fun p => p.1 = d)).isSome then
    a.map (fun p => if p.1 = d then (p.1, p.2 ++ [x]) else p)
  else a ++ [(d, [x])]

/-- Drop a node from every availability bucket (the full-parent
removal loop). -/
def availRemoveAll (a : AvailMap) (x : String) : AvailMap :=
  a.map (fun p => (p.1, p.2.filter (fun q => q ≠ x)))

/-- Ascending insertion for sorted(available.keys()). -/
def insertNatAsc (n : Nat) : List Nat → List Nat
  | [] => [n]
  | m :: rest => if n ≤ m then n :: m :: rest else m :: insertNatAsc n rest

def sortedKeys (a : AvailMap) : List Nat :=
  (a.map (fun p => p.1)).foldr insertNatAsc []

/-- len(c.children) < bound for a candidate id, read from the live
node map. -/
def hasCapacity (m : TMap) (bound : Nat) (c : String) : Bool :=
  match lookupT m c with
  | some n => decide (n.children.length < bound)
  | none => false

/-- The widening candidate loop of _find_best_parent: tier distances
1, 2, ... until the target tier would be negative; the first distance
with valid candidates wins, each tagged with its distance. -/
def widenFrom (m : TMap) (avail : AvailMap) (tier_idx mc : Nat) :
    Nat → Nat → List (String × Nat)
  | _, 0 => []
  | d, fuel + 1 =>
    if tier_idx < d then []
    else
      let cands := (availGet avail (tier_idx - d)).filter (hasCapacity m mc)
      if cands.isEmpty then widenFrom m avail tier_idx mc (d + 1) fuel
      else cands.map (fun c => (c, d))

/-- The last-resort loop of _find_best_parent: scan availability
buckets in ascending key order with the capacity bound widened by 2,
distance tag abs(tier_idx - d) + 5; first nonempty bucket wins. -/
def lastResortCands (m : TMap) (avail : AvailMap) (tier_idx mc : Nat) :
    List Nat → List (String × Nat)
  | [] => []
  | d :: rest =>
    let cs := (availGet avail d).filter (hasCapacity m (mc + 2))
    if cs.isEmpty then lastResortCands m avail tier_idx mc rest
    else cs.map (fun c => (c, ((tier_idx : Int) - (d : Int)).natAbs + 5))

/-- The per-candidate score of _find_best_parent, consuming one jitter
draw: distance penalty, effect affinity x40, theme bonus 25/15 or -10,
combined text/name similarity x30, child-count penalty x8, depth
bonuses 10/5, jitter uniform(-2, 2). -/
def scoreOne (sims : SimMatrix) (node : TreeNode) (tier_idx : Nat)
    (cand : TreeNode) (tier_distance : Nat) (r : Rng) : Q × Rng :=
  let s0 := Q.ofInt 0 - Q.ofNat (tier_distance - 1) * Q.ofInt 5
  let effect_sim := simGet sims.effect_sims node.form_id cand.form_id
  let s1 := s0 + effect_sim * Q.ofInt 40
  let s2 := s1 + (match node.theme, cand.theme with
    | some nt, some ct =>
      if nt = ct then (if (⟨1, 1⟩ : Q) < effect_sim then Q.ofInt 25 else Q.ofInt 15)
      else Q.ofInt (-10)
    | _, _ => Q.ofInt 0)
  let text_sim := simGet sims.text_sims node.form_id cand.form_id
  let name_sim := simGet sims.name_sims node.form_id cand.form_id
  let combined := text_sim * (⟨4, 9⟩ : Q) + name_sim * (⟨6, 9⟩ : Q)
  let s3 := s2 + combined * Q.ofInt 30
  let s4 := s3 - Q.ofNat cand.children.length * Q.ofInt 8
  let s5 := s4 + (if cand.depth = (tier_idx : Int) - 1 then Q.ofInt 10
    else if cand.depth = (tier_idx : Int) - 2 then Q.ofInt 5 else Q.ofInt 0)
  let j := randUniform (Q.ofInt (-2)) (Q.ofInt 2) r
  (s5 + j.1, j.2)

/-- The scoring loop: score every candidate in order (one jitter draw
each), collecting (score, id) pairs. -/
def scoreCands (m : TMap) (sims : SimMatrix) (node : TreeNode) (tier_idx : Nat)
    (cands : List (String × Nat)) (r : Rng) : List (Q × String) × Rng :=
  cands.foldl (fun (acc : List (Q × String) × Rng) cd =>
    match lookupT m cd.1 with
    | none => acc
    | some cand =>
      let sc := scoreOne sims node tier_idx cand cd.2 acc.2
      (acc.1 ++ [(sc.1, cd.1)], sc.2)) ([], r)

/-- _find_best_parent: the widening search, the same-tier fallback for
tier 0 (excluding the node itself), the last-resort capacity-widened
scan, then stable descending sort on the scores and the first
element.  The themes parameter of the source is unused, as there. -/
def _find_best_parent (m : TMap) (avail : AvailMap) (node : TreeNode)
    (tier_idx mc : Nat) (sims : SimMatrix) (themes : List String) (r : Rng) :
    Option String × Rng :=
  let c1 := widenFrom m avail tier_idx mc 1 (tier_idx + 1)
  let c2 :=
    if c1.isEmpty ∧ tier_idx = 0 then
      ((availGet avail 0).filter
        (fun c => hasCapacity m mc c && decide (c ≠ node.form_id))).map (fun c => (c, 0))
    else c1
  let c3 := if c2.isEmpty then lastResortCands m avail tier_idx mc (sortedKeys avail) else c2
  if c3.isEmpty then (none, r)
  else
    let sc := scoreCands m sims node tier_idx c3 r
    (((sortDesc sc.1).head?).map (fun p => p.2), sc.2)

/-- random.shuffle modelled as repeated random selection without
replacement: one draw per remaining element picks the next spell. -/
def shuffleList : Nat → List Spell → Rng → List Spell × Rng
  | 0, l, r => (l, r)
  | fuel + 1, l, r =>
    match l with
    | [] => ([], r)
    | _ :: _ =>
      let d := r.next
      let i := d.1 % l.length
      match l.get? i with
      | none => (l, d.2)
      | some x =>
        let rest := shuffleList fuel (l.eraseIdx i) d.2
        (x :: rest.1, rest.2)

def randShuffle (l : List Spell) (r : Rng) : List Spell × Rng :=
  shuffleList l.length l r

/-- The mutable state of one _build_school_tree run: the node map, the
connected set (insertion ordered), the availability dict and the
random stream position. -/
structure BuildState where
  nodes : TMap
  connected : List String
  avail : AvailMap
  rng : Rng

/-- The body of the per-spell placement loop: an already-connected or
unknown spell is skipped; otherwise _find_best_parent runs, and on
success the node is linked under the parent (link_nodes then the
depth override to tier_idx), marked connected and recorded as placed,
and a parent that reached max_children is dropped from every
availability bucket. -/
def processSpell (mc : Nat) (sims : SimMatrix) (themes : List String)
    (tier_idx : Nat) (st : BuildState) (s : Spell) : BuildState × Option String :=
  if st.connected.contains s.formId then (st, none)
  else
    match lookupT st.nodes s.formId with
    | none => (st, none)
    | some node =>
      let fb := _find_best_parent st.nodes st.avail node tier_idx mc sims themes st.rng
      match fb.1 with
      | none => ({ st with rng := fb.2 }, none)
      | some pid =>
        match lookupT st.nodes pid with
        | none => ({ st with rng := fb.2 }, none)
        | some parent =>
          let m1 := updateT st.nodes pid (fun p => p.add_child node.form_id)
          let m2 := updateT m1 s.formId (fun c =>
            { c.add_prerequisite parent.form_id with depth := (tier_idx : Int) })
          let plen := ((lookupT m2 pid).map (fun p => p.children.length)).getD 0
          let av2 := if mc ≤ plen then availRemoveAll st.avail pid else st.avail
          ({ nodes := m2, connected := st.connected ++ [s.formId], avail := av2,
             rng := fb.2 }, some s.formId)

/-- One step of the per-tier spell fold: thread the state and record
the placed id. -/
def placeStep (mc : Nat) (sims : SimMatrix) (themes : List String) (tier_idx : Nat)
    (acc : BuildState × List String) (s : Spell) : BuildState × List String :=
  let pr := processSpell mc sims themes tier_idx acc.1 s
  (pr.1, match pr.2 with | some f => acc.2 ++ [f] | none => acc.2)

/-- One tier of the placement loop: the tier bucket minus the root is
shuffled, each spell is processed in order, and every placed node that
still has spare capacity joins the availability bucket of this tier. -/
def processTier (mc : Nat) (sims : SimMatrix) (themes : List String)
    (by_tier : List (String × List Spell)) (rootFid : String)
    (st : BuildState) (tp : Nat × String) : BuildState :=
  let bucket := ((by_tier.find? (fun p => p.1 = tp.2)).map (fun p => p.2)).getD []
  let tier_spells := bucket.filter (fun s => decide (s.formId ≠ rootFid))
  if tier_spells.isEmpty then st
  else
    let sh := randShuffle tier_spells st.rng
    let st1 : BuildState := { st with rng := sh.2 }
    let res := sh.1.foldl (placeStep mc sims themes tp.1) (st1, [])
    let st2 := res.1
    let av3 := res.2.foldl (fun av f =>
      match lookupT st2.nodes f with
      | some n => if n.children.length < mc then availAppend av tp.1 f else av
      | none => av) st2.avail
    { st2 with avail := av3 }

/-- The full tier-by-tier placement loop over TIER_ORDER with tier
indices. -/
def tierLoop (mc : Nat) (sims : SimMatrix) (themes : List String)
    (by_tier : List (String × List Spell)) (rootFid : String)
    (st : BuildState) : BuildState :=
  TIER_ORDER.enum.foldl (processTier mc sims themes by_tier rootFid) st

/-- The per-candidate score of _force_connect: 100 minus 5 per tier of
distance for a lower-or-equal-tier parent, -200 for a higher-tier one,
plus effect affinity x30, theme-match bonus 15, child-count penalty
x8. -/
def forceScore (sims : SimMatrix) (fid : String) (node : TreeNode)
    (node_tier_idx : Nat) (cid : String) (cnode : TreeNode) : Q :=
  let cti := TIER_INDEX cnode.tier
  let s0 :=
    if cti ≤ node_tier_idx then
      Q.ofInt 100 - Q.ofNat (node_tier_idx - cti) * Q.ofInt 5
    else Q.ofInt (-200)
  let effect_sim := simGet sims.effect_sims fid cid
  let s1 := s0 + effect_sim * Q.ofInt 30
  let s2 := s1 + (match node.theme, cnode.theme with
    | some nt, some ct => if nt = ct then Q.ofInt 15 else Q.ofInt 0
    | _, _ => Q.ofInt 0)
  s2 - Q.ofNat cnode.children.length * Q.ofInt 8

/-- The best-parent scan of _force_connect over the connected set:
best_score starts at -inf, so the first looked-up candidate always
takes the lead, and only a strictly greater score replaces it. -/
def forceBestFold (m : TMap) (sims : SimMatrix) (fid : String) (node : TreeNode)
    (node_tier_idx : Nat) (l : List String)
    (acc : Option (String × TreeNode × Q)) : Option (String × TreeNode × Q) :=
  l.foldl (fun a cid =>
    match lookupT m cid with
    | none => a
    | some cnode =>
      let sc := forceScore sims fid node node_tier_idx cid cnode
      match a with
      | none => some (cid, cnode, sc)
      | some b => if b.2.2 < sc then some (cid, cnode, sc) else a) acc

/-- One iteration of _force_connect: an unknown or already-connected
id is skipped; otherwise the best connected parent is chosen, the node
is linked under it (link_nodes then the depth override to its tier
index), marked connected, and it joins the availability bucket of its
tier when it has spare capacity. -/
def forceConnectOne (mc : Nat) (sims : SimMatrix) (st : BuildState)
    (fid : String) : BuildState :=
  match lookupT st.nodes fid with
  | none => st
  | some node =>
    if st.connected.contains fid then st
    else
      let node_tier_idx := TIER_INDEX node.tier
      match forceBestFold st.nodes sims fid node node_tier_idx st.connected none with
      | none => st
      | some bp =>
        let m1 := updateT st.nodes bp.1 (fun p => p.add_child node.form_id)
        let m2 := updateT m1 fid (fun c =>
          { c.add_prerequisite bp.2.1.form_id with depth := (node_tier_idx : Int) })
        let nlen := ((lookupT m2 fid).map (fun n => n.children.length)).getD 0
        let av2 := if nlen < mc then availAppend st.avail node_tier_idx fid else st.avail
        { nodes := m2, connected := st.connected ++ [fid], avail := av2, rng := st.rng }

/-- _force_connect: every remaining unconnected id in order.  (The
Python connected set is iterated by forceBestFold in the model's
insertion order; the choice of iteration order does not affect the
theorems, which never constrain which best parent wins.) -/
def _force_connect (mc : Nat) (sims : SimMatrix) (unconnected : List String)
    (st : BuildState) : BuildState :=
  unconnected.foldl (forceConnectOne mc sims) st

/-- TreeNode.to_dict of core/node.py: the serialized node.  tier is
depth + 1; name / skillLevel / section / theme are included only when
truthy (Unknown counts as missing for skillLevel). -/
def TreeNode.to_dict (n : TreeNode) : SNode :=
  { formId := n.form_id,
    children := n.children,
    prerequisites := n.prerequisites,
    tier := n.depth + 1,
    name := if n.name ≠ "" then some n.name else none,
    skillLevel := if n.tier ≠ "" ∧ n.tier ≠ "Unknown" then some n.tier else none,
    sectionTag := n.sectionTag,
    theme := n.theme,
    position := n.position }

/-- The per-school result dict of _build_school_tree, with the
config_used sub-dict flattened into fields. -/
structure SchoolResult where
  root : String
  layoutStyle : String := "tier_first"
  nodes : List SNode := []
  shape : String := "tier_first"
  density : Q := ⟨6, 9⟩
  symmetry : Q := ⟨3, 9⟩
  source : String := "classic"
  deriving DecidableEq, Repr

/-- _build_school_tree: None on an empty spell list or a failed root
pick; otherwise the by_tier grouping, the node map, the root marking,
theme assignment, the tier loop, force-connect of the leftovers and
serialization.  The root lookup returning none is impossible (the
picked root comes from the spell pool); the model returns none there,
and the C6 theorem proves that branch unreachable. -/
def _build_school_tree (spells : List Spell) (school_name : String)
    (themes : List String) (pt : Spell → List String → String × Q)
    (sims : SimMatrix) (mc : Nat) (config : BuildConfig) (r : Rng) :
    Option SchoolResult × Rng :=
  if spells.isEmpty then (none, r)
  else
    let by_tier := buildByTier spells
    let pr := _pick_root by_tier config school_name r
    match pr.1 with
    | none => (none, pr.2)
    | some root_spell =>
      match lookupT (buildNodesT spells) root_spell.formId with
      | none => (none, pr.2)
      | some rn =>
        let rootFid := rn.form_id
        let nodes1 := updateT (buildNodesT spells) root_spell.formId
          (fun n => { n with is_root := true, depth := 0 })
        let nodes2 := _assign_themes nodes1 spells themes pt
        let st0 : BuildState :=
          { nodes := nodes2, connected := [rootFid], avail := [(0, [rootFid])], rng := pr.2 }
        let st1 := tierLoop mc sims themes by_tier rootFid st0
        let unconnected :=
          (keysOfT st1.nodes).filter (fun k => ! st1.connected.contains k)
        let st2 := if unconnected.isEmpty then st1
          else _force_connect mc sims unconnected st1
        (some { root := rootFid,
                layoutStyle := "tier_first",
                nodes := st2.nodes.map (fun p => p.2.to_dict),
                shape := "tier_first",
                density := config.density,
                symmetry := config.symmetry,
                source := "classic" }, st2.rng)

/-- Python dict key assignment on a node dict (replace in place or
append). -/
def insertOrReplaceN (m : NodeMap) (k : String) (v : SNode) : NodeMap :=
  if (m.find? (fun p => p.1 = k)).isSome then
    m.map (fun p => if p.1 = k then (k, v) else p)
  else m ++ [(k, v)]

/-- The node-dict build of validate_school_tree: nodes with a falsy
(empty) formId are skipped. -/
def buildDictV (l : List SNode) : NodeMap :=
  l.foldl (fun acc n => if n.formId ≠ "" then insertOrReplaceN acc n.formId n else acc) []

/-- The node-dict comprehension of the auto-fix block of
classic_build_tree_from_data (no formId filter there). -/
def buildDictAll (l : List SNode) : NodeMap :=
  l.foldl (fun acc n => insertOrReplaceN acc n.formId n) []

/-- The DFS of detect_cycles: rec-stack hit reports a cycle, a visited
node stops, otherwise the node is marked visited and every
in-dict prerequisite is explored (cycle results are accumulated; the
Python caller ignores the recursive return values and collects cycles
globally, so only existence is modelled).  The fuel bound
len(nodes) + 1 is never reached: the rec stack holds distinct keys, so
a deeper call would have hit the rec-stack guard first. -/
def cycleDfs (m : NodeMap) : Nat → String → List String → List String → Bool × List String
  | fuel, nid, stack, visited =>
    if stack.contains nid then (true, visited)
    else if visited.contains nid then (false, visited)
    else
      match fuel with
      | 0 => (false, visited)
      | fuel + 1 =>
        (((lookupN m nid).map (fun nd => nd.prerequisites)).getD []).foldl
          (fun (acc : Bool × List String) q =>
            if (keysOf m).contains q then
              let rr := cycleDfs m fuel q (stack ++ [nid]) acc.2
              (acc.1 || rr.1, rr.2)
            else acc)
          (false, visited ++ [nid])

/-- detect_cycles reduced to existence: DFS from every unvisited key. -/
def cyclesExist (m : NodeMap) : Bool :=
  ((keysOf m).foldl (fun (acc : Bool × List String) nid =>
    if acc.2.contains nid then acc
    else
      let rr := cycleDfs m (m.length + 1) nid [] acc.2
      (acc.1 || rr.1, rr.2)) (false, [])).1

/-- The parts of a TreeValidationResult that feed the summary the
classic builder stores: the error count, total_nodes and
reachable_nodes.  (Duplicate ids, root prerequisites, max-children
overflow and missing children are warnings, not errors.) -/
structure VResult where
  errors : Nat := 0
  total_nodes : Nat := 0
  reachable_nodes : Nat := 0
  deriving DecidableEq, Repr

/-- validate_school_tree: one error for a missing root id, an empty
node list, or a root absent from the dict (each returning early); then
one error if any cycle exists, one if any node is unreachable, and one
per prerequisite reference that is not a dict key. -/
def validate_school_tree (root : String) (nodes_list : List SNode) (mc : Nat) : VResult :=
  if root = "" then { errors := 1 }
  else if nodes_list.isEmpty then { errors := 1 }
  else
    let nodes := buildDictV nodes_list
    let total := nodes.length
    if ! (keysOf nodes).contains root then { errors := 1, total_nodes := total }
    else
      let cyc : Nat := if cyclesExist nodes then 1 else 0
      let unlockable := simulate_unlocks nodes root
      let reach := unlockable.length
      let unreach : Nat :=
        if (keysOf nodes).any (fun k => ! unlockable.contains k) then 1 else 0
      let missing := nodes.foldl (fun acc p =>
        acc + (p.2.prerequisites.filter (fun q => ! (keysOf nodes).contains q)).length) 0
      { errors := cyc + unreach + missing, total_nodes := total, reachable_nodes := reach }

/-- The output tree data of classic_build_tree_from_data, with the
config and validation sub-dicts flattened into fields. -/
structure TreeData where
  version : String := "1.0"
  schools : List (String × SchoolResult) := []
  generatedAt : String := ""
  generator : String := ""
  shape : String := "tier_first"
  density : Q := ⟨6, 9⟩
  symmetry : Q := ⟨3, 9⟩
  seed : Int := 0
  validation_all_valid : Bool := true
  validation_total_nodes : Nat := 0
  validation_reachable_nodes : Nat := 0
  deriving DecidableEq, Repr

/-- One school of the build loop of classic_build_tree_from_data: look
up the school themes, build the tree, keep a non-None result. -/
def buildSchoolsStep (config : BuildConfig) (sims : SimMatrix)
    (themes_per_school : List (String × List String))
    (pt : Spell → List String → String × Q) (mc : Nat)
    (acc : List (String × SchoolResult) × Rng) (p : String × List Spell) :
    List (String × SchoolResult) × Rng :=
  let school_themes :=
    ((themes_per_school.find? (fun q => q.1 = p.1)).map (fun q => q.2)).getD []
  let res := _build_school_tree p.2 p.1 school_themes pt sims mc config acc.2
  match res.1 with
  | some t => (acc.1 ++ [(p.1, t)], res.2)
  | none => (acc.1, res.2)

/-- One school of the auto-fix loop of classic_build_tree_from_data:
rebuild the per-school node dict (no formId filter there), run
fix_unreachable_nodes when the root id is truthy, and replace the
serialized node list when anything was fixed. -/
def fixSchoolsStep (mc : Nat) (acc : List (String × SchoolResult) × Nat)
    (p : String × SchoolResult) : List (String × SchoolResult) × Nat :=
  let nodes_dict := buildDictAll p.2.nodes
  if p.2.root ≠ "" then
    let fx := fix_unreachable_nodes nodes_dict p.2.root mc
    if 0 < fx.2 then
      (acc.1 ++ [(p.1, { p.2 with nodes := fx.1.map (fun q => q.2) })], acc.2 + fx.2)
    else (acc.1 ++ [(p.1, p.2)], acc.2)
  else (acc.1 ++ [(p.1, p.2)], acc.2)

/-- classic_build_tree_from_data.  Impure inputs are explicit: rngOf
maps the seed to the random stream (random.seed), clock_ms is
time.time()*1000 for the fallback seed, now is
datetime.now().isoformat().  themes_per_school is the (abstracted)
result of theme discovery plus hint merging, pt the primary-theme
scorer, sims the similarity matrix.  The builder seeds the generator,
adapts max_children to the grid hint, groups the spells by valid
school, builds each school tree in order, stamps the metadata,
validates, runs the auto-fix block when there are errors, re-validates
when anything was fixed, and stores the summary. -/
def classic_build_tree_from_data (spells : List Spell) (config : BuildConfig)
    (sims : SimMatrix) (themes_per_school : List (String × List String))
    (pt : Spell → List String → String × Q)
    (rngOf : Int → Nat → Nat) (clock_ms : Nat) (now : String) : TreeData :=
  let used_seed : Int :=
    match config.seed with
    | some s => s
    | none => (clock_ms : Int) % 1000000
  let r0 : Rng := { g := rngOf used_seed }
  let mc := adaptMaxChildren config.max_children_per_node config.grid_hint
  let groups := school_spells_of spells
  let build := groups.foldl (buildSchoolsStep config sims themes_per_school pt mc) ([], r0)
  let schools0 := build.1
  let results0 := schools0.map (fun p => validate_school_tree p.2.root p.2.nodes mc)
  let total_errors0 : Nat := (results0.map (fun v => v.errors)).sum
  let fixres : List (String × SchoolResult) × Nat :=
    if 0 < total_errors0 ∧ config.auto_fix_unreachable then
      schools0.foldl (fixSchoolsStep mc) ([], 0)
    else (schools0, 0)
  let schools1 := fixres.1
  let results1 :=
    if 0 < fixres.2 then schools1.map (fun p => validate_school_tree p.2.root p.2.nodes mc)
    else results0
  { version := "1.0",
    schools := schools1,
    generatedAt := now,
    generator := "ClassicTreeBuilder (Tier-First)",
    shape := "tier_first",
    density := config.density,
    symmetry := config.symmetry,
    seed := used_seed,
    validation_all_valid := results1.all (fun v => v.errors == 0),
    validation_total_nodes := (results1.map (fun v => v.total_nodes)).sum,
    validation_reachable_nodes := (results1.map (fun v => v.reachable_nodes)).sum }

/-- A trivial primary-theme scorer, for concrete instances. -/
def ptE : Spell → List String → String × Q := fun _ _ => ("", Q.ofInt 0)

/-- A trivial seed-to-stream map, for concrete instances. -/
def rngE : Int → Nat → Nat := fun _ _ => 0

theorem mem_keysOfT_iff_lookup_isSome (m : TMap) (k : String) :
    k ∈ keysOfT m ↔ (lookupT m k).isSome := by
  induction m with
  | nil => simp [keysOfT, lookupT]
  | cons p rest ih =>
    by_cases h : p.1 = k
    · simp [keysOfT, lookupT, h]
    · simp only [keysOfT, List.map_cons, List.mem_cons, lookupT, List.find?_cons, h,
        decide_False]
      constructor
      · intro hh
        rcases hh with hh | hh
        · exact absurd hh.symm h
        · exact (ih.mp (by simpa [keysOfT] using hh))
      · intro hh
        exact Or.inr (by simpa [keysOfT] using ih.mpr hh)

theorem lookupT_mem (m : TMap) (k : String) (v : TreeNode)
    (h : lookupT m k = some v) : (k, v) ∈ m := by
  unfold lookupT at h
  rcases Option.map_eq_some'.mp h with ⟨p, hp, hv⟩
  have hk : p.1 = k := by
    have := List.find?_some hp
    simpa using this
  have := List.mem_of_find?_eq_some hp
  rw [← hk, ← hv]
  simpa using this

/-- The keys after a Python dict assignment: unchanged when the key is
present, the key appended otherwise. -/
theorem keysOfT_replaceMap (m : TMap) (k : String) (v : TreeNode) :
    keysOfT (m.map (fun p => if p.1 = k then (k, v) else p)) = keysOfT m := by
  induction m with
  | nil => rfl
  | cons p rest ih =>
    by_cases hp : p.1 = k
    · simp only [List.map_cons, if_pos hp, keysOfT, List.map]
      rw [hp]
      exact congrArg (fun l => k :: l) (by simpa [keysOfT] using ih)
    · simp only [List.map_cons, if_neg hp, keysOfT, List.map]
      exact congrArg (fun l => p.1 :: l) (by simpa [keysOfT] using ih)

theorem keysOfT_insertOrReplaceT (m : TMap) (k : String) (v : TreeNode) :
    keysOfT (insertOrReplaceT m k v) =
      if (m.find? (fun p => p.1 = k)).isSome then keysOfT m else keysOfT m ++ [k] := by
  unfold insertOrReplaceT
  by_cases h : (m.find? (fun p => p.1 = k)).isSome
  · rw [if_pos h, if_pos h]
    exact keysOfT_replaceMap m k v
  · rw [if_neg h, if_neg h]
    simp [keysOfT]

theorem find?_isSome_iff_mem_keysOfT (m : TMap) (k : String) :
    (m.find? (fun p => p.1 = k)).isSome ↔ k ∈ keysOfT m := by
  rw [mem_keysOfT_iff_lookup_isSome]
  unfold lookupT
  cases m.find? (fun p => p.1 = k) <;> simp

theorem keysOfT_insertOrReplaceT_nodup (m : TMap) (k : String) (v : TreeNode)
    (h : (keysOfT m).Nodup) : (keysOfT (insertOrReplaceT m k v)).Nodup := by
  rw [keysOfT_insertOrReplaceT]
  by_cases hf : (m.find? (fun p => p.1 = k)).isSome
  · rw [if_pos hf]; exact h
  · rw [if_neg hf]
    have hk : k ∉ keysOfT m := fun hmem =>
      hf ((find?_isSome_iff_mem_keysOfT m k).mpr hmem)
    simp only [List.nodup_append, List.nodup_singleton]
    exact ⟨h, trivial, by
      intro a ha hb
      rcases List.mem_singleton.mp hb with rfl
      exact hk ha⟩

theorem mem_keysOfT_insertOrReplaceT_self (m : TMap) (k : String) (v : TreeNode) :
    k ∈ keysOfT (insertOrReplaceT m k v) := by
  rw [keysOfT_insertOrReplaceT]
  by_cases hf : (m.find? (fun p => p.1 = k)).isSome
  · rw [if_pos hf]
    exact (find?_isSome_iff_mem_keysOfT m k).mp hf
  · rw [if_neg hf]
    exact List.mem_append.mpr (Or.inr (List.mem_singleton.mpr rfl))

theorem mem_keysOfT_insertOrReplaceT_mono (m : TMap) (k x : String) (v : TreeNode)
    (h : x ∈ keysOfT m) : x ∈ keysOfT (insertOrReplaceT m k v) := by
  rw [keysOfT_insertOrReplaceT]
  by_cases hf : (m.find? (fun p => p.1 = k)).isSome
  · rw [if_pos hf]; exact h
  · rw [if_neg hf]; exact List.mem_append.mpr (Or.inl h)

/-- Every stored node carries its own key as form_id. -/
def FIvT (m : TMap) : Prop := ∀ p ∈ m, p.2.form_id = p.1

theorem FIvT_insertOrReplaceT (m : TMap) (k : String) (v : TreeNode)
    (h : FIvT m) (hv : v.form_id = k) : FIvT (insertOrReplaceT m k v) := by
  unfold insertOrReplaceT
  by_cases hf : (m.find? (fun p => p.1 = k)).isSome
  · rw [if_pos hf]
    intro p hp
    rcases List.mem_map.mp hp with ⟨q, hq, hqe⟩
    by_cases hqk : q.1 = k
    · rw [if_pos hqk] at hqe
      rw [← hqe]
      exact hv
    · rw [if_neg hqk] at hqe
      rw [← hqe]
      exact h q hq
  · rw [if_neg hf]
    intro p hp
    rcases List.mem_append.mp hp with hp | hp
    · exact h p hp
    · rcases List.mem_singleton.mp hp with rfl
      exact hv

theorem FIvT_updateT (m : TMap) (k : String) (f : TreeNode → TreeNode)
    (hf : ∀ n, (f n).form_id = n.form_id) (h : FIvT m) : FIvT (updateT m k f) := by
  intro p hp
  rcases List.mem_map.mp hp with ⟨q, hq, hqe⟩
  by_cases hqk : q.1 = k
  · rw [if_pos hqk] at hqe
    rw [← hqe]
    exact (hf q.2).trans (h q hq)
  · rw [if_neg hqk] at hqe
    rw [← hqe]
    exact h q hq

theorem buildNodesT_fold_inv (l : List Spell) :
    ∀ (m : TMap), (keysOfT m).Nodup → FIvT m →
      (keysOfT (l.foldl (fun acc s =>
        insertOrReplaceT acc (TreeNode.from_spell s).form_id (TreeNode.from_spell s)) m)).Nodup ∧
      FIvT (l.foldl (fun acc s =>
        insertOrReplaceT acc (TreeNode.from_spell s).form_id (TreeNode.from_spell s)) m) ∧
      (∀ x, x ∈ keysOfT m → x ∈ keysOfT (l.foldl (fun acc s =>
        insertOrReplaceT acc (TreeNode.from_spell s).form_id (TreeNode.from_spell s)) m)) ∧
      ∀ s ∈ l, s.formId ∈ keysOfT (l.foldl (fun acc s =>
        insertOrReplaceT acc (TreeNode.from_spell s).form_id (TreeNode.from_spell s)) m) := by
  induction l with
  | nil =>
    intro m h1 h2
    refine ⟨h1, h2, fun x hx => hx, ?_⟩
    intro s hs
    simp at hs
  | cons a rest ih =>
    intro m h1 h2
    simp only [List.foldl_cons]
    have hstep1 : (keysOfT (insertOrReplaceT m (TreeNode.from_spell a).form_id
        (TreeNode.from_spell a))).Nodup :=
      keysOfT_insertOrReplaceT_nodup m _ _ h1
    have hstep2 : FIvT (insertOrReplaceT m (TreeNode.from_spell a).form_id
        (TreeNode.from_spell a)) :=
      FIvT_insertOrReplaceT m _ _ h2 rfl
    rcases ih _ hstep1 hstep2 with ⟨i1, i2, i3, i4⟩
    refine ⟨i1, i2, ?_, ?_⟩
    · intro x hx
      exact i3 x (mem_keysOfT_insertOrReplaceT_mono m _ x _ hx)
    · intro s hs
      rcases List.mem_cons.mp hs with rfl | hs2
      · exact i3 s.formId (mem_keysOfT_insertOrReplaceT_self m _ _)
      · exact i4 s hs2

theorem buildNodesT_inv (spells : List Spell) :
    (keysOfT (buildNodesT spells)).Nodup ∧ FIvT (buildNodesT spells) ∧
      ∀ s ∈ spells, s.formId ∈ keysOfT (buildNodesT spells) := by
  rcases buildNodesT_fold_inv spells [] (by simp [keysOfT])
    (by intro p hp; simp at hp) with ⟨h1, h2, _, h4⟩
  exact ⟨h1, h2, h4⟩

/-- Every connected non-root node exists and has a nonempty
prerequisite list. -/
def PIvT (m : TMap) (conn : List String) (rootFid : String) : Prop :=
  ∀ fid ∈ conn, fid ≠ rootFid → ∃ v, lookupT m fid = some v ∧ v.prerequisites ≠ []

theorem PIvT_updateT (m : TMap) (k : String) (f : TreeNode → TreeNode)
    (conn : List String) (root : String)
    (hf : ∀ n, n.prerequisites ≠ [] → (f n).prerequisites ≠ [])
    (h : PIvT m conn root) : PIvT (updateT m k f) conn root := by
  intro fid hmem hne
  rcases h fid hmem hne with ⟨v, hv, hvp⟩
  by_cases hk : fid = k
  · subst hk
    rw [lookupT_updateT_self, hv]
    exact ⟨f v, rfl, hf v hvp⟩
  · rw [lookupT_updateT_ne m k fid f hk]
    exact ⟨v, hv, hvp⟩

theorem add_prereq_nonempty (n : TreeNode) (x : String) :
    (n.add_prerequisite x).prerequisites ≠ [] := by
  unfold TreeNode.add_prerequisite
  by_cases h : x ∈ n.prerequisites
  · rw [if_pos h]
    intro he
    rw [he] at h
    simp at h
  · rw [if_neg h]
    simp

theorem add_child_form_id (n : TreeNode) (i : String) :
    (n.add_child i).form_id = n.form_id := by
  unfold TreeNode.add_child
  by_cases h : i ∈ n.children
  · rw [if_pos h]
  · rw [if_neg h]

theorem add_prereq_form_id (n : TreeNode) (i : String) :
    (n.add_prerequisite i).form_id = n.form_id := by
  unfold TreeNode.add_prerequisite
  by_cases h : i ∈ n.prerequisites
  · rw [if_pos h]
  · rw [if_neg h]

/-- The invariant carried through the placement and force-connect
phases: the key list is fixed, every node stores its key as form_id,
the root is connected, and every other connected node has a nonempty
prerequisite list. -/
def StInv (K : List String) (rootFid : String) (st : BuildState) : Prop :=
  keysOfT st.nodes = K ∧ FIvT st.nodes ∧ rootFid ∈ st.connected ∧
    PIvT st.nodes st.connected rootFid

/-- A processSpell call either leaves the node map and the connected
list untouched, or links the spell under a looked-up parent: the
parent gains the child id, the spell node gains the parent
prerequisite and the tier depth, and the spell id is appended to the
connected list. -/
theorem processSpell_shape (mc : Nat) (sims : SimMatrix) (themes : List String)
    (ti : Nat) (st : BuildState) (s : Spell) :
    ((processSpell mc sims themes ti st s).1.nodes = st.nodes ∧
      (processSpell mc sims themes ti st s).1.connected = st.connected) ∨
    ∃ pid parent node,
      lookupT st.nodes s.formId = some node ∧
      lookupT st.nodes pid = some parent ∧
      (processSpell mc sims themes ti st s).1.nodes =
        updateT (updateT st.nodes pid (fun p => p.add_child node.form_id)) s.formId
          (fun c => { c.add_prerequisite parent.form_id with depth := (ti : Int) }) ∧
      (processSpell mc sims themes ti st s).1.connected = st.connected ++ [s.formId] := by
  by_cases hc : s.formId ∈ st.connected
  · left
    constructor <;> simp [processSpell, hc]
  · rcases hl : lookupT st.nodes s.formId with _ | node
    · left
      constructor <;> simp [processSpell, hc, hl]
    · rcases hfb : (_find_best_parent st.nodes st.avail node ti mc sims themes st.rng).1
        with _ | pid
      · left
        constructor <;> simp [processSpell, hc, hl, hfb]
      · rcases hlp : lookupT st.nodes pid with _ | parent
        · left
          constructor <;> simp [processSpell, hc, hl, hfb, hlp]
        · right
          exact ⟨pid, parent, node, rfl, hlp, by simp [processSpell, hc, hl, hfb, hlp],
            by simp [processSpell, hc, hl, hfb, hlp]⟩

theorem processSpell_inv (K : List String) (root : String) (mc : Nat)
    (sims : SimMatrix) (themes : List String) (ti : Nat) (st : BuildState) (s : Spell)
    (h : StInv K root st) :
    StInv K root (processSpell mc sims themes ti st s).1 ∧
      ∃ ext, (processSpell mc sims themes ti st s).1.connected = st.connected ++ ext := by
  rcases h with ⟨hK, hF, hR, hP⟩
  rcases processSpell_shape mc sims themes ti st s with ⟨hn, hcon⟩ |
    ⟨pid, parent, node, hl, hlp, hn, hcon⟩
  · refine ⟨⟨by rw [hn]; exact hK, by rw [hn]; exact hF, by rw [hcon]; exact hR,
      by rw [hn, hcon]; exact hP⟩, [], by rw [hcon, List.append_nil]⟩
  · refine ⟨⟨?_, ?_, ?_, ?_⟩, [s.formId], hcon⟩
    · rw [hn, keysOfT_updateT, keysOfT_updateT]
      exact hK
    · rw [hn]
      refine FIvT_updateT _ _ _ ?_ (FIvT_updateT _ _ _ ?_ hF)
      · intro n
        exact add_prereq_form_id n parent.form_id
      · intro n
        exact add_child_form_id n node.form_id
    · rw [hcon]
      exact List.mem_append.mpr (Or.inl hR)
    · rw [hn, hcon]
      intro fid hmem hne
      rcases List.mem_append.mp hmem with hmem | hmem
      · have hP2 : PIvT (updateT st.nodes pid (fun p => p.add_child node.form_id))
            st.connected root :=
          PIvT_updateT _ _ _ _ _ (fun n hne2 => by rw [add_child_prereqs]; exact hne2) hP
        exact PIvT_updateT _ _ _ _ _
          (fun n _ => by
            show ({ n.add_prerequisite parent.form_id with depth := (ti : Int)
              } : TreeNode).prerequisites ≠ []
            exact add_prereq_nonempty n parent.form_id) hP2 fid hmem hne
      · rcases List.mem_singleton.mp hmem with rfl
        have hv1 : ∃ v1, lookupT (updateT st.nodes pid
            (fun p => p.add_child node.form_id)) s.formId = some v1 := by
          by_cases hsp : s.formId = pid
          · subst hsp
            rw [lookupT_updateT_self, hl]
            exact ⟨node.add_child node.form_id, rfl⟩
          · rw [lookupT_updateT_ne _ _ _ _ hsp, hl]
            exact ⟨node, rfl⟩
        rcases hv1 with ⟨v1, hv1⟩
        rw [lookupT_updateT_self, hv1]
        exact ⟨_, rfl, add_prereq_nonempty v1 parent.form_id⟩

theorem placeStep_fst (mc : Nat) (sims : SimMatrix) (themes : List String)
    (ti : Nat) (acc : BuildState × List String) (s : Spell) :
    (placeStep mc sims themes ti acc s).1 = (processSpell mc sims themes ti acc.1 s).1 := rfl

theorem placeFold_inv (mc : Nat) (sims : SimMatrix) (themes : List String) (ti : Nat)
    (l : List Spell) (K : List String) (root : String) :
    ∀ (bs : BuildState × List String), StInv K root bs.1 →
      StInv K root (l.foldl (placeStep mc sims themes ti) bs).1 ∧
      ∃ ext, (l.foldl (placeStep mc sims themes ti) bs).1.connected =
        bs.1.connected ++ ext := by
  induction l with
  | nil =>
    intro bs h
    exact ⟨h, [], by simp⟩
  | cons a rest ih =>
    intro bs h
    simp only [List.foldl_cons]
    rcases processSpell_inv K root mc sims themes ti bs.1 a h with ⟨h1, ext1, he1⟩
    rcases ih (placeStep mc sims themes ti bs a)
      (by rw [placeStep_fst]; exact h1) with ⟨h2, ext2, he2⟩
    refine ⟨h2, ext1 ++ ext2, ?_⟩
    rw [he2, placeStep_fst, he1, List.append_assoc]

theorem processTier_inv (K : List String) (root : String) (mc : Nat)
    (sims : SimMatrix) (themes : List String)
    (by_tier : List (String × List Spell)) (rootFid : String)
    (st : BuildState) (tp : Nat × String) (h : StInv K root st) :
    StInv K root (processTier mc sims themes by_tier rootFid st tp) ∧
      ∃ ext, (processTier mc sims themes by_tier rootFid st tp).connected =
        st.connected ++ ext := by
  simp only [processTier]
  split
  · exact ⟨h, [], by simp⟩
  · have hf := placeFold_inv mc sims themes tp.1
      ((randShuffle (List.filter (fun s => decide (s.formId ≠ rootFid))
        ((Option.map (fun p => p.2) (List.find? (fun p => decide (p.1 = tp.2)) by_tier)).getD []))
        st.rng).1) K root
      ({ st with rng := (randShuffle (List.filter (fun s => decide (s.formId ≠ rootFid))
        ((Option.map (fun p => p.2) (List.find? (fun p => decide (p.1 = tp.2)) by_tier)).getD []))
        st.rng).2 }, []) ⟨h.1, h.2.1, h.2.2.1, h.2.2.2⟩
    rcases hf with ⟨h2, ext, he⟩
    exact ⟨⟨h2.1, h2.2.1, h2.2.2.1, h2.2.2.2⟩, ext, he⟩

theorem tierLoop_inv (K : List String) (root : String) (mc : Nat)
    (sims : SimMatrix) (themes : List String)
    (by_tier : List (String × List Spell)) (rootFid : String) :
    ∀ (l : List (Nat × String)) (st : BuildState), StInv K root st →
      StInv K root (l.foldl (processTier mc sims themes by_tier rootFid) st) ∧
      ∃ ext, (l.foldl (processTier mc sims themes by_tier rootFid) st).connected =
        st.connected ++ ext := by
  intro l
  induction l with
  | nil =>
    intro st h
    exact ⟨h, [], by simp⟩
  | cons a rest ih =>
    intro st h
    simp only [List.foldl_cons]
    rcases processTier_inv K root mc sims themes by_tier rootFid st a h with ⟨h1, ext1, he1⟩
    rcases ih (processTier mc sims themes by_tier rootFid st a) h1 with ⟨h2, ext2, he2⟩
    refine ⟨h2, ext1 ++ ext2, ?_⟩
    rw [he2, he1, List.append_assoc]

theorem forceBestFold_cons (m : TMap) (sims : SimMatrix) (fid : String)
    (node : TreeNode) (nti : Nat) (a : String) (rest : List String)
    (acc : Option (String × TreeNode × Q)) :
    forceBestFold m sims fid node nti (a :: rest) acc =
      forceBestFold m sims fid node nti rest
        (match lookupT m a with
         | none => acc
         | some cnode =>
           match acc with
           | none => some (a, cnode, forceScore sims fid node nti a cnode)
           | some b => if b.2.2 < forceScore sims fid node nti a cnode
               then some (a, cnode, forceScore sims fid node nti a cnode) else acc) := rfl

theorem forceBestFold_some (m : TMap) (sims : SimMatrix) (fid : String) (node : TreeNode)
    (nti : Nat) :
    ∀ (l : List String) (acc : Option (String × TreeNode × Q)),
      (acc.isSome ∨ ∃ cid ∈ l, (lookupT m cid).isSome) →
      (forceBestFold m sims fid node nti l acc).isSome := by
  intro l
  induction l with
  | nil =>
    intro acc h
    rcases h with h | ⟨cid, hc, _⟩
    · simpa [forceBestFold] using h
    · simp at hc
  | cons a rest ih =>
    intro acc h
    rw [forceBestFold_cons]
    rcases hl : lookupT m a with _ | cnode
    · apply ih
      rcases h with h | ⟨cid, hc, hs⟩
      · left
        simpa using h
      · rcases List.mem_cons.mp hc with rfl | hc2
        · rw [hl] at hs
          simp at hs
        · right
          exact ⟨cid, hc2, hs⟩
    · apply ih
      left
      rcases acc with _ | b
      · simp
      · by_cases hlt : b.2.2 < forceScore sims fid node nti a cnode
        · simp [hlt]
        · simp [hlt]

theorem forceConnectOne_inv (K : List String) (root : String) (mc : Nat)
    (sims : SimMatrix) (st : BuildState) (fid : String) (h : StInv K root st)
    (hK : root ∈ K) :
    StInv K root (forceConnectOne mc sims st fid) ∧
      (∃ ext, (forceConnectOne mc sims st fid).connected = st.connected ++ ext) ∧
      (fid ∈ K → fid ∈ (forceConnectOne mc sims st fid).connected) := by
  rcases hl : lookupT st.nodes fid with _ | node
  · have heq : forceConnectOne mc sims st fid = st := by
      simp [forceConnectOne, hl]
    rw [heq]
    refine ⟨h, ⟨[], by simp⟩, ?_⟩
    intro hfK
    exfalso
    have hiss : (lookupT st.nodes fid).isSome := by
      refine (mem_keysOfT_iff_lookup_isSome _ _).mp ?_
      rw [h.1]
      exact hfK
    rw [hl] at hiss
    simp at hiss
  · by_cases hc : fid ∈ st.connected
    · have heq : forceConnectOne mc sims st fid = st := by
        simp [forceConnectOne, hl, hc]
      rw [heq]
      exact ⟨h, ⟨[], by simp⟩, fun _ => hc⟩
    · have hroot_look : (lookupT st.nodes root).isSome := by
        refine (mem_keysOfT_iff_lookup_isSome _ _).mp ?_
        rw [h.1]
        exact hK
      have hsome := forceBestFold_some st.nodes sims fid node (TIER_INDEX node.tier)
        st.connected none (Or.inr ⟨root, h.2.2.1, hroot_look⟩)
      rcases hbest : forceBestFold st.nodes sims fid node (TIER_INDEX node.tier)
        st.connected none with _ | bp
      · rw [hbest] at hsome
        simp at hsome
      · have hn : (forceConnectOne mc sims st fid).nodes =
            updateT (updateT st.nodes bp.1 (fun p => p.add_child node.form_id)) fid
              (fun c => { c.add_prerequisite bp.2.1.form_id with
                depth := (TIER_INDEX node.tier : Int) }) := by
          simp [forceConnectOne, hl, hc, hbest]
        have hcon : (forceConnectOne mc sims st fid).connected = st.connected ++ [fid] := by
          simp [forceConnectOne, hl, hc, hbest]
        refine ⟨⟨?_, ?_, ?_, ?_⟩, ⟨[fid], hcon⟩, fun _ => by
          rw [hcon]
          exact List.mem_append.mpr (Or.inr (List.mem_singleton.mpr rfl))⟩
        · rw [hn, keysOfT_updateT, keysOfT_updateT]
          exact h.1
        · rw [hn]
          refine FIvT_updateT _ _ _ ?_ (FIvT_updateT _ _ _ ?_ h.2.1)
          · intro n
            exact add_prereq_form_id n bp.2.1.form_id
          · intro n
            exact add_child_form_id n node.form_id
        · rw [hcon]
          exact List.mem_append.mpr (Or.inl h.2.2.1)
        · rw [hn, hcon]
          intro f hmem hne
          rcases List.mem_append.mp hmem with hmem | hmem
          · have hP2 : PIvT (updateT st.nodes bp.1 (fun p => p.add_child node.form_id))
                st.connected root :=
              PIvT_updateT _ _ _ _ _
                (fun n hne2 => by rw [add_child_prereqs]; exact hne2) h.2.2.2
            exact PIvT_updateT _ _ _ _ _
              (fun n _ => by
                show ({ n.add_prerequisite bp.2.1.form_id with
                  depth := (TIER_INDEX node.tier : Int) } : TreeNode).prerequisites ≠ []
                exact add_prereq_nonempty n bp.2.1.form_id) hP2 f hmem hne
          · rcases List.mem_singleton.mp hmem with rfl
            have hv1 : ∃ v1, lookupT (updateT st.nodes bp.1
                (fun p => p.add_child node.form_id)) f = some v1 := by
              by_cases hfb : f = bp.1
              · subst hfb
                rw [lookupT_updateT_self, hl]
                exact ⟨node.add_child node.form_id, rfl⟩
              · rw [lookupT_updateT_ne _ _ _ _ hfb, hl]
                exact ⟨node, rfl⟩
            rcases hv1 with ⟨v1, hv1⟩
            rw [lookupT_updateT_self, hv1]
            exact ⟨_, rfl, add_prereq_nonempty v1 bp.2.1.form_id⟩

theorem force_connect_inv (K : List String) (root : String) (mc : Nat) (sims : SimMatrix)
    (hK : root ∈ K) :
    ∀ (l : List String) (st : BuildState), StInv K root st →
      StInv K root (_force_connect mc sims l st) ∧
      (∃ ext, (_force_connect mc sims l st).connected = st.connected ++ ext) ∧
      ∀ x ∈ l, x ∈ K → x ∈ (_force_connect mc sims l st).connected := by
  intro l
  induction l with
  | nil =>
    intro st h
    refine ⟨h, ⟨[], by simp [_force_connect]⟩, ?_⟩
    intro x hx
    simp at hx
  | cons a rest ih =>
    intro st h
    have hstep : _force_connect mc sims (a :: rest) st =
        _force_connect mc sims rest (forceConnectOne mc sims st a) := rfl
    rw [hstep]
    rcases forceConnectOne_inv K root mc sims st a h hK with ⟨h1, ⟨ext1, he1⟩, hmem1⟩
    rcases ih (forceConnectOne mc sims st a) h1 with ⟨h2, ⟨ext2, he2⟩, hmem2⟩
    refine ⟨h2, ⟨ext1 ++ ext2, by rw [he2, he1, List.append_assoc]⟩, ?_⟩
    intro x hx hxK
    rcases List.mem_cons.mp hx with rfl | hx2
    · have hmx : x ∈ (forceConnectOne mc sims st x).connected := hmem1 hxK
      rw [he2]
      exact List.mem_append.mpr (Or.inl hmx)
    · exact hmem2 x hx2 hxK

theorem bucketAppend_keys (l : List (String × List Spell)) (k : String) (v : Spell) :
    (bucketAppend l k v).map Prod.fst = l.map Prod.fst := by
  induction l with
  | nil => rfl
  | cons p rest ih =>
    by_cases hp : p.1 = k
    · simp only [bucketAppend, List.map_cons, if_pos hp]
      exact congrArg (fun t => p.1 :: t) ih
    · simp only [bucketAppend, List.map_cons, if_neg hp]
      exact congrArg (fun t => p.1 :: t) ih

theorem bucketAppend_mem_preserve (l : List (String × List Spell)) (k : String)
    (v : Spell) (p : String × List Spell) (hp : p ∈ l) (x : Spell) (hx : x ∈ p.2) :
    ∃ q ∈ bucketAppend l k v, x ∈ q.2 := by
  by_cases hpk : p.1 = k
  · refine ⟨(p.1, p.2 ++ [v]), List.mem_map.mpr ⟨p, hp, by rw [if_pos hpk]⟩, ?_⟩
    exact List.mem_append.mpr (Or.inl hx)
  · exact ⟨p, List.mem_map.mpr ⟨p, hp, by rw [if_neg hpk]⟩, hx⟩

theorem bucketAppend_mem_new (l : List (String × List Spell)) (k : String) (v : Spell)
    (hk : k ∈ l.map Prod.fst) : ∃ q ∈ bucketAppend l k v, v ∈ q.2 := by
  rcases List.mem_map.mp hk with ⟨p, hp, hpk⟩
  refine ⟨(p.1, p.2 ++ [v]), List.mem_map.mpr ⟨p, hp, by rw [if_pos hpk]⟩, ?_⟩
  exact List.mem_append.mpr (Or.inr (List.mem_singleton.mpr rfl))

theorem bucketAppend_sub (S : List Spell) (l : List (String × List Spell)) (k : String)
    (v : Spell) (h : ∀ p ∈ l, ∀ x ∈ p.2, x ∈ S) (hv : v ∈ S) :
    ∀ p ∈ bucketAppend l k v, ∀ x ∈ p.2, x ∈ S := by
  intro q hq x hx
  rcases List.mem_map.mp hq with ⟨p, hp, hqe⟩
  by_cases hpk : p.1 = k
  · rw [if_pos hpk] at hqe
    rw [← hqe] at hx
    rcases List.mem_append.mp hx with hx | hx
    · exact h p hp x hx
    · rcases List.mem_singleton.mp hx with rfl
      exact hv
  · rw [if_neg hpk] at hqe
    rw [← hqe] at hx
    exact h p hp x hx

theorem bucketExtend_mem_preserve (l : List (String × List Spell)) (k : String)
    (vs : List Spell) (p : String × List Spell) (hp : p ∈ l) (x : Spell) (hx : x ∈ p.2) :
    ∃ q ∈ bucketExtend l k vs, x ∈ q.2 := by
  by_cases hpk : p.1 = k
  · refine ⟨(p.1, p.2 ++ vs), List.mem_map.mpr ⟨p, hp, by rw [if_pos hpk]⟩, ?_⟩
    exact List.mem_append.mpr (Or.inl hx)
  · exact ⟨p, List.mem_map.mpr ⟨p, hp, by rw [if_neg hpk]⟩, hx⟩

theorem bucketExtend_mem_new (l : List (String × List Spell)) (k : String)
    (vs : List Spell) (hk : k ∈ l.map Prod.fst) (x : Spell) (hx : x ∈ vs) :
    ∃ q ∈ bucketExtend l k vs, x ∈ q.2 := by
  rcases List.mem_map.mp hk with ⟨p, hp, hpk⟩
  refine ⟨(p.1, p.2 ++ vs), List.mem_map.mpr ⟨p, hp, by rw [if_pos hpk]⟩, ?_⟩
  exact List.mem_append.mpr (Or.inr hx)

theorem bucketExtend_sub (S : List Spell) (l : List (String × List Spell)) (k : String)
    (vs : List Spell) (h : ∀ p ∈ l, ∀ x ∈ p.2, x ∈ S) (hvs : ∀ x ∈ vs, x ∈ S) :
    ∀ p ∈ bucketExtend l k vs, ∀ x ∈ p.2, x ∈ S := by
  intro q hq x hx
  rcases List.mem_map.mp hq with ⟨p, hp, hqe⟩
  by_cases hpk : p.1 = k
  · rw [if_pos hpk] at hqe
    rw [← hqe] at hx
    rcases List.mem_append.mp hx with hx | hx
    · exact h p hp x hx
    · exact hvs x hx
  · rw [if_neg hpk] at hqe
    rw [← hqe] at hx
    exact h p hp x hx

theorem byTierFold_sub (S : List Spell) :
    ∀ (l : List Spell) (acc : List (String × List Spell) × List Spell),
      (∀ x ∈ l, x ∈ S) →
      (∀ p ∈ acc.1, ∀ x ∈ p.2, x ∈ S) → (∀ x ∈ acc.2, x ∈ S) →
      (∀ p ∈ (l.foldl (fun acc s =>
          let tier := s.skillLevel.getD ""
          if TIER_ORDER.contains tier then (bucketAppend acc.1 tier s, acc.2)
          else (acc.1, acc.2 ++ [s])) acc).1, ∀ x ∈ p.2, x ∈ S) ∧
      (∀ x ∈ (l.foldl (fun acc s =>
          let tier := s.skillLevel.getD ""
          if TIER_ORDER.contains tier then (bucketAppend acc.1 tier s, acc.2)
          else (acc.1, acc.2 ++ [s])) acc).2, x ∈ S) := by
  intro l
  induction l with
  | nil =>
    intro acc _ h1 h2
    exact ⟨h1, h2⟩
  | cons a rest ih =>
    intro acc hl h1 h2
    simp only [List.foldl_cons]
    have ha : a ∈ S := hl a (List.mem_cons_self _ _)
    have hrest : ∀ x ∈ rest, x ∈ S := fun x hx => hl x (List.mem_cons_of_mem _ hx)
    rcases ht : TIER_ORDER.contains (a.skillLevel.getD "") with _ | _
    · rw [if_neg (by simp)]
      refine ih _ hrest h1 ?_
      intro x hx
      rcases List.mem_append.mp hx with hx | hx
      · exact h2 x hx
      · rcases List.mem_singleton.mp hx with rfl
        exact ha
    · rw [if_pos rfl]
      exact ih _ hrest (bucketAppend_sub S acc.1 _ a h1 ha) h2

theorem byTierFold_cover :
    ∀ (l : List Spell) (acc : List (String × List Spell) × List Spell),
      (∀ t ∈ TIER_ORDER, t ∈ acc.1.map Prod.fst) →
      (∀ t ∈ TIER_ORDER, t ∈ (l.foldl (fun acc s =>
          let tier := s.skillLevel.getD ""
          if TIER_ORDER.contains tier then (bucketAppend acc.1 tier s, acc.2)
          else (acc.1, acc.2 ++ [s])) acc).1.map Prod.fst) ∧
      (∀ p ∈ acc.1, ∀ x ∈ p.2, ∃ q ∈ (l.foldl (fun acc s =>
          let tier := s.skillLevel.getD ""
          if TIER_ORDER.contains tier then (bucketAppend acc.1 tier s, acc.2)
          else (acc.1, acc.2 ++ [s])) acc).1, x ∈ q.2) ∧
      (∀ x ∈ acc.2, x ∈ (l.foldl (fun acc s =>
          let tier := s.skillLevel.getD ""
          if TIER_ORDER.contains tier then (bucketAppend acc.1 tier s, acc.2)
          else (acc.1, acc.2 ++ [s])) acc).2) ∧
      (∀ s ∈ l, (∃ q ∈ (l.foldl (fun acc s =>
          let tier := s.skillLevel.getD ""
          if TIER_ORDER.contains tier then (bucketAppend acc.1 tier s, acc.2)
          else (acc.1, acc.2 ++ [s])) acc).1, s ∈ q.2) ∨ s ∈ (l.foldl (fun acc s =>
          let tier := s.skillLevel.getD ""
          if TIER_ORDER.contains tier then (bucketAppend acc.1 tier s, acc.2)
          else (acc.1, acc.2 ++ [s])) acc).2) := by
  intro l
  induction l with
  | nil =>
    intro acc hkeys
    refine ⟨hkeys, fun p hp x hx => ⟨p, hp, hx⟩, fun x hx => hx, ?_⟩
    intro s hs
    simp at hs
  | cons a rest ih =>
    intro acc hkeys
    simp only [List.foldl_cons]
    rcases ht : TIER_ORDER.contains (a.skillLevel.getD "") with _ | _
    · rw [if_neg (by simp)]
      rcases ih ((acc.1, acc.2 ++ [a]) :
          List (String × List Spell) × List Spell) hkeys with ⟨i1, i2, i3, i4⟩
      refine ⟨i1, i2, ?_, ?_⟩
      · intro x hx
        exact i3 x (List.mem_append.mpr (Or.inl hx))
      · intro s hs
        rcases List.mem_cons.mp hs with rfl | hs2
        · exact Or.inr (i3 s (List.mem_append.mpr (Or.inr (List.mem_singleton.mpr rfl))))
        · exact i4 s hs2
    · rw [if_pos rfl]
      have htm : (a.skillLevel.getD "") ∈ TIER_ORDER := by
        have hc := ht
        simpa using hc
      have hkeys2 : ∀ t ∈ TIER_ORDER,
          t ∈ (bucketAppend acc.1 (a.skillLevel.getD "") a).map Prod.fst := by
        intro t htt
        rw [bucketAppend_keys]
        exact hkeys t htt
      rcases ih ((bucketAppend acc.1 (a.skillLevel.getD "") a, acc.2) :
          List (String × List Spell) × List Spell) hkeys2 with ⟨i1, i2, i3, i4⟩
      refine ⟨i1, ?_, i3, ?_⟩
      · intro p hp x hx
        rcases bucketAppend_mem_preserve acc.1 _ a p hp x hx with ⟨q, hq, hxq⟩
        exact i2 q hq x hxq
      · intro s hs
        rcases List.mem_cons.mp hs with rfl | hs2
        · rcases bucketAppend_mem_new acc.1 _ s (hkeys _ htm) with ⟨q, hq, hsq⟩
          exact Or.inl (i2 q hq s hsq)
        · exact i4 s hs2

theorem buildByTier_sub (spells : List Spell) :
    ∀ p ∈ buildByTier spells, ∀ x ∈ p.2, x ∈ spells := by
  unfold buildByTier
  have hbase1 : ∀ p ∈ (TIER_ORDER.map (fun t => (t, ([] : List Spell)))),
      ∀ x ∈ p.2, x ∈ spells := by
    intro p hp x hx
    rcases List.mem_map.mp hp with ⟨t, _, rfl⟩
    simp at hx
  rcases byTierFold_sub spells spells
    ((TIER_ORDER.map (fun t => (t, ([] : List Spell)))), ([] : List Spell))
    (fun x hx => hx) hbase1 (by intro x hx; simp at hx) with ⟨h1, h2⟩
  exact bucketExtend_sub spells _ "Novice" _ h1 h2

theorem buildByTier_covers (spells : List Spell) (s : Spell) (hs : s ∈ spells) :
    ∃ p ∈ buildByTier spells, s ∈ p.2 := by
  unfold buildByTier
  have hbasekeys : ∀ t ∈ TIER_ORDER,
      t ∈ ((TIER_ORDER.map (fun t => (t, ([] : List Spell)))).map Prod.fst) := by
    intro t ht
    simpa [List.map_map, Function.comp] using ht
  rcases byTierFold_cover spells
    ((TIER_ORDER.map (fun t => (t, ([] : List Spell)))), ([] : List Spell))
    hbasekeys with ⟨i1, i2, i3, i4⟩
  rcases i4 s hs with h | h
  · rcases h with ⟨q, hq, hsq⟩
    exact bucketExtend_mem_preserve _ "Novice" _ q hq s hsq
  · exact bucketExtend_mem_new _ "Novice" _ (i1 "Novice" (by simp [TIER_ORDER])) s h

theorem flattenTiers_mem (by_tier : List (String × List Spell)) (x : Spell) :
    x ∈ flattenTiers by_tier ↔ ∃ p ∈ by_tier, x ∈ p.2 := by
  have gen : ∀ (l : List (String × List Spell)) (acc : List Spell),
      (x ∈ l.foldl (fun a p => a ++ p.2) acc ↔ x ∈ acc ∨ ∃ p ∈ l, x ∈ p.2) := by
    intro l
    induction l with
    | nil =>
      intro acc
      simp
    | cons p rest ih =>
      intro acc
      simp only [List.foldl_cons]
      rw [ih]
      constructor
      · rintro (h | h)
        · rcases List.mem_append.mp h with h | h
          · exact Or.inl h
          · exact Or.inr ⟨p, List.mem_cons_self _ _, h⟩
        · rcases h with ⟨q, hq, hxq⟩
          exact Or.inr ⟨q, List.mem_cons_of_mem _ hq, hxq⟩
      · rintro (h | ⟨q, hq, hxq⟩)
        · exact Or.inl (List.mem_append.mpr (Or.inl h))
        · rcases List.mem_cons.mp hq with rfl | hq2
          · exact Or.inl (List.mem_append.mpr (Or.inr hxq))
          · exact Or.inr ⟨q, hq2, hxq⟩
  rw [flattenTiers, gen]
  simp

theorem randChoice_mem (l : List Spell) (r : Rng) (h : l ≠ []) :
    ∃ sp, (randChoice l r).1 = some sp ∧ sp ∈ l := by
  have hlen : 0 < l.length := List.length_pos.mpr h
  have hlt : (r.next.1 % l.length) < l.length := Nat.mod_lt _ hlen
  refine ⟨l.get ⟨r.next.1 % l.length, hlt⟩, ?_, List.get_mem _ _ _⟩
  show (randChoice l r).1 = _
  unfold randChoice
  simp [List.get?_eq_get hlt]

theorem pickRootAuto_sound (prefer : Bool) :
    ∀ (l : List (String × List Spell)) (r : Rng),
      (∃ p ∈ l, p.2 ≠ []) →
      ∃ sp r2, pickRootAuto prefer l r = (some sp, r2) ∧ ∃ p ∈ l, sp ∈ p.2 := by
  intro l
  induction l with
  | nil =>
    intro r h
    rcases h with ⟨p, hp, _⟩
    simp at hp
  | cons a rest ih =>
    rcases a with ⟨t, ts⟩
    intro r h
    by_cases hts : ts.isEmpty
    · have htnil : ts = [] := by simpa using hts
      have hne : ∃ p ∈ rest, p.2 ≠ [] := by
        rcases h with ⟨p, hp, hpne⟩
        rcases List.mem_cons.mp hp with rfl | hp2
        · exact absurd htnil hpne
        · exact ⟨p, hp2, hpne⟩
      rcases ih r hne with ⟨sp, r2, heq2, p, hp, hsp⟩
      refine ⟨sp, r2, ?_, ⟨p, List.mem_cons_of_mem _ hp, hsp⟩⟩
      rw [← heq2]
      simp [pickRootAuto, hts]
    · have htsne : ts ≠ [] := by
        intro he
        rw [he] at hts
        simp at hts
      by_cases hpf : prefer = true
      · by_cases hv : (ts.filter (fun s => _is_vanilla s.formId)).isEmpty
        · rcases randChoice_mem ts r htsne with ⟨sp, hsp1, hsp2⟩
          refine ⟨sp, (randChoice ts r).2, ?_, ⟨(t, ts), List.mem_cons_self _ _, hsp2⟩⟩
          have heq : pickRootAuto prefer ((t, ts) :: rest) r = randChoice ts r := by
            simp [pickRootAuto, hts, hpf, hv]
          rw [heq, ← hsp1]
        · have hvne : ts.filter (fun s => _is_vanilla s.formId) ≠ [] := by
            intro he
            rw [he] at hv
            simp at hv
          rcases randChoice_mem (ts.filter (fun s => _is_vanilla s.formId)) r hvne with
            ⟨sp, hsp1, hsp2⟩
          refine ⟨sp, (randChoice (ts.filter (fun s => _is_vanilla s.formId)) r).2, ?_,
            ⟨(t, ts), List.mem_cons_self _ _, List.mem_of_mem_filter hsp2⟩⟩
          have heq : pickRootAuto prefer ((t, ts) :: rest) r =
              randChoice (ts.filter (fun s => _is_vanilla s.formId)) r := by
            simp [pickRootAuto, hts, hpf, hv]
          rw [heq, ← hsp1]
      · rcases randChoice_mem ts r htsne with ⟨sp, hsp1, hsp2⟩
        refine ⟨sp, (randChoice ts r).2, ?_, ⟨(t, ts), List.mem_cons_self _ _, hsp2⟩⟩
        have heq : pickRootAuto prefer ((t, ts) :: rest) r = randChoice ts r := by
          simp [pickRootAuto, hts, hpf]
        rw [heq, ← hsp1]

theorem _pick_root_sound (spells : List Spell) (cfg : BuildConfig) (school : String)
    (r : Rng) (h : spells ≠ []) :
    ∃ sp r2, _pick_root (buildByTier spells) cfg school r = (some sp, r2) ∧ sp ∈ spells := by
  have hsub : ∀ p ∈ buildByTier spells, ∀ x ∈ p.2, x ∈ spells := buildByTier_sub spells
  have hcov : ∃ p ∈ buildByTier spells, p.2 ≠ [] := by
    rcases List.exists_mem_of_ne_nil spells h with ⟨s, hs⟩
    rcases buildByTier_covers spells s hs with ⟨p, hp, hsp⟩
    refine ⟨p, hp, ?_⟩
    intro he
    rw [he] at hsp
    simp at hsp
  have hauto : ∃ sp r2, pickRootAuto cfg.prefer_vanilla_roots (buildByTier spells) r =
      (some sp, r2) ∧ sp ∈ spells := by
    rcases pickRootAuto_sound cfg.prefer_vanilla_roots (buildByTier spells) r hcov with
      ⟨sp, r2, heq, p, hp, hsp⟩
    exact ⟨sp, r2, heq, hsub p hp sp hsp⟩
  rcases hov : (if school ≠ "" then
      (cfg.selected_roots.find? (fun p => p.1 = school)).map (fun p => p.2)
    else none) with _ | oid
  · rcases hauto with ⟨sp, r2, heq, hsp⟩
    refine ⟨sp, r2, ?_, hsp⟩
    simp only [_pick_root]
    rw [hov]
    exact heq
  · by_cases hoid : oid ≠ ""
    · rcases hfind : (flattenTiers (buildByTier spells)).find?
          (fun s => decide (s.formId = oid)) with _ | sp
      · rcases hauto with ⟨sp, r2, heq, hsp⟩
        refine ⟨sp, r2, ?_, hsp⟩
        simp only [_pick_root]
        rw [hov]
        show (if oid ≠ "" then
            match (flattenTiers (buildByTier spells)).find?
                (fun s => decide (s.formId = oid)) with
            | some sp => ((some sp, r) : Option Spell × Rng)
            | none => pickRootAuto cfg.prefer_vanilla_roots (buildByTier spells) r
          else pickRootAuto cfg.prefer_vanilla_roots (buildByTier spells) r) = (some sp, r2)
        rw [if_pos hoid, hfind]
        exact heq
      · refine ⟨sp, r, ?_, ?_⟩
        · simp only [_pick_root]
          rw [hov]
          show (if oid ≠ "" then
              match (flattenTiers (buildByTier spells)).find?
                  (fun s => decide (s.formId = oid)) with
              | some sp => ((some sp, r) : Option Spell × Rng)
              | none => pickRootAuto cfg.prefer_vanilla_roots (buildByTier spells) r
            else pickRootAuto cfg.prefer_vanilla_roots (buildByTier spells) r) = (some sp, r)
          rw [if_pos hoid, hfind]
        · have hmem := List.mem_of_find?_eq_some hfind
          rcases (flattenTiers_mem (buildByTier spells) sp).mp hmem with ⟨p, hp, hsp⟩
          exact hsub p hp sp hsp
    · rcases hauto with ⟨sp, r2, heq, hsp⟩
      refine ⟨sp, r2, ?_, hsp⟩
      simp only [_pick_root]
      rw [hov]
      show (if oid ≠ "" then
          match (flattenTiers (buildByTier spells)).find?
              (fun s => decide (s.formId = oid)) with
          | some sp => ((some sp, r) : Option Spell × Rng)
          | none => pickRootAuto cfg.prefer_vanilla_roots (buildByTier spells) r
        else pickRootAuto cfg.prefer_vanilla_roots (buildByTier spells) r) = (some sp, r2)
      rw [if_neg hoid]
      exact heq

theorem keysOfT_assignThemes (m : TMap) (spells : List Spell) (themes : List String)
    (pt : Spell → List String → String × Q) :
    keysOfT (_assign_themes m spells themes pt) = keysOfT m := by
  unfold _assign_themes
  by_cases hth : themes.isEmpty
  · rw [if_pos hth]
  · rw [if_neg hth]
    induction spells generalizing m with
    | nil => rfl
    | cons a rest ih =>
      rw [List.foldl_cons, ih, keysOfT_updateT]

theorem FIvT_assignThemes (m : TMap) (spells : List Spell) (themes : List String)
    (pt : Spell → List String → String × Q) (h : FIvT m) :
    FIvT (_assign_themes m spells themes pt) := by
  unfold _assign_themes
  by_cases hth : themes.isEmpty
  · rw [if_pos hth]
    exact h
  · rw [if_neg hth]
    induction spells generalizing m with
    | nil => exact h
    | cons a rest ih =>
      rw [List.foldl_cons]
      exact ih _ (FIvT_updateT _ _ _ (fun n => rfl) h)

theorem buildSchoolTree_spec (spells : List Spell) (school : String) (themes : List String)
    (pt : Spell → List String → String × Q) (sims : SimMatrix) (mc : Nat)
    (cfg : BuildConfig) (r : Rng) (h : spells ≠ []) :
    ∃ t r2, _build_school_tree spells school themes pt sims mc cfg r = (some t, r2) ∧
      (∀ nd ∈ t.nodes, nd.formId = t.root ∨ nd.prerequisites ≠ []) ∧
      (∀ s ∈ spells, ∃ nd ∈ t.nodes, nd.formId = s.formId) := by
  rcases _pick_root_sound spells cfg school r h with ⟨sp, r2, hpick, hspmem⟩
  rcases buildNodesT_inv spells with ⟨hnd, hfi, hcov⟩
  have hkey : sp.formId ∈ keysOfT (buildNodesT spells) := hcov sp hspmem
  have hlookup : (lookupT (buildNodesT spells) sp.formId).isSome :=
    (mem_keysOfT_iff_lookup_isSome _ _).mp hkey
  rcases hrn : lookupT (buildNodesT spells) sp.formId with _ | rn
  · rw [hrn] at hlookup
    simp at hlookup
  · have hrnfid : rn.form_id = sp.formId := hfi (sp.formId, rn) (lookupT_mem _ _ _ hrn)
    set st0 : BuildState :=
      ⟨_assign_themes (updateT (buildNodesT spells) sp.formId
          (fun n => { n with is_root := true, depth := 0 })) spells themes pt,
        [rn.form_id], [(0, [rn.form_id])], r2⟩ with hst0
    set st1 := tierLoop mc sims themes (buildByTier spells) rn.form_id st0 with hst1
    set unconn := (keysOfT st1.nodes).filter (fun k => ! st1.connected.contains k) with hunc
    set st2 := (if unconn.isEmpty then st1 else _force_connect mc sims unconn st1) with hst2
    have heq : _build_school_tree spells school themes pt sims mc cfg r =
        (some
          { root := rn.form_id,
            layoutStyle := "tier_first",
            nodes := st2.nodes.map (fun p => p.2.to_dict),
            shape := "tier_first",
            density := cfg.density,
            symmetry := cfg.symmetry,
            source := "classic" }, st2.rng) := by
      rw [hst2, hunc, hst1, hst0]
      have hne2 : spells.isEmpty = false := by simpa using h
      simp only [_build_school_tree, hne2, Bool.false_eq_true, if_false, hpick, hrn]
    have hKroot : rn.form_id ∈ keysOfT (buildNodesT spells) := by
      rw [hrnfid]
      exact hkey
    have hinv0 : StInv (keysOfT (buildNodesT spells)) rn.form_id st0 := by
      refine ⟨?_, ?_, ?_, ?_⟩
      · show keysOfT (_assign_themes (updateT (buildNodesT spells) sp.formId
            (fun n => { n with is_root := true, depth := 0 })) spells themes pt) =
          keysOfT (buildNodesT spells)
        rw [keysOfT_assignThemes, keysOfT_updateT]
      · show FIvT (_assign_themes (updateT (buildNodesT spells) sp.formId
            (fun n => { n with is_root := true, depth := 0 })) spells themes pt)
        exact FIvT_assignThemes _ _ _ _ (FIvT_updateT _ _ _ (fun n => rfl) hfi)
      · show rn.form_id ∈ [rn.form_id]
        exact List.mem_singleton.mpr rfl
      · intro fid hmem hne
        rcases List.mem_singleton.mp hmem with rfl
        exact absurd rfl hne
    have hloop := tierLoop_inv (keysOfT (buildNodesT spells)) rn.form_id mc sims themes
      (buildByTier spells) rn.form_id TIER_ORDER.enum st0 hinv0
    have hinv1 : StInv (keysOfT (buildNodesT spells)) rn.form_id st1 := by
      rw [hst1]
      exact hloop.1
    have hres : StInv (keysOfT (buildNodesT spells)) rn.form_id st2 ∧
        ∀ k ∈ keysOfT (buildNodesT spells), k ∈ st2.connected := by
      by_cases hu : unconn.isEmpty = true
      · have hst2e : st2 = st1 := by rw [hst2, if_pos hu]
        refine ⟨hst2e ▸ hinv1, ?_⟩
        intro k hk
        rw [hst2e]
        by_cases hkc : k ∈ st1.connected
        · exact hkc
        · exfalso
          have hmemu : k ∈ unconn := by
            rw [hunc]
            refine List.mem_filter.mpr ⟨?_, ?_⟩
            · rw [hinv1.1]
              exact hk
            · simpa using hkc
          have hunil : unconn = [] := by simpa using hu
          rw [hunil] at hmemu
          simp at hmemu
      · have hst2e : st2 = _force_connect mc sims unconn st1 := by rw [hst2, if_neg hu]
        rcases force_connect_inv (keysOfT (buildNodesT spells)) rn.form_id mc sims hKroot
          unconn st1 hinv1 with ⟨hi2, ⟨ext2, hext2⟩, hcov2⟩
        refine ⟨hst2e ▸ hi2, ?_⟩
        intro k hk
        rw [hst2e]
        by_cases hkc : k ∈ st1.connected
        · rw [hext2]
          exact List.mem_append.mpr (Or.inl hkc)
        · refine hcov2 k ?_ hk
          rw [hunc]
          refine List.mem_filter.mpr ⟨?_, ?_⟩
          · rw [hinv1.1]
            exact hk
          · simpa using hkc
    rcases hres with ⟨hinv2, hall⟩
    refine ⟨_, _, heq, ?_, ?_⟩
    · intro nd hndm
      rcases List.mem_map.mp hndm with ⟨p, hp, rfl⟩
      have hfid : p.2.form_id = p.1 := hinv2.2.1 p hp
      have hkmem : p.1 ∈ keysOfT st2.nodes := List.mem_map.mpr ⟨p, hp, rfl⟩
      have hkK : p.1 ∈ keysOfT (buildNodesT spells) := by
        rw [← hinv2.1]
        exact hkmem
      by_cases hr : p.1 = rn.form_id
      · left
        show p.2.form_id = rn.form_id
        rw [hfid]
        exact hr
      · right
        have hconn : p.1 ∈ st2.connected := hall p.1 hkK
        rcases hinv2.2.2.2 p.1 hconn hr with ⟨v, hv, hvp⟩
        have hnodup2 : (keysOfT st2.nodes).Nodup := by
          rw [hinv2.1]
          exact hnd
        have hlp : lookupT st2.nodes p.1 = some p.2 := by
          refine lookupT_eq_of_mem_nodup _ _ _ hnodup2 ?_
          exact hp
        rw [hlp] at hv
        obtain rfl := Option.some.inj hv
        show p.2.prerequisites ≠ []
        exact hvp
    · intro s hs
      have hsk : s.formId ∈ keysOfT st2.nodes := by
        rw [hinv2.1]
        exact hcov s hs
      have hl2 : (lookupT st2.nodes s.formId).isSome :=
        (mem_keysOfT_iff_lookup_isSome _ _).mp hsk
      rcases hv : lookupT st2.nodes s.formId with _ | v
      · rw [hv] at hl2
        simp at hl2
      · have hpair := lookupT_mem _ _ _ hv
        refine ⟨v.to_dict, List.mem_map.mpr ⟨(s.formId, v), hpair, rfl⟩, ?_⟩
        show v.form_id = s.formId
        exact hinv2.2.1 (s.formId, v) hpair

/-- C6: for every nonempty per-school spell list, _build_school_tree
returns a tree (never the None of a failed root pick, and no lookup
can fail, so the Python code raises no exception), and every
serialized node is either the root or carries a nonempty prerequisite
list: the widened search plus the force-attach fallback always
attaches every non-root node (the connected set always contains the
root, so a best parent always exists). -/
theorem classic_school_tree_never_fails (spells : List Spell) (school : String)
    (themes : List String) (pt : Spell → List String → String × Q) (sims : SimMatrix)
    (mc : Nat) (cfg : BuildConfig) (r : Rng) (h : spells ≠ []) :
    ∃ t, (_build_school_tree spells school themes pt sims mc cfg r).1 = some t ∧
      ∀ nd ∈ t.nodes, nd.formId = t.root ∨ nd.prerequisites ≠ [] := by
  rcases buildSchoolTree_spec spells school themes pt sims mc cfg r h with
    ⟨t, r2, heq, hroots, _⟩
  exact ⟨t, by rw [heq], hroots⟩

def c6spell : Spell :=
  { formId := "0x100",
    school := some "Destruction",
    skillLevel := some "Novice" }

/-- C6 witness: the theorem at a concrete one-spell school. -/
theorem classic_school_tree_never_fails_witness :
    ∃ t, (_build_school_tree [c6spell] "Destruction" [] ptE {} 3 {} { g := rngE 0 }).1 =
        some t ∧
      ∀ nd ∈ t.nodes, nd.formId = t.root ∨ nd.prerequisites ≠ [] :=
  classic_school_tree_never_fails [c6spell] "Destruction" [] ptE {} 3 {} { g := rngE 0 }
    (by decide)

/-- The stored formId under a key (the fix pipeline never touches it). -/
def fidF (m : NodeMap) (k : String) : Option String :=
  (lookupN m k).map (fun n => n.formId)

theorem fidF_updateN (m : NodeMap) (k2 : String) (f : SNode → SNode)
    (hf : ∀ n, (f n).formId = n.formId) (k : String) :
    fidF (updateN m k2 f) k = fidF m k := by
  by_cases h : k = k2
  · subst h
    unfold fidF
    rw [lookupN_updateN_self]
    cases lookupN m k with
    | none => rfl
    | some nd => simp [hf]
  · unfold fidF
    rw [lookupN_updateN_ne m k2 k f h]

theorem fidF_foldl_updateN (l : List String) (g : String → SNode → SNode)
    (hg : ∀ b nd, (g b nd).formId = nd.formId) :
    ∀ (m : NodeMap) (k : String),
      fidF (l.foldl (fun acc b => updateN acc b (g b)) m) k = fidF m k := by
  induction l with
  | nil => intro m k; rfl
  | cons b rest ih =>
    intro m k
    rw [List.foldl_cons, ih, fidF_updateN m b (g b) (hg b)]

theorem fidF_fixApply (fid : String) (u prereqs blocking : List String)
    (bp : String) (m : NodeMap) (k : String) :
    fidF (fixApply fid u prereqs blocking bp m) k = fidF m k := by
  unfold fixApply
  refine (fidF_updateN _ _ _ ?_ _).trans
    ((fidF_updateN _ _ _ ?_ _).trans (fidF_foldl_updateN _ _ ?_ _ _))
  · intro pn
    by_cases hc : fid ∈ pn.children
    · rw [if_pos hc]
    · rw [if_neg hc]
  · intro n2
    rfl
  · intro b nd
    rfl

theorem keysOf_fixApply (fid : String) (u prereqs blocking : List String)
    (bp : String) (m : NodeMap) :
    keysOf (fixApply fid u prereqs blocking bp m) = keysOf m := by
  unfold fixApply
  rw [keysOf_updateN, keysOf_updateN, keysOf_foldl_updateN]

theorem fixNode_preserves (root : String) (mc : Nat) (u : List String)
    (m : NodeMap) (fid : String) :
    keysOf (fixNode root mc u m fid).1 = keysOf m ∧
      ∀ k, fidF (fixNode root mc u m fid).1 k = fidF m k := by
  rcases hl : lookupN m fid with _ | nd
  · have heq : fixNode root mc u m fid = (m, false) := by
      simp [fixNode, hl]
    rw [heq]
    exact ⟨rfl, fun k => rfl⟩
  · by_cases hg : (nd.prerequisites.filter (fun p => decide (p ∉ u ∧ p ≠ root)) = [] ∧
        nd.prerequisites ≠ [])
    · have heq : fixNode root mc u m fid = (m, false) := by
        simp only [fixNode, hl]
        rw [if_pos hg]
      rw [heq]
      exact ⟨rfl, fun k => rfl⟩
    · rcases hbest : (match (nd.prerequisites.filter (fun p => decide (p ∈ u))).find?
          (fun p => (lookupN m p).isSome) with
        | some p => some p
        | none => bestNewParent m mc u fid nd.tier) with _ | bp
      · have heq : fixNode root mc u m fid = (m, false) := by
          simp only [fixNode, hl]
          rw [if_neg hg, hbest]
        rw [heq]
        exact ⟨rfl, fun k => rfl⟩
      · have heq : fixNode root mc u m fid =
            (fixApply fid u nd.prerequisites
              (nd.prerequisites.filter (fun p => decide (p ∉ u ∧ p ≠ root))) bp m, true) := by
          simp only [fixNode, hl]
          rw [if_neg hg, hbest]
        rw [heq]
        exact ⟨keysOf_fixApply _ _ _ _ _ _, fun k => fidF_fixApply _ _ _ _ _ _ _⟩

theorem fixPass_fold_preserves (root : String) (mc : Nat) (u : List String) :
    ∀ (unreach : List String) (m : NodeMap) (c : Nat),
      keysOf ((unreach.foldl (fun acc fid =>
        let r := fixNode root mc u acc.1 fid
        (r.1, acc.2 + (if r.2 then 1 else 0))) (m, c)).1) = keysOf m ∧
      ∀ k, fidF ((unreach.foldl (fun acc fid =>
        let r := fixNode root mc u acc.1 fid
        (r.1, acc.2 + (if r.2 then 1 else 0))) (m, c)).1) k = fidF m k := by
  intro unreach
  induction unreach with
  | nil => intro m c; exact ⟨rfl, fun k => rfl⟩
  | cons fid rest ih =>
    intro m c
    simp only [List.foldl_cons]
    rcases ih (fixNode root mc u m fid).1 (c + (if (fixNode root mc u m fid).2 then 1 else 0))
      with ⟨h1, h2⟩
    rcases fixNode_preserves root mc u m fid with ⟨g1, g2⟩
    exact ⟨h1.trans g1, fun k => (h2 k).trans (g2 k)⟩

theorem fidF_stallAttach (root : String) (m : NodeMap) (fid : String) (k : String) :
    fidF (stallAttach root m fid) k = fidF m k := by
  unfold stallAttach
  cases hl : lookupN m fid with
  | none => rfl
  | some nd =>
    simp only
    refine (fidF_updateN _ _ _ ?_ _).trans
      ((fidF_updateN _ _ _ ?_ _).trans (fidF_foldl_updateN _ _ ?_ _ _))
    · intro rn
      by_cases hc : fid ∈ rn.children
      · rw [if_pos hc]
      · rw [if_neg hc]
    · intro n2
      rfl
    · intro b nd2
      rfl

theorem fidF_stallFold (root : String) (unreach : List String) :
    ∀ (m : NodeMap) (k : String), fidF (stallFold root unreach m) k = fidF m k := by
  induction unreach with
  | nil => intro m k; rfl
  | cons fid rest ih =>
    intro m k
    unfold stallFold
    rw [List.foldl_cons]
    by_cases h : fid = root
    · simp only [if_pos h]
      exact ih m k
    · simp only [if_neg h]
      rw [show rest.foldl (fun acc fid => if fid = root then acc else stallAttach root acc fid)
          (stallAttach root m fid) = stallFold root rest (stallAttach root m fid) from rfl]
      exact (ih (stallAttach root m fid) k).trans (fidF_stallAttach root m fid k)

theorem fixLoop_preserves (root : String) (mc : Nat) :
    ∀ (fuel : Nat) (m : NodeMap) (fixes : Nat),
      keysOf (fixLoop root mc fuel m fixes).1 = keysOf m ∧
      ∀ k, fidF (fixLoop root mc fuel m fixes).1 k = fidF m k := by
  intro fuel
  induction fuel with
  | zero => intro m fixes; exact ⟨rfl, fun k => rfl⟩
  | succ fuel ih =>
    intro m fixes
    simp only [fixLoop]
    split
    · exact ⟨rfl, fun k => rfl⟩
    · split
      · rcases ih (fixPassNodes root mc (simulate_unlocks m root)
          ((keysOf m).filter (fun k => decide (k ∉ simulate_unlocks m root))) m).1
          (fixes + (fixPassNodes root mc (simulate_unlocks m root)
          ((keysOf m).filter (fun k => decide (k ∉ simulate_unlocks m root))) m).2)
          with ⟨h1, h2⟩
        rcases fixPass_fold_preserves root mc (simulate_unlocks m root)
          ((keysOf m).filter (fun k => decide (k ∉ simulate_unlocks m root))) m 0
          with ⟨g1, g2⟩
        exact ⟨h1.trans g1, fun k => (h2 k).trans (g2 k)⟩
      · split
        · rcases ih (stallPassNodes root
            ((keysOf m).filter (fun k => decide (k ∉ simulate_unlocks m root)))
            (fixPassNodes root mc (simulate_unlocks m root)
              ((keysOf m).filter (fun k => decide (k ∉ simulate_unlocks m root))) m).1).1
            (fixes + (stallPassNodes root
            ((keysOf m).filter (fun k => decide (k ∉ simulate_unlocks m root)))
            (fixPassNodes root mc (simulate_unlocks m root)
              ((keysOf m).filter (fun k => decide (k ∉ simulate_unlocks m root))) m).1).2)
            with ⟨h1, h2⟩
          rcases fixPass_fold_preserves root mc (simulate_unlocks m root)
            ((keysOf m).filter (fun k => decide (k ∉ simulate_unlocks m root))) m 0
            with ⟨g1, g2⟩
          constructor
          · rw [h1, stallPassNodes_fst, keysOf_stallFold]
            exact g1
          · intro k
            rw [h2 k, stallPassNodes_fst, fidF_stallFold]
            exact g2 k
        · rcases fixPass_fold_preserves root mc (simulate_unlocks m root)
            ((keysOf m).filter (fun k => decide (k ∉ simulate_unlocks m root))) m 0
            with ⟨g1, g2⟩
          constructor
          · show keysOf (stallPassNodes root _ _).1 = keysOf m
            rw [stallPassNodes_fst, keysOf_stallFold]
            exact g1
          · intro k
            show fidF (stallPassNodes root _ _).1 k = fidF m k
            rw [stallPassNodes_fst, fidF_stallFold]
            exact g2 k

theorem fix_unreachable_preserves (m : NodeMap) (root : String) (mc : Nat) :
    keysOf (fix_unreachable_nodes m root mc).1 = keysOf m ∧
      ∀ k, fidF (fix_unreachable_nodes m root mc).1 k = fidF m k :=
  fixLoop_preserves root mc 20 m 0

theorem keysOf_replaceMapN (m : NodeMap) (k : String) (v : SNode) :
    keysOf (m.map (fun p => if p.1 = k then (k, v) else p)) = keysOf m := by
  induction m with
  | nil => rfl
  | cons p rest ih =>
    by_cases hp : p.1 = k
    · simp only [List.map_cons, if_pos hp, keysOf, List.map]
      rw [hp]
      exact congrArg (fun l => k :: l) (by simpa [keysOf] using ih)
    · simp only [List.map_cons, if_neg hp, keysOf, List.map]
      exact congrArg (fun l => p.1 :: l) (by simpa [keysOf] using ih)

theorem keysOf_insertOrReplaceN (m : NodeMap) (k : String) (v : SNode) :
    keysOf (insertOrReplaceN m k v) =
      if (m.find? (fun p => p.1 = k)).isSome then keysOf m else keysOf m ++ [k] := by
  unfold insertOrReplaceN
  by_cases h : (m.find? (fun p => p.1 = k)).isSome
  · rw [if_pos h, if_pos h]
    exact keysOf_replaceMapN m k v
  · rw [if_neg h, if_neg h]
    simp [keysOf]

theorem mem_keysOf_insertOrReplaceN_self (m : NodeMap) (k : String) (v : SNode) :
    k ∈ keysOf (insertOrReplaceN m k v) := by
  rw [keysOf_insertOrReplaceN]
  by_cases hf : (m.find? (fun p => p.1 = k)).isSome
  · rw [if_pos hf]
    rcases Option.isSome_iff_exists.mp hf with ⟨p, hp⟩
    have hk : p.1 = k := by simpa using List.find?_some hp
    have hmem := List.mem_of_find?_eq_some hp
    rw [← hk]
    exact List.mem_map.mpr ⟨p, hmem, rfl⟩
  · rw [if_neg hf]
    exact List.mem_append.mpr (Or.inr (List.mem_singleton.mpr rfl))

theorem mem_keysOf_insertOrReplaceN_mono (m : NodeMap) (k x : String) (v : SNode)
    (h : x ∈ keysOf m) : x ∈ keysOf (insertOrReplaceN m k v) := by
  rw [keysOf_insertOrReplaceN]
  by_cases hf : (m.find? (fun p => p.1 = k)).isSome
  · rw [if_pos hf]
    exact h
  · rw [if_neg hf]
    exact List.mem_append.mpr (Or.inl h)

/-- Every stored node of a built dict carries its key as formId. -/
def FIvN (m : NodeMap) : Prop := ∀ p ∈ m, p.2.formId = p.1

theorem FIvN_insertOrReplaceN (m : NodeMap) (k : String) (v : SNode)
    (h : FIvN m) (hv : v.formId = k) : FIvN (insertOrReplaceN m k v) := by
  unfold insertOrReplaceN
  by_cases hf : (m.find? (fun p => p.1 = k)).isSome
  · rw [if_pos hf]
    intro p hp
    rcases List.mem_map.mp hp with ⟨q, hq, hqe⟩
    by_cases hqk : q.1 = k
    · rw [if_pos hqk] at hqe
      rw [← hqe]
      exact hv
    · rw [if_neg hqk] at hqe
      rw [← hqe]
      exact h q hq
  · rw [if_neg hf]
    intro p hp
    rcases List.mem_append.mp hp with hp | hp
    · exact h p hp
    · rcases List.mem_singleton.mp hp with rfl
      exact hv

theorem buildDictAll_inv (l : List SNode) :
    FIvN (buildDictAll l) ∧ ∀ nd ∈ l, nd.formId ∈ keysOf (buildDictAll l) := by
  unfold buildDictAll
  suffices hgen : ∀ (l2 : List SNode) (m : NodeMap), FIvN m →
      FIvN (l2.foldl (fun acc n => insertOrReplaceN acc n.formId n) m) ∧
      (∀ x, x ∈ keysOf m →
        x ∈ keysOf (l2.foldl (fun acc n => insertOrReplaceN acc n.formId n) m)) ∧
      ∀ nd ∈ l2, nd.formId ∈ keysOf (l2.foldl (fun acc n => insertOrReplaceN acc n.formId n) m) by
    rcases hgen l [] (by intro p hp; simp at hp) with ⟨h1, _, h3⟩
    exact ⟨h1, h3⟩
  intro l2
  induction l2 with
  | nil =>
    intro m h1
    refine ⟨h1, fun x hx => hx, ?_⟩
    intro nd hnd
    simp at hnd
  | cons a rest ih =>
    intro m h1
    simp only [List.foldl_cons]
    rcases ih (insertOrReplaceN m a.formId a) (FIvN_insertOrReplaceN m _ _ h1 rfl)
      with ⟨i1, i2, i3⟩
    refine ⟨i1, ?_, ?_⟩
    · intro x hx
      exact i2 x (mem_keysOf_insertOrReplaceN_mono m _ x _ hx)
    · intro nd hnd
      rcases List.mem_cons.mp hnd with rfl | hnd2
      · exact i2 nd.formId (mem_keysOf_insertOrReplaceN_self m _ _)
      · exact i3 nd hnd2

/-- Membership by formId survives the auto-fix of one school: the fix
rewrites only prerequisites and children, never keys or formIds. -/
theorem fix_keeps_formId (nodesl : List SNode) (root : String) (mc : Nat) (x : String)
    (h : ∃ nd ∈ nodesl, nd.formId = x) :
    ∃ nd2 ∈ (fix_unreachable_nodes (buildDictAll nodesl) root mc).1.map (fun q => q.2),
      nd2.formId = x := by
  rcases h with ⟨nd, hnd, rfl⟩
  rcases buildDictAll_inv nodesl with ⟨hfi, hcov⟩
  have hkey : nd.formId ∈ keysOf (buildDictAll nodesl) := hcov nd hnd
  rcases fix_unreachable_preserves (buildDictAll nodesl) root mc with ⟨hkeys, hfid⟩
  have hkey2 : nd.formId ∈ keysOf (fix_unreachable_nodes (buildDictAll nodesl) root mc).1 := by
    rw [hkeys]
    exact hkey
  have hsome : (lookupN (fix_unreachable_nodes (buildDictAll nodesl) root mc).1
      nd.formId).isSome := (mem_keys_iff_lookup_isSome _ _).mp hkey2
  rcases hv : lookupN (fix_unreachable_nodes (buildDictAll nodesl) root mc).1 nd.formId
    with _ | v
  · rw [hv] at hsome
    simp at hsome
  · have hpair := lookupN_mem _ _ _ hv
    refine ⟨v, List.mem_map.mpr ⟨(nd.formId, v), hpair, rfl⟩, ?_⟩
    have hsome0 : (lookupN (buildDictAll nodesl) nd.formId).isSome :=
      (mem_keys_iff_lookup_isSome _ _).mp hkey
    rcases hv0 : lookupN (buildDictAll nodesl) nd.formId with _ | v0
    · rw [hv0] at hsome0
      simp at hsome0
    · have hfe := hfid nd.formId
      unfold fidF at hfe
      rw [hv, hv0] at hfe
      have hv0fid : v0.formId = nd.formId := hfi (nd.formId, v0) (lookupN_mem _ _ _ hv0)
      have hvv0 : v.formId = v0.formId := by
        simpa using hfe
      rw [hvv0, hv0fid]

theorem schoolBucket_preserve (k : String) (v : Spell) (sch : String) (ll : List Spell)
    (x : Spell) :
    ∀ (l : List (String × List Spell)), (sch, ll) ∈ l → x ∈ ll →
      ∃ ll2, (sch, ll2) ∈ schoolBucket l k v ∧ x ∈ ll2 := by
  intro l
  induction l with
  | nil =>
    intro hmem _
    simp at hmem
  | cons p rest ih =>
    intro hmem hx
    rcases List.mem_cons.mp hmem with heq | hmem2
    · subst heq
      by_cases hpk : sch = k
      · refine ⟨ll ++ [v], ?_, List.mem_append.mpr (Or.inl hx)⟩
        simp only [schoolBucket]
        rw [if_pos hpk]
        exact List.mem_cons_self _ _
      · refine ⟨ll, ?_, hx⟩
        simp only [schoolBucket]
        rw [if_neg hpk]
        exact List.mem_cons_self _ _
    · by_cases hpk : p.1 = k
      · refine ⟨ll, ?_, hx⟩
        simp only [schoolBucket]
        rw [if_pos hpk]
        exact List.mem_cons_of_mem _ hmem2
      · rcases ih hmem2 hx with ⟨ll2, h2, hx2⟩
        refine ⟨ll2, ?_, hx2⟩
        simp only [schoolBucket]
        rw [if_neg hpk]
        exact List.mem_cons_of_mem _ h2

theorem schoolBucket_new (k : String) (v : Spell) :
    ∀ (l : List (String × List Spell)), ∃ ll, (k, ll) ∈ schoolBucket l k v ∧ v ∈ ll := by
  intro l
  induction l with
  | nil =>
    exact ⟨[v], List.mem_singleton.mpr rfl, List.mem_singleton.mpr rfl⟩
  | cons p rest ih =>
    by_cases hpk : p.1 = k
    · refine ⟨p.2 ++ [v], ?_, List.mem_append.mpr (Or.inr (List.mem_singleton.mpr rfl))⟩
      simp only [schoolBucket]
      rw [if_pos hpk, ← hpk]
      exact List.mem_cons_self _ _
    · rcases ih with ⟨ll, h2, hv2⟩
      refine ⟨ll, ?_, hv2⟩
      simp only [schoolBucket]
      rw [if_neg hpk]
      exact List.mem_cons_of_mem _ h2

theorem school_spells_fold_cover (sch : String) (x : Spell) :
    ∀ (l : List Spell) (acc : List (String × List Spell)),
      ((∃ ll, (sch, ll) ∈ acc ∧ x ∈ ll) ∨
        (x ∈ l ∧ sch = x.school.getD "" ∧
          VALID_SCHOOLS.contains (x.school.getD "") = true)) →
      ∃ ll, (sch, ll) ∈ (l.foldl (fun acc s =>
        let school := s.school.getD ""
        if VALID_SCHOOLS.contains school then schoolBucket acc school s else acc) acc) ∧
        x ∈ ll := by
  intro l
  induction l with
  | nil =>
    intro acc h
    rcases h with h | ⟨hx, _, _⟩
    · exact h
    · simp at hx
  | cons a rest ih =>
    intro acc h
    simp only [List.foldl_cons]
    rcases hva : VALID_SCHOOLS.contains (a.school.getD "") with _ | _
    · rw [if_neg (by simp)]
      refine ih acc ?_
      rcases h with h | ⟨hx, hsch, hvx⟩
      · exact Or.inl h
      · rcases List.mem_cons.mp hx with rfl | hx2
        · rw [hva] at hvx
          simp at hvx
        · exact Or.inr ⟨hx2, hsch, hvx⟩
    · rw [if_pos rfl]
      refine ih (schoolBucket acc (a.school.getD "") a) ?_
      rcases h with ⟨ll, hmem, hx⟩ | ⟨hx, hsch, hvx⟩
      · exact Or.inl (schoolBucket_preserve _ a sch ll x acc hmem hx)
      · rcases List.mem_cons.mp hx with rfl | hx2
        · rcases schoolBucket_new (x.school.getD "") x acc with ⟨ll, hmem, hxll⟩
          exact Or.inl ⟨ll, by rw [hsch]; exact hmem, hxll⟩
        · exact Or.inr ⟨hx2, hsch, hvx⟩

theorem school_spells_of_covers (spells : List Spell) (s : Spell) (hs : s ∈ spells)
    (hv : (s.school.getD "") ∈ VALID_SCHOOLS) :
    ∃ ll, (s.school.getD "", ll) ∈ school_spells_of spells ∧ s ∈ ll := by
  unfold school_spells_of
  exact school_spells_fold_cover (s.school.getD "") s spells []
    (Or.inr ⟨hs, rfl, by simpa using hv⟩)

theorem buildFold_append (config : BuildConfig) (sims : SimMatrix)
    (themes_per_school : List (String × List String))
    (pt : Spell → List String → String × Q) (mc : Nat) :
    ∀ (groups : List (String × List Spell)) (acc : List (String × SchoolResult) × Rng),
      ∃ ext, (groups.foldl (buildSchoolsStep config sims themes_per_school pt mc) acc).1 =
        acc.1 ++ ext := by
  intro groups
  induction groups with
  | nil =>
    intro acc
    exact ⟨[], (List.append_nil _).symm⟩
  | cons p rest ih =>
    intro acc
    simp only [List.foldl_cons]
    rcases hbs : (_build_school_tree p.2 p.1
        (((themes_per_school.find? (fun q => q.1 = p.1)).map (fun q => q.2)).getD [])
        pt sims mc config acc.2).1 with _ | t
    · have hstep : buildSchoolsStep config sims themes_per_school pt mc acc p =
          (acc.1, (_build_school_tree p.2 p.1
            (((themes_per_school.find? (fun q => q.1 = p.1)).map (fun q => q.2)).getD [])
            pt sims mc config acc.2).2) := by
        simp only [buildSchoolsStep, hbs]
      rw [hstep]
      rcases ih (acc.1, (_build_school_tree p.2 p.1
          (((themes_per_school.find? (fun q => q.1 = p.1)).map (fun q => q.2)).getD [])
          pt sims mc config acc.2).2) with ⟨ext, hext⟩
      exact ⟨ext, hext⟩
    · have hstep : buildSchoolsStep config sims themes_per_school pt mc acc p =
          (acc.1 ++ [(p.1, t)], (_build_school_tree p.2 p.1
            (((themes_per_school.find? (fun q => q.1 = p.1)).map (fun q => q.2)).getD [])
            pt sims mc config acc.2).2) := by
        simp only [buildSchoolsStep, hbs]
      rw [hstep]
      rcases ih ((acc.1 ++ [(p.1, t)], (_build_school_tree p.2 p.1
          (((themes_per_school.find? (fun q => q.1 = p.1)).map (fun q => q.2)).getD [])
          pt sims mc config acc.2).2)) with ⟨ext, hext⟩
      exact ⟨[(p.1, t)] ++ ext, hext.trans (List.append_assoc _ _ _)⟩

theorem buildFold_mem (config : BuildConfig) (sims : SimMatrix)
    (themes_per_school : List (String × List String))
    (pt : Spell → List String → String × Q) (mc : Nat) :
    ∀ (groups : List (String × List Spell)) (acc : List (String × SchoolResult) × Rng)
      (sch : String) (ll : List Spell) (s : Spell),
      (sch, ll) ∈ groups → s ∈ ll →
      ∃ res, (sch, res) ∈
          (groups.foldl (buildSchoolsStep config sims themes_per_school pt mc) acc).1 ∧
        ∃ nd ∈ res.nodes, nd.formId = s.formId := by
  intro groups
  induction groups with
  | nil =>
    intro acc sch ll s hmem _
    simp at hmem
  | cons p rest ih =>
    intro acc sch ll s hmem hs
    simp only [List.foldl_cons]
    rcases List.mem_cons.mp hmem with heq | hmem2
    · subst heq
      have hll : ll ≠ [] := List.ne_nil_of_mem hs
      rcases buildSchoolTree_spec ll sch
        (((themes_per_school.find? (fun q => q.1 = sch)).map (fun q => q.2)).getD [])
        pt sims mc config acc.2 hll with ⟨t, r2, hbs, _, hcov⟩
      have hstep : buildSchoolsStep config sims themes_per_school pt mc acc (sch, ll) =
          (acc.1 ++ [(sch, t)], r2) := by
        simp only [buildSchoolsStep, hbs]
      rw [hstep]
      rcases buildFold_append config sims themes_per_school pt mc rest
        ((acc.1 ++ [(sch, t)], r2)) with ⟨ext, hext⟩
      refine ⟨t, ?_, hcov s hs⟩
      rw [hext]
      exact List.mem_append.mpr (Or.inl (List.mem_append.mpr
        (Or.inr (List.mem_singleton.mpr rfl))))
    · exact ih _ sch ll s hmem2 hs

theorem fixFold_append (mc : Nat) :
    ∀ (schools : List (String × SchoolResult)) (acc : List (String × SchoolResult) × Nat),
      ∃ ext, (schools.foldl (fixSchoolsStep mc) acc).1 = acc.1 ++ ext := by
  intro schools
  induction schools with
  | nil =>
    intro acc
    exact ⟨[], (List.append_nil _).symm⟩
  | cons p rest ih =>
    intro acc
    simp only [List.foldl_cons]
    by_cases hroot : p.2.root ≠ ""
    · by_cases hfx : 0 < (fix_unreachable_nodes (buildDictAll p.2.nodes) p.2.root mc).2
      · have hstep : fixSchoolsStep mc acc p =
            (acc.1 ++ [(p.1, { p.2 with nodes := (fix_unreachable_nodes (buildDictAll p.2.nodes) p.2.root mc).1.map (fun q => q.2) })], acc.2 + (fix_unreachable_nodes (buildDictAll p.2.nodes) p.2.root mc).2) := by
          simp only [fixSchoolsStep]
          rw [if_pos hroot, if_pos hfx]
        rw [hstep]
        rcases ih _ with ⟨ext, hext⟩
        exact ⟨[(p.1, { p.2 with nodes := (fix_unreachable_nodes (buildDictAll p.2.nodes) p.2.root mc).1.map (fun q => q.2) })] ++ ext, hext.trans (List.append_assoc _ _ _)⟩
      · have hstep : fixSchoolsStep mc acc p = (acc.1 ++ [(p.1, p.2)], acc.2) := by
          simp only [fixSchoolsStep]
          rw [if_pos hroot, if_neg hfx]
        rw [hstep]
        rcases ih _ with ⟨ext, hext⟩
        exact ⟨[(p.1, p.2)] ++ ext, hext.trans (List.append_assoc _ _ _)⟩
    · have hstep : fixSchoolsStep mc acc p = (acc.1 ++ [(p.1, p.2)], acc.2) := by
        simp only [fixSchoolsStep]
        rw [if_neg hroot]
      rw [hstep]
      rcases ih _ with ⟨ext, hext⟩
      exact ⟨[(p.1, p.2)] ++ ext, hext.trans (List.append_assoc _ _ _)⟩

theorem fixFold_mem (mc : Nat) :
    ∀ (schools : List (String × SchoolResult)) (acc : List (String × SchoolResult) × Nat)
      (sch : String) (res : SchoolResult) (x : String),
      (sch, res) ∈ schools → (∃ nd ∈ res.nodes, nd.formId = x) →
      ∃ res2, (sch, res2) ∈ (schools.foldl (fixSchoolsStep mc) acc).1 ∧
        ∃ nd2 ∈ res2.nodes, nd2.formId = x := by
  intro schools
  induction schools with
  | nil =>
    intro acc sch res x hmem _
    simp at hmem
  | cons p rest ih =>
    intro acc sch res x hmem hnd
    simp only [List.foldl_cons]
    rcases List.mem_cons.mp hmem with heq | hmem2
    · subst heq
      by_cases hroot : res.root ≠ ""
      · by_cases hfx : 0 < (fix_unreachable_nodes (buildDictAll res.nodes) res.root mc).2
        · have hstep : fixSchoolsStep mc acc (sch, res) =
              (acc.1 ++ [(sch, { res with nodes := (fix_unreachable_nodes (buildDictAll res.nodes) res.root mc).1.map (fun q => q.2) })], acc.2 + (fix_unreachable_nodes (buildDictAll res.nodes) res.root mc).2) := by
            simp only [fixSchoolsStep]
            rw [if_pos hroot, if_pos hfx]
          rw [hstep]
          rcases fixFold_append mc rest _ with ⟨ext, hext⟩
          refine ⟨{ res with nodes := (fix_unreachable_nodes (buildDictAll res.nodes) res.root mc).1.map (fun q => q.2) }, ?_, ?_⟩
          · rw [hext]
            exact List.mem_append.mpr (Or.inl (List.mem_append.mpr
              (Or.inr (List.mem_singleton.mpr rfl))))
          · exact fix_keeps_formId res.nodes res.root mc x hnd
        · have hstep : fixSchoolsStep mc acc (sch, res) =
              (acc.1 ++ [(sch, res)], acc.2) := by
            simp only [fixSchoolsStep]
            rw [if_pos hroot, if_neg hfx]
          rw [hstep]
          rcases fixFold_append mc rest _ with ⟨ext, hext⟩
          refine ⟨res, ?_, hnd⟩
          rw [hext]
          exact List.mem_append.mpr (Or.inl (List.mem_append.mpr
            (Or.inr (List.mem_singleton.mpr rfl))))
      · have hstep : fixSchoolsStep mc acc (sch, res) =
            (acc.1 ++ [(sch, res)], acc.2) := by
          simp only [fixSchoolsStep]
          rw [if_neg hroot]
        rw [hstep]
        rcases fixFold_append mc rest _ with ⟨ext, hext⟩
        refine ⟨res, ?_, hnd⟩
        rw [hext]
        exact List.mem_append.mpr (Or.inl (List.mem_append.mpr
          (Or.inr (List.mem_singleton.mpr rfl))))
    · exact ih _ sch res x hmem2 hnd

/-- C5 (amended): an item with a missing or unrecognized TIER is kept -
it is bucketed into Novice and still appears, by formId, among the
nodes of its school's tree (regardless of auto-fix), but an item whose
SCHOOL is missing or not one of the five valid schools is dropped from
the build entirely (the grouping loop skips it), appearing in no
school's tree. -/
theorem classic_valid_school_spells_kept (spells : List Spell) (config : BuildConfig)
    (sims : SimMatrix) (themes_per_school : List (String × List String))
    (pt : Spell → List String → String × Q) (rngOf : Int → Nat → Nat)
    (clock_ms : Nat) (now : String) (s : Spell) (hs : s ∈ spells)
    (hv : (s.school.getD "") ∈ VALID_SCHOOLS) :
    ∃ res, (s.school.getD "", res) ∈
        (classic_build_tree_from_data spells config sims themes_per_school pt rngOf
          clock_ms now).schools ∧
      ∃ nd ∈ res.nodes, nd.formId = s.formId := by
  rcases school_spells_of_covers spells s hs hv with ⟨ll, hmem, hsll⟩
  rcases buildFold_mem config sims themes_per_school pt
      (adaptMaxChildren config.max_children_per_node config.grid_hint)
      (school_spells_of spells)
      (([], ({ g := rngOf (match config.seed with
        | some sd => sd
        | none => (clock_ms : Int) % 1000000) } : Rng)) :
        List (String × SchoolResult) × Rng)
      (s.school.getD "") ll s hmem hsll with ⟨res, hres, hnd⟩
  simp only [classic_build_tree_from_data]
  split
  · rcases fixFold_mem (adaptMaxChildren config.max_children_per_node config.grid_hint)
      ((school_spells_of spells).foldl (buildSchoolsStep config sims themes_per_school pt
        (adaptMaxChildren config.max_children_per_node config.grid_hint))
        ([], ({ g := rngOf (match config.seed with
          | some sd => sd
          | none => (clock_ms : Int) % 1000000) } : Rng))).1
      ([], 0) (s.school.getD "") res s.formId hres hnd with ⟨res2, h2, hnd2⟩
    exact ⟨res2, h2, hnd2⟩
  · exact ⟨res, hres, hnd⟩

def c5bad : Spell :=
  { formId := "0xBAD1",
    school := some "Hexes",
    skillLevel := some "Novice" }

/-- C5 counterexample: an item whose school is not one of the five
recognized schools is not bucketed to any safe default - the build
output contains no school at all for it, and the item is silently
rejected (total node count 0). -/
theorem classic_invalid_school_dropped_counterexample :
    (classic_build_tree_from_data [c5bad] {} {} [] ptE rngE 0 "t").schools = [] ∧
      (classic_build_tree_from_data [c5bad] {} {} [] ptE rngE 0
        "t").validation_total_nodes = 0 := by
  constructor
  · decide
  · decide

def c5good : Spell :=
  { formId := "0x200",
    school := some "Illusion",
    skillLevel := some "StrangeTier" }

/-- C5 witness: a spell with a valid school but an unrecognized tier is
kept in its school's tree. -/
theorem classic_valid_school_spells_kept_witness :
    ∃ res, ("Illusion", res) ∈
        (classic_build_tree_from_data [c5good] {} {} [] ptE rngE 0 "t").schools ∧
      ∃ nd ∈ res.nodes, nd.formId = "0x200" :=
  classic_valid_school_spells_kept [c5good] {} {} [] ptE rngE 0 "t" c5good
    (by decide) (by decide)
